import Mathlib

/-!
# VirtualMemoryManager: a shallow embedding of the address-translation core

The C program keeps one `MMU` struct (page table with a FIFO replacement queue,
a FIFO TLB, the simulated DRAM and the opened backing-store file) and feeds it
one logical address per input line through `MMU_get_byte`.

Modelling conventions
* a C `int` is a Lean `Int`; the counters are never reduced modulo `2^32`
  (signed overflow is undefined in C and needs more than `2^31 - 1` input lines);
* a C array is a function from `Int` indices; every array access of the source is
  guarded by its bounds in the model, and an access outside the declared bounds
  makes the operation return `none`;
* storage that `MMU_init` does not write (the TLB slots, the replacement queue,
  the DRAM bytes) keeps whatever the incoming struct held: `MMU_init` takes that
  struct as an argument;
* `FILE *backing_store` is the content of the opened file, one signed byte per
  file position, long enough for every page that is read; the `exit(1)` of
  `MMU_init` on a failed `fopen` is outside the model;
* the line printed by `MMU_get_byte` is returned as a `Translation` record that
  also carries the locals `page`, `offset` and `frame`.
-/

namespace VMM

/-! ## Constants (`VirtualMemoryManager.h`) -/

/-- Number of physical memory frames of `PAGE_SIZE` bytes. -/
def NUM_FRAMES : Int := 128

/-- Size in bytes of each memory page. -/
def PAGE_SIZE : Int := 256

/-- Number of entries in the page table. -/
def PAGE_TABLE_ENTRIES : Int := 256

/-- Number of entries in the TLB. -/
def TLB_ENTRIES : Int := 16

/-! ## Data model (`VirtualMemoryManager.h`) -/

/-- One TLB slot: `struct TLB_Data { int page, frame; }`. -/
structure TLB_Data where
  page : Int
  frame : Int

/-- The TLB: `TLB_Data data[TLB_ENTRIES]; int num_entries, front, hits;`. -/
structure TLB where
  data : Int → TLB_Data
  num_entries : Int
  front : Int
  hits : Int

/-- The page table: `int data[PAGE_TABLE_ENTRIES]; int replace_queue[NUM_FRAMES];
int faults, oldest, next_empty;`. -/
structure PageTable where
  data : Int → Int
  replace_queue : Int → Int
  faults : Int
  oldest : Int
  next_empty : Int

/-- The simulated memory: `signed char memory[NUM_FRAMES][PAGE_SIZE];
int num_frames_used;`. -/
structure DRAM where
  memory : Int → Int → Int
  num_frames_used : Int

/-- The whole machine: `struct MMU`. The field `backing_store` is the content of
the opened file `BACKING_STORE.bin`, by byte position. -/
structure MMU where
  page_table : PageTable
  tlb : TLB
  ram : DRAM
  backing_store : Int → Int
  translation_count : Int

/-- What one call of `MMU_get_byte` prints (`logical_addr`, `physical_addr`,
`val`) together with the locals it was computed from. -/
structure Translation where
  logical_addr : Int
  page : Int
  offset : Int
  frame : Int
  physical_addr : Int
  val : Int

/-- Array assignment `a[i] = v`. -/
def array_set {α : Type} (a : Int → α) (i : Int) (v : α) : Int → α :=
  fun j => if j = i then v else a j

/-! ## Page table functions -/

/-- Source function `PageTable_lookup`: `return pt->data[page];`. -/
def PageTable_lookup (pt : PageTable) (page : Int) : Option Int :=
  if 0 ≤ page ∧ page < PAGE_TABLE_ENTRIES then some (pt.data page) else none

/-- Source function `PageTable_insert`: `pt->data[page] = frame;
pt->replace_queue[pt->next_empty] = page;
pt->next_empty = (pt->next_empty + 1) % NUM_FRAMES;`. -/
def PageTable_insert (pt : PageTable) (page frame : Int) : Option PageTable :=
  if 0 ≤ page ∧ page < PAGE_TABLE_ENTRIES then
    if 0 ≤ pt.next_empty ∧ pt.next_empty < NUM_FRAMES then
      some { pt with
        data := array_set pt.data page frame
        replace_queue := array_set pt.replace_queue pt.next_empty page
        next_empty := Int.tmod (pt.next_empty + 1) NUM_FRAMES }
    else none
  else none

/-! ## TLB functions -/

/-- The loop of `TLB_lookup`, started at index `i` with `n` iterations left
(`n = num_entries - i`). -/
def TLB_lookup_loop (tlb : TLB) (page : Int) : Nat → Int → Option Int
  | 0, _ => some (-1)
  | n + 1, i =>
    if 0 ≤ i ∧ i < TLB_ENTRIES then
      if (tlb.data i).page = page then some (tlb.data i).frame
      else TLB_lookup_loop tlb page n (i + 1)
    else none

/-- Source function `TLB_lookup`: `for (int i = 0; i < tlb->num_entries; i++)
if (tlb->data[i].page == page) return tlb->data[i].frame;` and `return -1;`
after the loop. -/
def TLB_lookup (tlb : TLB) (page : Int) : Option Int :=
  TLB_lookup_loop tlb page tlb.num_entries.toNat 0

/-- Source function `TLB_insert`: append while `num_entries < TLB_ENTRIES`, otherwise overwrite
slot `front` and advance `front` modulo `TLB_ENTRIES`. -/
def TLB_insert (tlb : TLB) (page frame : Int) : Option TLB :=
  if tlb.num_entries < TLB_ENTRIES then
    if 0 ≤ tlb.num_entries then
      some { tlb with
        data := array_set tlb.data tlb.num_entries { page := page, frame := frame }
        num_entries := tlb.num_entries + 1 }
    else none
  else
    if 0 ≤ tlb.front ∧ tlb.front < TLB_ENTRIES then
      some { tlb with
        data := array_set tlb.data tlb.front { page := page, frame := frame }
        front := Int.tmod (tlb.front + 1) TLB_ENTRIES }
    else none

/-! ## MMU functions -/

/-- Source function `MMU_init`: zero the counters and indices, set every page-table entry to
`-1`, open the backing store. Everything else of the incoming struct is left as
it was. -/
def MMU_init (mmu : MMU) (file : Int → Int) : MMU :=
  { translation_count := 0
    ram := { mmu.ram with num_frames_used := 0 }
    page_table :=
      { mmu.page_table with
        oldest := 0
        next_empty := 0
        faults := 0
        data := fun i =>
          if 0 ≤ i ∧ i < PAGE_TABLE_ENTRIES then -1 else mmu.page_table.data i }
    tlb := { mmu.tlb with hits := 0, num_entries := 0, front := 0 }
    backing_store := file }

/-- Source function `MMU_replace_page`: take the page at `replace_queue[oldest]`, read its frame
from the page table, advance `oldest` modulo `NUM_FRAMES`, set the page's entry
to `-1` and return the frame. -/
def MMU_replace_page (mmu : MMU) : Option (MMU × Int) :=
  if 0 ≤ mmu.page_table.oldest ∧ mmu.page_table.oldest < NUM_FRAMES then
    let page_to_replace := mmu.page_table.replace_queue mmu.page_table.oldest
    if 0 ≤ page_to_replace ∧ page_to_replace < PAGE_TABLE_ENTRIES then
      let frame_to_replace := mmu.page_table.data page_to_replace
      some ({ mmu with
                page_table := { mmu.page_table with
                  oldest := Int.tmod (mmu.page_table.oldest + 1) NUM_FRAMES
                  data := array_set mmu.page_table.data page_to_replace (-1) } },
            frame_to_replace)
    else none
  else none

/-- Source function `MMU_read_from_store`: choose the frame (replacement when all frames are
used, the next empty frame otherwise), copy the `PAGE_SIZE` bytes found at file
position `page * PAGE_SIZE` into it, and record the page in the page table. -/
def MMU_read_from_store (mmu : MMU) (page : Int) : Option (MMU × Int) := do
  let (mmu1, frame) ←
    if mmu.ram.num_frames_used = NUM_FRAMES then MMU_replace_page mmu
    else some ({ mmu with ram := { mmu.ram with
                   num_frames_used := mmu.ram.num_frames_used + 1 } },
               mmu.ram.num_frames_used)
  let buffer : Int → Int := fun i => mmu1.backing_store (page * PAGE_SIZE + i)
  if 0 ≤ frame ∧ frame < NUM_FRAMES then
    let memory : Int → Int → Int := fun f i =>
      if f = frame ∧ 0 ≤ i ∧ i < PAGE_SIZE then buffer i else mmu1.ram.memory f i
    let pt ← PageTable_insert mmu1.page_table page frame
    some ({ mmu1 with ram := { mmu1.ram with memory := memory }, page_table := pt },
          frame)
  else none

/-- The page number of a logical address: `(logical_addr & 0xFFFF) >> 8`. -/
def page_of (logical_addr : Int) : Int :=
  (Int.land logical_addr 0xFFFF) >>> (8 : Nat)

/-- The offset of a logical address: `logical_addr & 0xFF`. -/
def offset_of (logical_addr : Int) : Int :=
  Int.land logical_addr 0xFF

/-- Source function `MMU_get_byte`: split the address, look the page up in the TLB, then in the
page table, then read it from the backing store; fetch the byte, build the
physical address, count the translation. -/
def MMU_get_byte (mmu : MMU) (logical_addr : Int) : Option (MMU × Translation) := do
  let page := page_of logical_addr
  let offset := offset_of logical_addr
  let frame0 ← TLB_lookup mmu.tlb page
  let (mmu2, frame) ←
    if frame0 = -1 then do
      let frame1 ← PageTable_lookup mmu.page_table page
      let (mmu1, frame) ←
        if frame1 = -1 then
          MMU_read_from_store
            { mmu with page_table := { mmu.page_table with
                faults := mmu.page_table.faults + 1 } } page
        else some (mmu, frame1)
      let tlb ← TLB_insert mmu1.tlb page frame
      some ({ mmu1 with tlb := tlb }, frame)
    else
      some ({ mmu with tlb := { mmu.tlb with hits := mmu.tlb.hits + 1 } }, frame0)
  if 0 ≤ frame ∧ frame < NUM_FRAMES ∧ 0 ≤ offset ∧ offset < PAGE_SIZE then
    let val := mmu2.ram.memory frame offset
    let physical_addr := Int.lor (frame <<< (8 : Int)) offset
    some ({ mmu2 with translation_count := mmu2.translation_count + 1 },
          { logical_addr := logical_addr, page := page, offset := offset,
            frame := frame, physical_addr := physical_addr, val := val })
  else none

/-- The loop of `main`: every address read from the input is passed to
`MMU_get_byte`, in order. -/
def MMU_run (mmu : MMU) : List Int → Option MMU
  | [] => some mmu
  | a :: rest =>
    match MMU_get_byte mmu a with
    | none => none
    | some (mmu1, _) => MMU_run mmu1 rest


/-! ## Observations on a call of `MMU_get_byte`

The branch a call takes is decided by the two lookups and by `num_frames_used`;
the definitions below read these off the state before the call. -/

/-- The call `MMU_get_byte s a` finds the page in the TLB (`frame != -1` after
`TLB_lookup`): the branch that increments `tlb.hits`. -/
def is_tlb_hit (s : MMU) (a : Int) : Bool :=
  match TLB_lookup s.tlb (page_of a) with
  | some f => decide (f ≠ -1)
  | none => false

/-- The call `MMU_get_byte s a` misses the TLB and finds the page mapped in the
page table: neither counter is incremented. -/
def is_page_table_hit (s : MMU) (a : Int) : Bool :=
  match TLB_lookup s.tlb (page_of a), PageTable_lookup s.page_table (page_of a) with
  | some f0, some f1 => decide (f0 = -1 ∧ f1 ≠ -1)
  | _, _ => false

/-- The call `MMU_get_byte s a` misses the TLB and the page table: the branch
that increments `page_table.faults` and calls `MMU_read_from_store`. -/
def is_page_fault (s : MMU) (a : Int) : Bool :=
  match TLB_lookup s.tlb (page_of a), PageTable_lookup s.page_table (page_of a) with
  | some f0, some f1 => decide (f0 = -1 ∧ f1 = -1)
  | _, _ => false

/-- The call `MMU_get_byte s a` is a page fault taken with all frames in use,
so `MMU_read_from_store` calls `MMU_replace_page`. -/
def is_eviction (s : MMU) (a : Int) : Bool :=
  is_page_fault s a && decide (s.ram.num_frames_used = NUM_FRAMES)

/-- The page `MMU_replace_page` selects during the call `MMU_get_byte s a`
(`replace_queue[oldest]`), when the call reaches it. -/
def evicted_page (s : MMU) (a : Int) : Option Int :=
  if is_eviction s a then some (s.page_table.replace_queue s.page_table.oldest) else none

/-- How many calls of the run of `l` from `s` satisfy `c` (evaluated on the
state before the call). -/
def count_calls (c : MMU → Int → Bool) : MMU → List Int → Nat
  | _, [] => 0
  | s, a :: rest =>
    (if c s a then 1 else 0) +
      match MMU_get_byte s a with
      | none => 0
      | some (s1, _) => count_calls c s1 rest

/-- Some call of the run of `l` from `s` hands page `p` to `MMU_replace_page`. -/
def evicts_page (p : Int) (s : MMU) (l : List Int) : Bool :=
  decide (0 < count_calls (fun s1 a => decide (evicted_page s1 a = some p)) s l)

/-- The input lines `first * 256, (first + 1) * 256, ...`: the addresses of offset
0 of `count` consecutive pages starting at page `first`. -/
def pages_from (first count : Nat) : List Int :=
  (List.range count).map (fun (p : Nat) => ((first + p : Nat) : Int) * 256)

/-- An arbitrary content for the struct passed to `MMU_init` (the storage is
not initialised by the program). -/
def sample_mmu : MMU :=
  { page_table := ⟨fun _ => 0, fun _ => 0, 7, 3, 9⟩
    tlb := ⟨fun _ => ⟨0, 0⟩, 5, 2, 1⟩
    ram := ⟨fun _ _ => 0, 77⟩
    backing_store := fun _ => 0
    translation_count := 4 }

/-- A backing store in which every byte of page `p` is `p - 128`. -/
def sample_file : Int → Int := fun i => i / 256 - 128

/-! ## Specification predicates -/

/-- The effect of a successful `TLB_insert` of `(p, f)`: slot `k` holds the new
entry, every other live slot was live before and keeps its content. -/
def TLB_inserted (tlb t : TLB) (p f : Int) : Prop :=
  ∃ k, 0 ≤ k ∧ k < t.num_entries ∧ t.num_entries ≤ TLB_ENTRIES ∧
    tlb.num_entries ≤ t.num_entries ∧ 0 ≤ t.front ∧ t.front < TLB_ENTRIES ∧
    t.hits = tlb.hits ∧ t.data k = { page := p, frame := f } ∧
    ∀ i, 0 ≤ i → i < t.num_entries → i ≠ k → i < tlb.num_entries ∧ t.data i = tlb.data i

/-! ## The state invariant -/

/-- What holds of every state between two calls of `MMU_get_byte`: the indices
are in range, queue position `i` records the page held by frame `i`, every
mapped page owns a populated frame that holds its bytes, and every live TLB
entry names a populated frame that the page table either still gives to the
entry's page or has taken away from it. -/
structure Inv (s : MMU) : Prop where
  nfu_lo : 0 ≤ s.ram.num_frames_used
  nfu_hi : s.ram.num_frames_used ≤ NUM_FRAMES
  oldest_lo : 0 ≤ s.page_table.oldest
  oldest_hi : s.page_table.oldest < NUM_FRAMES
  filling : s.ram.num_frames_used < NUM_FRAMES →
    s.page_table.oldest = 0 ∧ s.page_table.next_empty = s.ram.num_frames_used
  full : s.ram.num_frames_used = NUM_FRAMES →
    s.page_table.next_empty = s.page_table.oldest
  queue_ok : ∀ i, 0 ≤ i → i < s.ram.num_frames_used →
    0 ≤ s.page_table.replace_queue i ∧
    s.page_table.replace_queue i < PAGE_TABLE_ENTRIES ∧
    s.page_table.data (s.page_table.replace_queue i) = i
  data_ok : ∀ p, 0 ≤ p → p < PAGE_TABLE_ENTRIES → s.page_table.data p ≠ -1 →
    0 ≤ s.page_table.data p ∧ s.page_table.data p < s.ram.num_frames_used ∧
    s.page_table.replace_queue (s.page_table.data p) = p
  mem_ok : ∀ p, 0 ≤ p → p < PAGE_TABLE_ENTRIES → s.page_table.data p ≠ -1 →
    ∀ o, 0 ≤ o → o < PAGE_SIZE →
      s.ram.memory (s.page_table.data p) o = s.backing_store (p * PAGE_SIZE + o)
  tlb_n_lo : 0 ≤ s.tlb.num_entries
  tlb_n_hi : s.tlb.num_entries ≤ TLB_ENTRIES
  tlb_front_lo : 0 ≤ s.tlb.front
  tlb_front_hi : s.tlb.front < TLB_ENTRIES
  tlb_ok : ∀ i, 0 ≤ i → i < s.tlb.num_entries →
    0 ≤ (s.tlb.data i).page ∧ (s.tlb.data i).page < PAGE_TABLE_ENTRIES ∧
    0 ≤ (s.tlb.data i).frame ∧ (s.tlb.data i).frame < s.ram.num_frames_used ∧
    (s.page_table.data (s.tlb.data i).page = (s.tlb.data i).frame ∨
     s.page_table.data (s.tlb.data i).page = -1)
  tlb_distinct : ∀ i j, 0 ≤ i → i < s.tlb.num_entries → 0 ≤ j → j < s.tlb.num_entries →
    (s.tlb.data i).page = (s.tlb.data j).page → i = j

/-- Branch 1 of `MMU_get_byte`: the page is found in the TLB. -/
def StepTlbHit (s : MMU) (a : Int) (s1 : MMU) (r : Translation) : Prop :=
  TLB_lookup s.tlb (page_of a) = some r.frame ∧ r.frame ≠ -1 ∧
  s1.page_table = s.page_table ∧ s1.ram = s.ram ∧
  s1.tlb = { s.tlb with hits := s.tlb.hits + 1 }

/-- Branch 2 of `MMU_get_byte`: not in the TLB, mapped in the page table. -/
def StepPageTableHit (s : MMU) (a : Int) (s1 : MMU) (r : Translation) : Prop :=
  TLB_lookup s.tlb (page_of a) = some (-1) ∧
  s.page_table.data (page_of a) = r.frame ∧ r.frame ≠ -1 ∧
  s1.page_table = s.page_table ∧ s1.ram = s.ram ∧
  TLB_insert s.tlb (page_of a) r.frame = some s1.tlb

/-- Branch 3 of `MMU_get_byte`: a page fault served from the next empty frame. -/
def StepFaultFill (s : MMU) (a : Int) (s1 : MMU) (r : Translation) : Prop :=
  TLB_lookup s.tlb (page_of a) = some (-1) ∧
  s.page_table.data (page_of a) = -1 ∧
  s.ram.num_frames_used ≠ NUM_FRAMES ∧
  r.frame = s.ram.num_frames_used ∧
  s1.page_table =
    { data := array_set s.page_table.data (page_of a) r.frame
      replace_queue := array_set s.page_table.replace_queue s.page_table.next_empty (page_of a)
      faults := s.page_table.faults + 1
      oldest := s.page_table.oldest
      next_empty := Int.tmod (s.page_table.next_empty + 1) NUM_FRAMES } ∧
  s1.ram =
    { memory := fun f i =>
        if f = r.frame ∧ 0 ≤ i ∧ i < PAGE_SIZE then
          s.backing_store (page_of a * PAGE_SIZE + i)
        else s.ram.memory f i
      num_frames_used := s.ram.num_frames_used + 1 } ∧
  TLB_insert s.tlb (page_of a) r.frame = some s1.tlb

/-- Branch 4 of `MMU_get_byte`: a page fault served by `MMU_replace_page`. -/
def StepFaultEvict (s : MMU) (a : Int) (s1 : MMU) (r : Translation) : Prop :=
  TLB_lookup s.tlb (page_of a) = some (-1) ∧
  s.page_table.data (page_of a) = -1 ∧
  s.ram.num_frames_used = NUM_FRAMES ∧
  r.frame = s.page_table.data (s.page_table.replace_queue s.page_table.oldest) ∧
  s1.page_table =
    { data := array_set (array_set s.page_table.data
                (s.page_table.replace_queue s.page_table.oldest) (-1)) (page_of a) r.frame
      replace_queue := array_set s.page_table.replace_queue s.page_table.next_empty (page_of a)
      faults := s.page_table.faults + 1
      oldest := Int.tmod (s.page_table.oldest + 1) NUM_FRAMES
      next_empty := Int.tmod (s.page_table.next_empty + 1) NUM_FRAMES } ∧
  s1.ram =
    { memory := fun f i =>
        if f = r.frame ∧ 0 ≤ i ∧ i < PAGE_SIZE then
          s.backing_store (page_of a * PAGE_SIZE + i)
        else s.ram.memory f i
      num_frames_used := s.ram.num_frames_used } ∧
  TLB_insert s.tlb (page_of a) r.frame = some s1.tlb

/-- What every branch of `MMU_get_byte` does. -/
def StepCommon (s : MMU) (a : Int) (s1 : MMU) (r : Translation) : Prop :=
  r.logical_addr = a ∧ r.page = page_of a ∧ r.offset = offset_of a ∧
  r.physical_addr = Int.lor (r.frame <<< (8 : Int)) (offset_of a) ∧
  r.val = s1.ram.memory r.frame (offset_of a) ∧
  0 ≤ r.frame ∧ r.frame < NUM_FRAMES ∧
  s1.backing_store = s.backing_store ∧
  s1.translation_count = s.translation_count + 1

/-- The state reached from the initial one by reading the addresses of `l` when
their pages are pairwise distinct and `l` has at most `NUM_FRAMES = 128`
entries: the `j`-th page sits in frame `j`, no other page is mapped, and the
TLB (`TLB_ENTRIES = 16` slots) holds the last 16 pages, the `j`-th one in slot
`j % 16`. -/
structure FreshState (s : MMU) (l : List Int) : Prop where
  inv : Inv s
  nfu : s.ram.num_frames_used = l.length
  faults : s.page_table.faults = l.length
  oldest : s.page_table.oldest = 0
  mapped : ∀ (j : Nat) (x : Int), l[j]? = some x → s.page_table.data (page_of x) = j
  unmapped : ∀ p, 0 ≤ p → p < 256 → p ∉ l.map page_of → s.page_table.data p = -1
  tlb_n : s.tlb.num_entries = min (l.length : Int) 16
  tlb_front : s.tlb.front = if (l.length : Int) < 16 then 0 else (l.length : Int) % 16
  tlb_slot : ∀ (j : Nat) (x : Int), l[j]? = some x → l.length ≤ j + 16 →
    s.tlb.data ((j : Int) % 16) = { page := page_of x, frame := j }

/-- The pages the page table maps to a frame, in increasing order. -/
def mapped_pages (s : MMU) : List Int :=
  ((List.range PAGE_TABLE_ENTRIES.toNat).map (fun (p : Nat) => (p : Int))).filter
    (fun p => decide (s.page_table.data p ≠ -1))

/-- The live part of the replacement queue: its first `num_frames_used` entries. -/
def live_queue (s : MMU) : List Int :=
  (List.range s.ram.num_frames_used.toNat).map
    (fun (i : Nat) => s.page_table.replace_queue (i : Int))

/-- Some live TLB slot (index below `num_entries`) holds the page. -/
def TLB_has_page (tlb : TLB) (page : Int) : Bool :=
  (List.range tlb.num_entries.toNat).any
    (fun (i : Nat) => decide ((tlb.data (i : Int)).page = page))

/-- A sequence of `TLB_insert` calls, one per `(page, frame)` pair, in order. -/
def TLB_insert_all : TLB → List (Int × Int) → Option TLB
  | t, [] => some t
  | t, x :: rest =>
    match TLB_insert t x.1 x.2 with
    | none => none
    | some t1 => TLB_insert_all t1 rest

/-- Every page of the sequence is absent from the TLB at the time it is
inserted. -/
def absent_on_insert : TLB → List (Int × Int) → Bool
  | _, [] => true
  | t, x :: rest =>
    (!TLB_has_page t x.1) &&
      match TLB_insert t x.1 x.2 with
      | none => true
      | some t1 => absent_on_insert t1 rest

/-- The pairs `(0, 0), (1, 1), ..., (count - 1, count - 1)`. -/
def pairs_upto (count : Nat) : List (Int × Int) :=
  (List.range count).map (fun (p : Nat) => ((p : Int), (p : Int)))

/-- The TLB after the insertions `l` into an empty TLB, each of a page absent at
that time: the `j`-th pair sits in slot `j % 16` as long as it is among the last
16, and the pages of the last 16 pairs are pairwise distinct. -/
structure FifoTLB (t : TLB) (l : List (Int × Int)) : Prop where
  n : t.num_entries = min (l.length : Int) 16
  front : t.front = if (l.length : Int) < 16 then 0 else (l.length : Int) % 16
  slot : ∀ (j : Nat) (x : Int × Int), l[j]? = some x → l.length ≤ j + 16 →
    t.data ((j : Int) % 16) = { page := x.1, frame := x.2 }
  distinct : ∀ (i j : Nat) (x y : Int × Int), l[i]? = some x → l[j]? = some y →
    l.length ≤ i + 16 → l.length ≤ j + 16 → x.1 = y.1 → i = j

/-- For each page, the position in the input (counted from `k`) of the page
fault that last installed it: every page fault of the run of `l` from `s`
records its position for its page, later faults overwriting earlier ones. -/
def last_install : MMU → List Int → Nat → (Int → Nat) → Int → Nat
  | _, [], _, T => T
  | s, a :: rest, k, T =>
    match MMU_get_byte s a with
    | none => T
    | some (s1, _) =>
      last_install s1 rest (k + 1)
        (if is_page_fault s a then array_set T (page_of a) k else T)

/-- The replacement queue is ordered by installation: after the input `h`, with
`T` the recorded installation positions, every live queue entry was installed
by an input of `h` for its page, and going round the queue from `oldest` the
installation positions increase. -/
structure InstallOrder (s : MMU) (h : List Int) (T : Int → Nat) : Prop where
  recent : ∀ i, 0 ≤ i → i < s.ram.num_frames_used →
    T (s.page_table.replace_queue i) < h.length ∧
    ∃ x, h[T (s.page_table.replace_queue i)]? = some x ∧
      page_of x = s.page_table.replace_queue i
  ordered : ∀ i j, 0 ≤ i → i < s.ram.num_frames_used → 0 ≤ j → j < s.ram.num_frames_used →
    (i - s.page_table.oldest) % 128 < (j - s.page_table.oldest) % 128 →
    T (s.page_table.replace_queue i) < T (s.page_table.replace_queue j)

/-- The state of a run in which no page has been evicted: the mapped pages are
exactly the pages `T` touched so far, each of them has its own frame, and every
live TLB entry agrees with the page table. -/
structure AllResident (s : MMU) (T : Finset Int) : Prop where
  inv : Inv s
  mapped : ∀ p, 0 ≤ p → p < PAGE_TABLE_ENTRIES → (s.page_table.data p ≠ -1 ↔ p ∈ T)
  range : ∀ p, p ∈ T → 0 ≤ p ∧ p < PAGE_TABLE_ENTRIES
  card : (T.card : Int) = s.ram.num_frames_used
  tlb_agree : ∀ i, 0 ≤ i → i < s.tlb.num_entries →
    s.page_table.data (s.tlb.data i).page = (s.tlb.data i).frame


/-! ## Address arithmetic -/

theorem land_low_bits (a : Int) (k : Nat) :
    Int.land a ((2 ^ k - 1 : Nat) : Int) = a % ((2 ^ k : Nat) : Int) := by
  have hpos : 0 < 2 ^ k := Nat.pos_pow_of_pos _ (by decide)
  cases a with
  | ofNat m =>
    show ((Nat.land m (2 ^ k - 1) : Nat) : Int) = _
    have hm : Nat.land m (2 ^ k - 1) = m % 2 ^ k := Nat.and_pow_two_sub_one_eq_mod m k
    rw [hm]; rfl
  | negSucc m =>
    show ((Nat.ldiff (2 ^ k - 1) m : Nat) : Int) = _
    have hlt : m % 2 ^ k < 2 ^ k := Nat.mod_lt _ hpos
    have h : Nat.ldiff (2 ^ k - 1) m = 2 ^ k - (m % 2 ^ k + 1) := by
      apply Nat.eq_of_testBit_eq
      intro i
      rw [Nat.testBit_two_pow_sub_succ hlt, Nat.testBit_mod_two_pow]
      simp [Nat.ldiff, Nat.testBit_bitwise, Nat.testBit_two_pow_sub_one]
      cases decide (i < k) <;> simp
    rw [h, Int.negSucc_emod _ (by exact_mod_cast hpos)]
    generalize 2 ^ k = P at *
    omega

theorem offset_of_eq (a : Int) : offset_of a = a % 256 := by
  have h := land_low_bits a 8
  simpa [offset_of] using h

theorem page_of_eq (a : Int) : page_of a = a % 65536 / 256 := by
  have h : Int.land a 0xFFFF = a % 65536 := by
    have h := land_low_bits a 16
    simpa using h
  unfold page_of
  rw [h, Int.shiftRight_eq_div_pow]; rfl

theorem page_of_bounds (a : Int) : 0 ≤ page_of a ∧ page_of a < 256 := by
  rw [page_of_eq]; omega

theorem offset_of_bounds (a : Int) : 0 ≤ offset_of a ∧ offset_of a < 256 := by
  rw [offset_of_eq]; omega

theorem lor_shiftLeft_eq (f o : Int) (hf : 0 ≤ f) (ho : 0 ≤ o) (ho2 : o < 256) :
    Int.lor (f <<< (8 : Int)) o = f * 256 + o := by
  obtain ⟨m, rfl⟩ := Int.eq_ofNat_of_zero_le hf
  obtain ⟨n, rfl⟩ := Int.eq_ofNat_of_zero_le ho
  have hn : n < 2 ^ 8 := by omega
  have h1 : ((m : Int) <<< (8 : Int)) = ((m <<< 8 : Nat) : Int) := Int.shiftLeft_coe_nat m 8
  rw [h1]
  show ((Nat.lor (m <<< 8) n : Nat) : Int) = _
  have h2 : Nat.lor (m <<< 8) n = 2 ^ 8 * m + n := by
    rw [Nat.shiftLeft_eq, Nat.mul_comm]
    exact (Nat.mul_add_lt_is_or hn m).symm
  rw [h2]; push_cast; ring

/-! ## The TLB scan and the TLB insertion -/

theorem TLB_lookup_loop_spec (tlb : TLB) (page : Int) :
    ∀ (n : Nat) (i : Int), 0 ≤ i → i + n ≤ TLB_ENTRIES →
      ∃ r, TLB_lookup_loop tlb page n i = some r ∧
        ((r = -1 ∧ ∀ j, i ≤ j → j < i + n → (tlb.data j).page ≠ page) ∨
         (∃ k, i ≤ k ∧ k < i + n ∧ (tlb.data k).page = page ∧ (tlb.data k).frame = r ∧
            ∀ j, i ≤ j → j < k → (tlb.data j).page ≠ page)) := by
  intro n
  induction n with
  | zero =>
    intro i _ _
    exact ⟨-1, rfl, Or.inl ⟨rfl, fun j h1 h2 => by omega⟩⟩
  | succ n ih =>
    intro i hi hn
    have hb : 0 ≤ i ∧ i < TLB_ENTRIES := ⟨hi, by push_cast at hn; omega⟩
    by_cases hp : (tlb.data i).page = page
    · refine ⟨(tlb.data i).frame, by simp [TLB_lookup_loop, hb, hp], Or.inr ⟨i, le_refl _, ?_, hp, rfl, ?_⟩⟩
      · push_cast; omega
      · intro j h1 h2; omega
    · obtain ⟨r, hr, hcase⟩ := ih (i + 1) (by omega) (by push_cast at hn; omega)
      refine ⟨r, by simp [TLB_lookup_loop, hb, hp, hr], ?_⟩
      rcases hcase with ⟨h1, h2⟩ | ⟨k, hk1, hk2, hk3, hk4, hk5⟩
      · left
        refine ⟨h1, fun j hj1 hj2 => ?_⟩
        by_cases hji : j = i
        · subst hji; exact hp
        · exact h2 j (by omega) (by push_cast at hj2; omega)
      · right
        refine ⟨k, by omega, by push_cast; omega, hk3, hk4, fun j hj1 hj2 => ?_⟩
        by_cases hji : j = i
        · subst hji; exact hp
        · exact hk5 j (by omega) hj2

theorem TLB_lookup_spec (tlb : TLB) (page : Int)
    (h0 : 0 ≤ tlb.num_entries) (h1 : tlb.num_entries ≤ TLB_ENTRIES) :
    ∃ r, TLB_lookup tlb page = some r ∧
      ((r = -1 ∧ ∀ j, 0 ≤ j → j < tlb.num_entries → (tlb.data j).page ≠ page) ∨
       (∃ k, 0 ≤ k ∧ k < tlb.num_entries ∧ (tlb.data k).page = page ∧
          (tlb.data k).frame = r ∧ ∀ j, 0 ≤ j → j < k → (tlb.data j).page ≠ page)) := by
  have hn : ((tlb.num_entries.toNat : Nat) : Int) = tlb.num_entries := Int.toNat_of_nonneg h0
  have h := TLB_lookup_loop_spec tlb page tlb.num_entries.toNat 0 (le_refl _) (by rw [hn]; omega)
  rw [hn] at h
  simpa [TLB_lookup] using h

theorem TLB_insert_spec (tlb : TLB) (p f : Int)
    (h0 : 0 ≤ tlb.num_entries) (h1 : tlb.num_entries ≤ TLB_ENTRIES)
    (hf0 : 0 ≤ tlb.front) (hf1 : tlb.front < TLB_ENTRIES) :
    ∃ t, TLB_insert tlb p f = some t ∧ TLB_inserted tlb t p f := by
  unfold TLB_ENTRIES at *
  by_cases hlt : tlb.num_entries < 16
  · refine ⟨{ tlb with
        data := array_set tlb.data tlb.num_entries { page := p, frame := f }
        num_entries := tlb.num_entries + 1 }, by simp [TLB_insert, TLB_ENTRIES, hlt, h0],
      tlb.num_entries, ?_⟩
    refine ⟨h0, ?_, ?_, ?_, hf0, hf1, rfl, ?_, ?_⟩
    · show tlb.num_entries < tlb.num_entries + 1
      omega
    · show tlb.num_entries + 1 ≤ 16
      omega
    · show tlb.num_entries ≤ tlb.num_entries + 1
      omega
    · simp [array_set]
    · intro i _ hi2 hi3
      have hi2 : i < tlb.num_entries + 1 := hi2
      exact ⟨by omega, by simp [array_set, hi3]⟩
  · have ht : Int.tmod (tlb.front + 1) 16 = (tlb.front + 1) % 16 :=
      Int.tmod_eq_emod (by omega) (by decide)
    refine ⟨{ tlb with
        data := array_set tlb.data tlb.front { page := p, frame := f }
        front := Int.tmod (tlb.front + 1) TLB_ENTRIES },
      by simp [TLB_insert, TLB_ENTRIES, hlt, hf0, hf1], tlb.front, ?_⟩
    refine ⟨hf0, ?_, h1, le_refl _, ?_, ?_, rfl, ?_, ?_⟩
    · show tlb.front < tlb.num_entries
      omega
    · show 0 ≤ Int.tmod (tlb.front + 1) 16
      rw [ht]; omega
    · show Int.tmod (tlb.front + 1) 16 < 16
      rw [ht]; omega
    · simp [array_set]
    · intro i _ hi2 hi3
      exact ⟨hi2, by simp [array_set, hi3]⟩

/-! ## The four branches of `MMU_get_byte` -/

theorem step_cases (s : MMU) (a : Int) (hI : Inv s) :
    ∃ s1 r, MMU_get_byte s a = some (s1, r) ∧ StepCommon s a s1 r ∧
      (StepTlbHit s a s1 r ∨ StepPageTableHit s a s1 r ∨
       StepFaultFill s a s1 r ∨ StepFaultEvict s a s1 r) := by
  obtain ⟨hp0, hp1⟩ := page_of_bounds a
  obtain ⟨ho0, ho1⟩ := offset_of_bounds a
  obtain ⟨f0, hlook, hcase⟩ := TLB_lookup_spec s.tlb (page_of a) hI.tlb_n_lo hI.tlb_n_hi
  have hnfu0 := hI.nfu_lo
  have hnfu1 := hI.nfu_hi
  simp only [NUM_FRAMES] at hnfu1
  rcases hcase with ⟨hf0, hmiss⟩ | ⟨k, hk0, hk1, hkp, hkf, _⟩
  · subst hf0
    by_cases hpt : s.page_table.data (page_of a) = -1
    · by_cases hfull : s.ram.num_frames_used = NUM_FRAMES
      · obtain ⟨hq0, hq1, hqd⟩ := hI.queue_ok s.page_table.oldest hI.oldest_lo
          (by rw [hfull]; exact hI.oldest_hi)
        have hol := hI.oldest_lo
        have hoh := hI.oldest_hi
        have hne := hI.full hfull
        simp only [NUM_FRAMES, PAGE_TABLE_ENTRIES] at hfull hq1 hoh
        obtain ⟨t, ht, _⟩ := TLB_insert_spec s.tlb (page_of a) s.page_table.oldest
          hI.tlb_n_lo hI.tlb_n_hi hI.tlb_front_lo hI.tlb_front_hi
        refine ⟨{ s with
            page_table :=
              { data := array_set (array_set s.page_table.data
                  (s.page_table.replace_queue s.page_table.oldest) (-1)) (page_of a)
                  (s.page_table.data (s.page_table.replace_queue s.page_table.oldest))
                replace_queue :=
                  array_set s.page_table.replace_queue s.page_table.next_empty (page_of a)
                faults := s.page_table.faults + 1
                oldest := Int.tmod (s.page_table.oldest + 1) NUM_FRAMES
                next_empty := Int.tmod (s.page_table.next_empty + 1) NUM_FRAMES }
            ram :=
              { memory := fun f i =>
                  if f = s.page_table.data (s.page_table.replace_queue s.page_table.oldest)
                      ∧ 0 ≤ i ∧ i < PAGE_SIZE then
                    s.backing_store (page_of a * PAGE_SIZE + i)
                  else s.ram.memory f i
                num_frames_used := s.ram.num_frames_used }
            tlb := t
            translation_count := s.translation_count + 1 },
          { logical_addr := a, page := page_of a, offset := offset_of a,
            frame := s.page_table.data (s.page_table.replace_queue s.page_table.oldest),
            physical_addr := Int.lor
              (s.page_table.data (s.page_table.replace_queue s.page_table.oldest) <<< (8 : Int))
              (offset_of a),
            val := s.backing_store (page_of a * PAGE_SIZE + offset_of a) }, ?_, ?_, ?_⟩
        · simp [MMU_get_byte, hlook, PageTable_lookup, PAGE_TABLE_ENTRIES, hp0, hp1, hpt,
            MMU_read_from_store, MMU_replace_page, PageTable_insert, hfull, hqd, ht,
            NUM_FRAMES, PAGE_SIZE, hq0, hq1, hol, hoh, hne, ho0, ho1]
        · refine ⟨rfl, rfl, rfl, rfl, ?_, ?_, ?_, rfl, rfl⟩
          · simp [PAGE_SIZE, ho0, ho1]
          · show 0 ≤ s.page_table.data (s.page_table.replace_queue s.page_table.oldest)
            rw [hqd]; exact hol
          · show s.page_table.data (s.page_table.replace_queue s.page_table.oldest) < NUM_FRAMES
            rw [hqd]; exact hI.oldest_hi
        · exact Or.inr (Or.inr (Or.inr ⟨hlook, hpt, by simp only [NUM_FRAMES]; exact hfull,
            rfl, rfl, rfl, by rw [hqd]; exact ht⟩))
      · have hlt : s.ram.num_frames_used < NUM_FRAMES := by
          simp only [NUM_FRAMES] at hfull ⊢; omega
        obtain ⟨_, hne⟩ := hI.filling hlt
        simp only [NUM_FRAMES] at hfull hlt
        obtain ⟨t, ht, _⟩ := TLB_insert_spec s.tlb (page_of a) s.ram.num_frames_used
          hI.tlb_n_lo hI.tlb_n_hi hI.tlb_front_lo hI.tlb_front_hi
        refine ⟨{ s with
            page_table :=
              { data := array_set s.page_table.data (page_of a) s.ram.num_frames_used
                replace_queue :=
                  array_set s.page_table.replace_queue s.page_table.next_empty (page_of a)
                faults := s.page_table.faults + 1
                oldest := s.page_table.oldest
                next_empty := Int.tmod (s.page_table.next_empty + 1) NUM_FRAMES }
            ram :=
              { memory := fun f i =>
                  if f = s.ram.num_frames_used ∧ 0 ≤ i ∧ i < PAGE_SIZE then
                    s.backing_store (page_of a * PAGE_SIZE + i)
                  else s.ram.memory f i
                num_frames_used := s.ram.num_frames_used + 1 }
            tlb := t
            translation_count := s.translation_count + 1 },
          { logical_addr := a, page := page_of a, offset := offset_of a,
            frame := s.ram.num_frames_used,
            physical_addr := Int.lor (s.ram.num_frames_used <<< (8 : Int)) (offset_of a),
            val := s.backing_store (page_of a * PAGE_SIZE + offset_of a) }, ?_, ?_, ?_⟩
        · simp [MMU_get_byte, hlook, PageTable_lookup, PAGE_TABLE_ENTRIES, hp0, hp1, hpt,
            MMU_read_from_store, PageTable_insert, hfull, ht,
            NUM_FRAMES, PAGE_SIZE, hnfu0, hlt, hne, ho0, ho1]
        · refine ⟨rfl, rfl, rfl, rfl, ?_, hnfu0, by simp only [NUM_FRAMES]; exact hlt, rfl, rfl⟩
          simp [PAGE_SIZE, ho0, ho1]
        · exact Or.inr (Or.inr (Or.inl ⟨hlook, hpt, by simp only [NUM_FRAMES]; exact hfull,
            rfl, rfl, rfl, ht⟩))
    · obtain ⟨hd0, hd1, _⟩ := hI.data_ok _ hp0 hp1 hpt
      obtain ⟨t, ht, _⟩ := TLB_insert_spec s.tlb (page_of a) (s.page_table.data (page_of a))
        hI.tlb_n_lo hI.tlb_n_hi hI.tlb_front_lo hI.tlb_front_hi
      refine ⟨{ s with tlb := t, translation_count := s.translation_count + 1 },
        { logical_addr := a, page := page_of a, offset := offset_of a,
          frame := s.page_table.data (page_of a),
          physical_addr := Int.lor (s.page_table.data (page_of a) <<< (8 : Int)) (offset_of a),
          val := s.ram.memory (s.page_table.data (page_of a)) (offset_of a) }, ?_, ?_, ?_⟩
      · have hb : s.page_table.data (page_of a) < 128 := by omega
        simp [MMU_get_byte, hlook, PageTable_lookup, PAGE_TABLE_ENTRIES, hp0, hp1, hpt, ht,
          NUM_FRAMES, PAGE_SIZE, hd0, hb, ho0, ho1]
      · exact ⟨rfl, rfl, rfl, rfl, rfl, hd0, by simp only [NUM_FRAMES]; omega, rfl, rfl⟩
      · exact Or.inr (Or.inl ⟨hlook, rfl, hpt, rfl, rfl, ht⟩)
  · obtain ⟨_, _, hfr0, hfr1, _⟩ := hI.tlb_ok k hk0 hk1
    rw [hkf] at hfr0 hfr1
    have hne : f0 ≠ -1 := by omega
    refine ⟨{ s with tlb := { s.tlb with hits := s.tlb.hits + 1 },
                     translation_count := s.translation_count + 1 },
      { logical_addr := a, page := page_of a, offset := offset_of a, frame := f0,
        physical_addr := Int.lor (f0 <<< (8 : Int)) (offset_of a),
        val := s.ram.memory f0 (offset_of a) }, ?_, ?_, ?_⟩
    · have hb : f0 < 128 := by omega
      simp [MMU_get_byte, hlook, hne, NUM_FRAMES, PAGE_SIZE, hfr0, hb, ho0, ho1]
    · exact ⟨rfl, rfl, rfl, rfl, rfl, hfr0, by simp only [NUM_FRAMES]; omega, rfl, rfl⟩
    · exact Or.inl ⟨hlook, hne, rfl, rfl, rfl⟩

/-! ## The invariant is established by `MMU_init` and kept by `MMU_get_byte` -/

theorem TLB_inserted_of_eq {tlb t : TLB} {p f : Int}
    (h0 : 0 ≤ tlb.num_entries) (h1 : tlb.num_entries ≤ TLB_ENTRIES)
    (hf0 : 0 ≤ tlb.front) (hf1 : tlb.front < TLB_ENTRIES)
    (h : TLB_insert tlb p f = some t) : TLB_inserted tlb t p f := by
  obtain ⟨t1, ht1, hins⟩ := TLB_insert_spec tlb p f h0 h1 hf0 hf1
  rw [h] at ht1
  cases ht1
  exact hins

theorem TLB_miss_of_lookup {s : MMU} (hI : Inv s) {p : Int}
    (h : TLB_lookup s.tlb p = some (-1)) :
    ∀ j, 0 ≤ j → j < s.tlb.num_entries → (s.tlb.data j).page ≠ p := by
  obtain ⟨r, hr, hcase⟩ := TLB_lookup_spec s.tlb p hI.tlb_n_lo hI.tlb_n_hi
  rw [h] at hr
  cases hr
  rcases hcase with ⟨_, hmiss⟩ | ⟨k, hk0, hk1, _, hkf, _⟩
  · exact hmiss
  · obtain ⟨_, _, hfr0, _, _⟩ := hI.tlb_ok k hk0 hk1
    omega

theorem TLB_inserted_live {tlb t : TLB} {p f : Int} (h : TLB_inserted tlb t p f)
    (P : TLB_Data → Prop) (hold : ∀ i, 0 ≤ i → i < tlb.num_entries → P (tlb.data i))
    (hnew : P { page := p, frame := f }) :
    ∀ i, 0 ≤ i → i < t.num_entries → P (t.data i) := by
  obtain ⟨k, _, _, _, _, _, _, _, hk, hrest⟩ := h
  intro i hi0 hi1
  by_cases hik : i = k
  · rw [hik, hk]; exact hnew
  · obtain ⟨hlive, heq⟩ := hrest i hi0 hi1 hik
    rw [heq]; exact hold i hi0 hlive

theorem TLB_inserted_distinct {tlb t : TLB} {p f : Int} (h : TLB_inserted tlb t p f)
    (hmiss : ∀ j, 0 ≤ j → j < tlb.num_entries → (tlb.data j).page ≠ p)
    (hd : ∀ i j, 0 ≤ i → i < tlb.num_entries → 0 ≤ j → j < tlb.num_entries →
      (tlb.data i).page = (tlb.data j).page → i = j) :
    ∀ i j, 0 ≤ i → i < t.num_entries → 0 ≤ j → j < t.num_entries →
      (t.data i).page = (t.data j).page → i = j := by
  obtain ⟨k, _, _, _, _, _, _, _, hk, hrest⟩ := h
  intro i j hi0 hi1 hj0 hj1 hij
  by_cases hik : i = k
  · by_cases hjk : j = k
    · rw [hik, hjk]
    · obtain ⟨hlive, heq⟩ := hrest j hj0 hj1 hjk
      rw [hik, hk, heq] at hij
      exact absurd hij.symm (hmiss j hj0 hlive)
  · obtain ⟨hlive, heq⟩ := hrest i hi0 hi1 hik
    by_cases hjk : j = k
    · rw [hjk, hk, heq] at hij
      exact absurd hij (hmiss i hi0 hlive)
    · obtain ⟨hlive2, heq2⟩ := hrest j hj0 hj1 hjk
      rw [heq, heq2] at hij
      exact hd i j hi0 hlive hj0 hlive2 hij

theorem Inv_init (g : MMU) (file : Int → Int) : Inv (MMU_init g file) := by
  refine
    { nfu_lo := le_refl _, nfu_hi := by show (0 : Int) ≤ 128; decide,
      oldest_lo := le_refl _, oldest_hi := by show (0 : Int) < 128; decide,
      filling := fun _ => ⟨rfl, rfl⟩, full := fun _ => rfl,
      queue_ok := ?_, data_ok := ?_, mem_ok := ?_,
      tlb_n_lo := le_refl _, tlb_n_hi := by show (0 : Int) ≤ 16; decide,
      tlb_front_lo := le_refl _, tlb_front_hi := by show (0 : Int) < 16; decide,
      tlb_ok := ?_, tlb_distinct := ?_ }
  · intro i h0 h1
    have h1 : i < 0 := h1
    omega
  · intro p h0 h1 h
    exfalso; apply h
    simp [MMU_init, h0, h1]
  · intro p h0 h1 h
    exfalso; apply h
    simp [MMU_init, h0, h1]
  · intro i h0 h1
    have h1 : i < 0 := h1
    omega
  · intro i j h0 h1
    have h1 : i < 0 := h1
    omega

theorem Inv_of_tlb_hit {s s1 : MMU} {a : Int} {r : Translation} (hI : Inv s)
    (hc : StepCommon s a s1 r) (h : StepTlbHit s a s1 r) : Inv s1 := by
  obtain ⟨_, _, hpt, hram, htlb⟩ := h
  obtain ⟨_, _, _, _, _, _, _, hbs, _⟩ := hc
  cases s1
  simp only at hpt hram htlb hbs
  subst hpt hram htlb hbs
  exact
    { nfu_lo := hI.nfu_lo, nfu_hi := hI.nfu_hi, oldest_lo := hI.oldest_lo,
      oldest_hi := hI.oldest_hi, filling := hI.filling, full := hI.full,
      queue_ok := hI.queue_ok, data_ok := hI.data_ok, mem_ok := hI.mem_ok,
      tlb_n_lo := hI.tlb_n_lo, tlb_n_hi := hI.tlb_n_hi, tlb_front_lo := hI.tlb_front_lo,
      tlb_front_hi := hI.tlb_front_hi, tlb_ok := hI.tlb_ok, tlb_distinct := hI.tlb_distinct }

theorem Inv_of_page_table_hit {s s1 : MMU} {a : Int} {r : Translation} (hI : Inv s)
    (hc : StepCommon s a s1 r) (h : StepPageTableHit s a s1 r) : Inv s1 := by
  obtain ⟨hlook, hfr, hne, hpt, hram, htlb⟩ := h
  obtain ⟨_, _, _, _, _, _, _, hbs, _⟩ := hc
  obtain ⟨hp0, hp1⟩ := page_of_bounds a
  have hins := TLB_inserted_of_eq hI.tlb_n_lo hI.tlb_n_hi hI.tlb_front_lo hI.tlb_front_hi htlb
  have hmiss := TLB_miss_of_lookup hI hlook
  obtain ⟨hd0, hd1, _⟩ := hI.data_ok _ hp0 hp1 (by rw [hfr]; exact hne)
  have hlive := TLB_inserted_live hins
    (fun e => 0 ≤ e.page ∧ e.page < PAGE_TABLE_ENTRIES ∧ 0 ≤ e.frame ∧
      e.frame < s.ram.num_frames_used ∧
      (s.page_table.data e.page = e.frame ∨ s.page_table.data e.page = -1))
    hI.tlb_ok ⟨hp0, hp1, by rw [← hfr]; exact hd0, by rw [← hfr]; exact hd1, Or.inl hfr⟩
  have hdist := TLB_inserted_distinct hins hmiss hI.tlb_distinct
  obtain ⟨k, hk0, hk1, hn1, hn0, hfl, hfh, _, _, _⟩ := hins
  cases s1
  simp only at hpt hram hbs hlive hdist hk1 hn1 hfl hfh
  subst hpt hram hbs
  exact
    { nfu_lo := hI.nfu_lo, nfu_hi := hI.nfu_hi, oldest_lo := hI.oldest_lo,
      oldest_hi := hI.oldest_hi, filling := hI.filling, full := hI.full,
      queue_ok := hI.queue_ok, data_ok := hI.data_ok, mem_ok := hI.mem_ok,
      tlb_n_lo := le_of_lt (lt_of_le_of_lt hk0 hk1), tlb_n_hi := hn1, tlb_front_lo := hfl,
      tlb_front_hi := hfh, tlb_ok := hlive, tlb_distinct := hdist }

theorem tmod_succ_eq (x n : Int) (hx : 0 ≤ x) (hn : 0 ≤ n) :
    Int.tmod (x + 1) n = (x + 1) % n :=
  Int.tmod_eq_emod (by omega) hn

theorem Inv_of_fault_fill {s s1 : MMU} {a : Int} {r : Translation} (hI : Inv s)
    (hc : StepCommon s a s1 r) (h : StepFaultFill s a s1 r) : Inv s1 := by
  obtain ⟨hlook, hdp, hnf, hfr, hpt, hram, htlb⟩ := h
  obtain ⟨_, _, _, _, _, _, _, hbs, _⟩ := hc
  obtain ⟨hp0, hp1⟩ := page_of_bounds a
  rw [hfr] at hpt hram htlb
  have hins := TLB_inserted_of_eq hI.tlb_n_lo hI.tlb_n_hi hI.tlb_front_lo hI.tlb_front_hi htlb
  have hmiss := TLB_miss_of_lookup hI hlook
  have hn0 := hI.nfu_lo
  have hn1 := hI.nfu_hi
  have hlt : s.ram.num_frames_used < NUM_FRAMES := lt_of_le_of_ne hn1 hnf
  obtain ⟨hold, hnext⟩ := hI.filling hlt
  have htm := tmod_succ_eq s.page_table.next_empty NUM_FRAMES (by rw [hnext]; exact hn0)
    (by decide)
  rw [htm, hnext] at hpt
  have hlive := TLB_inserted_live hins
    (fun e => 0 ≤ e.page ∧ e.page < PAGE_TABLE_ENTRIES ∧ 0 ≤ e.frame ∧
      e.frame < s.ram.num_frames_used + 1 ∧
      (array_set s.page_table.data (page_of a) s.ram.num_frames_used e.page = e.frame ∨
       array_set s.page_table.data (page_of a) s.ram.num_frames_used e.page = -1))
    (by
      intro i hi0 hi1
      obtain ⟨h1, h2, h3, h4, h5⟩ := hI.tlb_ok i hi0 hi1
      have hne := hmiss i hi0 hi1
      refine ⟨h1, h2, h3, by omega, ?_⟩
      simpa [array_set, hne] using h5)
    ⟨hp0, hp1, hn0, by show s.ram.num_frames_used < _; omega, Or.inl (by simp [array_set])⟩
  have hdist := TLB_inserted_distinct hins hmiss hI.tlb_distinct
  obtain ⟨k, hk0, hk1, hn1', _, hfl, hfh, _, _, _⟩ := hins
  cases s1
  simp only at hpt hram hbs hlive hdist hk1 hn1' hfl hfh
  subst hpt hram hbs
  simp only [NUM_FRAMES, PAGE_TABLE_ENTRIES, PAGE_SIZE] at *
  refine
    { nfu_lo := ?_, nfu_hi := ?_, oldest_lo := hI.oldest_lo,
      oldest_hi := hI.oldest_hi, filling := ?_, full := ?_,
      queue_ok := ?_, data_ok := ?_, mem_ok := ?_,
      tlb_n_lo := le_of_lt (lt_of_le_of_lt hk0 hk1), tlb_n_hi := hn1', tlb_front_lo := hfl,
      tlb_front_hi := hfh, tlb_ok := hlive, tlb_distinct := hdist }
  · show 0 ≤ s.ram.num_frames_used + 1
    omega
  · show s.ram.num_frames_used + 1 ≤ 128
    omega
  · intro h
    have h : s.ram.num_frames_used + 1 < 128 := h
    refine ⟨hold, ?_⟩
    show (s.ram.num_frames_used + 1) % 128 = s.ram.num_frames_used + 1
    omega
  · intro h
    have h : s.ram.num_frames_used + 1 = 128 := h
    show (s.ram.num_frames_used + 1) % 128 = s.page_table.oldest
    omega
  · intro i hi0 hi1
    have hi1 : i < s.ram.num_frames_used + 1 := hi1
    show 0 ≤ array_set s.page_table.replace_queue s.ram.num_frames_used (page_of a) i ∧
      array_set s.page_table.replace_queue s.ram.num_frames_used (page_of a) i < 256 ∧
      array_set s.page_table.data (page_of a) s.ram.num_frames_used
        (array_set s.page_table.replace_queue s.ram.num_frames_used (page_of a) i) = i
    by_cases hi : i = s.ram.num_frames_used
    · simp [array_set, hi, hp0, hp1]
    · obtain ⟨h1, h2, h3⟩ := hI.queue_ok i hi0 (by omega)
      simp only [PAGE_TABLE_ENTRIES] at h2
      have hne : s.page_table.replace_queue i ≠ page_of a := by
        intro he; rw [he, hdp] at h3; omega
      simp [array_set, hi, hne, h1, h2, h3]
  · intro p hp0' hp1' hne
    have hne : array_set s.page_table.data (page_of a) s.ram.num_frames_used p ≠ -1 := hne
    show 0 ≤ array_set s.page_table.data (page_of a) s.ram.num_frames_used p ∧
      array_set s.page_table.data (page_of a) s.ram.num_frames_used p < s.ram.num_frames_used + 1 ∧
      array_set s.page_table.replace_queue s.ram.num_frames_used (page_of a)
        (array_set s.page_table.data (page_of a) s.ram.num_frames_used p) = p
    by_cases hpp : p = page_of a
    · simp [array_set, hpp, hn0]
    · simp only [array_set, hpp, if_false] at hne ⊢
      obtain ⟨h1, h2, h3⟩ := hI.data_ok p hp0' hp1' hne
      have : s.page_table.data p ≠ s.ram.num_frames_used := by omega
      simp [this, h1, h3]
      omega
  · intro p hp0' hp1' hne o ho0 ho1
    simp only [PAGE_SIZE] at ho1
    have hne : array_set s.page_table.data (page_of a) s.ram.num_frames_used p ≠ -1 := hne
    show (if array_set s.page_table.data (page_of a) s.ram.num_frames_used p =
            s.ram.num_frames_used ∧ 0 ≤ o ∧ o < 256
          then s.backing_store (page_of a * 256 + o)
          else s.ram.memory (array_set s.page_table.data (page_of a) s.ram.num_frames_used p) o) =
        s.backing_store (p * 256 + o)
    by_cases hpp : p = page_of a
    · simp [array_set, hpp, ho0, ho1]
    · simp only [array_set, hpp, if_false] at hne ⊢
      obtain ⟨h1, h2, h3⟩ := hI.data_ok p hp0' hp1' hne
      have : s.page_table.data p ≠ s.ram.num_frames_used := by omega
      simp [this]
      exact hI.mem_ok p hp0' hp1' hne o ho0 ho1

theorem Inv_of_fault_evict {s s1 : MMU} {a : Int} {r : Translation} (hI : Inv s)
    (hc : StepCommon s a s1 r) (h : StepFaultEvict s a s1 r) : Inv s1 := by
  obtain ⟨hlook, hdp, hnf, hfr, hpt, hram, htlb⟩ := h
  obtain ⟨_, _, _, _, _, _, _, hbs, _⟩ := hc
  obtain ⟨hp0, hp1⟩ := page_of_bounds a
  have hol := hI.oldest_lo
  have hoh := hI.oldest_hi
  obtain ⟨hq0, hq1, hqd⟩ := hI.queue_ok s.page_table.oldest hol (by rw [hnf]; exact hoh)
  rw [hqd] at hfr
  rw [hfr] at hpt hram htlb
  have hins := TLB_inserted_of_eq hI.tlb_n_lo hI.tlb_n_hi hI.tlb_front_lo hI.tlb_front_hi htlb
  have hmiss := TLB_miss_of_lookup hI hlook
  have hnext := hI.full hnf
  have htm := tmod_succ_eq s.page_table.oldest NUM_FRAMES hol (by decide)
  rw [hnext, htm] at hpt
  simp only [NUM_FRAMES, PAGE_TABLE_ENTRIES, PAGE_SIZE] at hoh hq1 hnf hpt hram
  have hqp : s.page_table.replace_queue s.page_table.oldest ≠ page_of a := by
    intro he; rw [he, hdp] at hqd; omega
  have hlive := TLB_inserted_live hins
    (fun e => 0 ≤ e.page ∧ e.page < PAGE_TABLE_ENTRIES ∧ 0 ≤ e.frame ∧
      e.frame < s.ram.num_frames_used ∧
      (array_set (array_set s.page_table.data (s.page_table.replace_queue s.page_table.oldest) (-1))
          (page_of a) s.page_table.oldest e.page = e.frame ∨
       array_set (array_set s.page_table.data (s.page_table.replace_queue s.page_table.oldest) (-1))
          (page_of a) s.page_table.oldest e.page = -1))
    (by
      intro i hi0 hi1
      obtain ⟨h1, h2, h3, h4, h5⟩ := hI.tlb_ok i hi0 hi1
      have hne := hmiss i hi0 hi1
      refine ⟨h1, h2, h3, h4, ?_⟩
      by_cases hv : (s.tlb.data i).page = s.page_table.replace_queue s.page_table.oldest
      · right; simp [array_set, hv, hqp]
      · simpa [array_set, hne, hv] using h5)
    ⟨hp0, hp1, hol, by rw [hnf]; exact hoh, Or.inl (by simp [array_set])⟩
  have hdist := TLB_inserted_distinct hins hmiss hI.tlb_distinct
  obtain ⟨k, hk0, hk1, hn1', _, hfl, hfh, _, _, _⟩ := hins
  cases s1
  simp only at hpt hram hbs hlive hdist hk1 hn1' hfl hfh
  subst hpt hram hbs
  refine
    { nfu_lo := hI.nfu_lo, nfu_hi := hI.nfu_hi, oldest_lo := ?_,
      oldest_hi := ?_, filling := ?_, full := ?_,
      queue_ok := ?_, data_ok := ?_, mem_ok := ?_,
      tlb_n_lo := le_of_lt (lt_of_le_of_lt hk0 hk1), tlb_n_hi := hn1', tlb_front_lo := hfl,
      tlb_front_hi := hfh, tlb_ok := hlive, tlb_distinct := hdist }
  · show 0 ≤ (s.page_table.oldest + 1) % 128
    omega
  · show (s.page_table.oldest + 1) % 128 < 128
    omega
  · intro h
    have h : s.ram.num_frames_used < 128 := h
    omega
  · intro _
    rfl
  · intro i hi0 hi1
    have hi1 : i < s.ram.num_frames_used := hi1
    show 0 ≤ array_set s.page_table.replace_queue s.page_table.oldest (page_of a) i ∧
      array_set s.page_table.replace_queue s.page_table.oldest (page_of a) i < 256 ∧
      array_set (array_set s.page_table.data (s.page_table.replace_queue s.page_table.oldest) (-1))
        (page_of a) s.page_table.oldest
        (array_set s.page_table.replace_queue s.page_table.oldest (page_of a) i) = i
    by_cases hi : i = s.page_table.oldest
    · simp [array_set, hi, hp0, hp1]
    · obtain ⟨h1, h2, h3⟩ := hI.queue_ok i hi0 hi1
      simp only [PAGE_TABLE_ENTRIES] at h2
      have hne : s.page_table.replace_queue i ≠ page_of a := by
        intro he; rw [he, hdp] at h3; omega
      have hne2 : s.page_table.replace_queue i ≠
          s.page_table.replace_queue s.page_table.oldest := by
        intro he; rw [he, hqd] at h3; exact hi h3.symm
      simp [array_set, hi, hne, hne2, h1, h2, h3]
  · intro p hp0' hp1' hne
    have hne : array_set (array_set s.page_table.data
        (s.page_table.replace_queue s.page_table.oldest) (-1))
        (page_of a) s.page_table.oldest p ≠ -1 := hne
    show 0 ≤ array_set (array_set s.page_table.data
          (s.page_table.replace_queue s.page_table.oldest) (-1))
          (page_of a) s.page_table.oldest p ∧
      array_set (array_set s.page_table.data (s.page_table.replace_queue s.page_table.oldest) (-1))
          (page_of a) s.page_table.oldest p < s.ram.num_frames_used ∧
      array_set s.page_table.replace_queue s.page_table.oldest (page_of a)
        (array_set (array_set s.page_table.data
          (s.page_table.replace_queue s.page_table.oldest) (-1))
          (page_of a) s.page_table.oldest p) = p
    by_cases hpp : p = page_of a
    · simp [array_set, hpp, hol]
      omega
    · by_cases hpq : p = s.page_table.replace_queue s.page_table.oldest
      · exfalso; apply hne; simp [array_set, hpp, hpq, hqp]
      · simp only [array_set, hpp, hpq, if_false] at hne ⊢
        obtain ⟨h1, h2, h3⟩ := hI.data_ok p hp0' hp1' hne
        have : s.page_table.data p ≠ s.page_table.oldest := by
          intro he; rw [he] at h3; exact hpq h3.symm
        simp [this, h1, h2, h3]
  · intro p hp0' hp1' hne o ho0 ho1
    simp only [PAGE_SIZE] at ho1
    have hne : array_set (array_set s.page_table.data
        (s.page_table.replace_queue s.page_table.oldest) (-1))
        (page_of a) s.page_table.oldest p ≠ -1 := hne
    show (if array_set (array_set s.page_table.data
              (s.page_table.replace_queue s.page_table.oldest) (-1))
              (page_of a) s.page_table.oldest p = s.page_table.oldest ∧ 0 ≤ o ∧ o < 256
          then s.backing_store (page_of a * 256 + o)
          else s.ram.memory (array_set (array_set s.page_table.data
              (s.page_table.replace_queue s.page_table.oldest) (-1))
              (page_of a) s.page_table.oldest p) o) =
        s.backing_store (p * 256 + o)
    by_cases hpp : p = page_of a
    · simp [array_set, hpp, ho0, ho1]
    · by_cases hpq : p = s.page_table.replace_queue s.page_table.oldest
      · exfalso; apply hne; simp [array_set, hpp, hpq, hqp]
      · simp only [array_set, hpp, hpq, if_false] at hne ⊢
        obtain ⟨h1, h2, h3⟩ := hI.data_ok p hp0' hp1' hne
        have : s.page_table.data p ≠ s.page_table.oldest := by
          intro he; rw [he] at h3; exact hpq h3.symm
        simp [this]
        exact hI.mem_ok p hp0' hp1' hne o ho0 ho1

theorem Inv_step {s s1 : MMU} {a : Int} {r : Translation} (hI : Inv s)
    (h : MMU_get_byte s a = some (s1, r)) : Inv s1 := by
  obtain ⟨s2, r2, heq, hc, hcase⟩ := step_cases s a hI
  rw [h] at heq
  cases heq
  rcases hcase with h1 | h2 | h3 | h4
  · exact Inv_of_tlb_hit hI hc h1
  · exact Inv_of_page_table_hit hI hc h2
  · exact Inv_of_fault_fill hI hc h3
  · exact Inv_of_fault_evict hI hc h4

theorem step_total {s : MMU} (a : Int) (hI : Inv s) :
    ∃ s1 r, MMU_get_byte s a = some (s1, r) ∧ Inv s1 := by
  obtain ⟨s1, r, heq, _, _⟩ := step_cases s a hI
  exact ⟨s1, r, heq, Inv_step hI heq⟩

theorem run_total {s : MMU} (hI : Inv s) (l : List Int) :
    ∃ s1, MMU_run s l = some s1 ∧ Inv s1 := by
  induction l generalizing s with
  | nil => exact ⟨s, rfl, hI⟩
  | cons a rest ih =>
    obtain ⟨s1, r, heq, hI1⟩ := step_total a hI
    obtain ⟨s2, h2, hI2⟩ := ih hI1
    exact ⟨s2, by simp [MMU_run, heq, h2], hI2⟩

theorem MMU_run_append (s : MMU) (l1 l2 : List Int) :
    MMU_run s (l1 ++ l2) = (MMU_run s l1).bind (fun s1 => MMU_run s1 l2) := by
  induction l1 generalizing s with
  | nil => rfl
  | cons a rest ih =>
    simp only [List.cons_append, MMU_run]
    cases h : MMU_get_byte s a with
    | none => rfl
    | some x => exact ih x.1

/-! ## Classifying calls and counting -/

theorem PageTable_lookup_page_of (pt : PageTable) (a : Int) :
    PageTable_lookup pt (page_of a) = some (pt.data (page_of a)) := by
  obtain ⟨h0, h1⟩ := page_of_bounds a
  simp [PageTable_lookup, PAGE_TABLE_ENTRIES, h0, h1]

theorem class_of_tlb_hit {s s1 : MMU} {a : Int} {r : Translation}
    (h : StepTlbHit s a s1 r) :
    is_tlb_hit s a = true ∧ is_page_table_hit s a = false ∧ is_page_fault s a = false ∧
      is_eviction s a = false := by
  obtain ⟨hlook, hne, _⟩ := h
  simp [is_tlb_hit, is_page_table_hit, is_page_fault, is_eviction, hlook,
    PageTable_lookup_page_of, hne]

theorem class_of_page_table_hit {s s1 : MMU} {a : Int} {r : Translation}
    (h : StepPageTableHit s a s1 r) :
    is_tlb_hit s a = false ∧ is_page_table_hit s a = true ∧ is_page_fault s a = false ∧
      is_eviction s a = false := by
  obtain ⟨hlook, hd, hne, _⟩ := h
  rw [← hd] at hne
  simp [is_tlb_hit, is_page_table_hit, is_page_fault, is_eviction, hlook,
    PageTable_lookup_page_of, hne]

theorem class_of_fault_fill {s s1 : MMU} {a : Int} {r : Translation}
    (h : StepFaultFill s a s1 r) :
    is_tlb_hit s a = false ∧ is_page_table_hit s a = false ∧ is_page_fault s a = true ∧
      is_eviction s a = false := by
  obtain ⟨hlook, hd, hnf, _⟩ := h
  simp [is_tlb_hit, is_page_table_hit, is_page_fault, is_eviction, hlook,
    PageTable_lookup_page_of, hd, hnf]

theorem class_of_fault_evict {s s1 : MMU} {a : Int} {r : Translation}
    (h : StepFaultEvict s a s1 r) :
    is_tlb_hit s a = false ∧ is_page_table_hit s a = false ∧ is_page_fault s a = true ∧
      is_eviction s a = true := by
  obtain ⟨hlook, hd, hnf, _⟩ := h
  simp [is_tlb_hit, is_page_table_hit, is_page_fault, is_eviction, hlook,
    PageTable_lookup_page_of, hd, hnf]

theorem hits_of_insert {s : MMU} (hI : Inv s) {p f : Int} {t : TLB}
    (h : TLB_insert s.tlb p f = some t) : t.hits = s.tlb.hits := by
  obtain ⟨_, _, _, _, _, _, _, hh, _⟩ :=
    TLB_inserted_of_eq hI.tlb_n_lo hI.tlb_n_hi hI.tlb_front_lo hI.tlb_front_hi h
  exact hh

/-- The counters after one call, by the class of the call. -/
theorem step_counters {s s1 : MMU} {a : Int} {r : Translation} (hI : Inv s)
    (h : MMU_get_byte s a = some (s1, r)) :
    s1.translation_count = s.translation_count + 1 ∧
    s1.tlb.hits = s.tlb.hits + (if is_tlb_hit s a then 1 else 0) ∧
    s1.page_table.faults = s.page_table.faults + (if is_page_fault s a then 1 else 0) ∧
    s1.ram.num_frames_used + (if is_eviction s a then 1 else 0) =
      s.ram.num_frames_used + (if is_page_fault s a then 1 else 0) ∧
    (if is_tlb_hit s a then 1 else 0) + (if is_page_table_hit s a then 1 else 0) +
      (if is_page_fault s a then 1 else 0) = 1 := by
  obtain ⟨s2, r2, heq, hc, hcase⟩ := step_cases s a hI
  rw [h] at heq
  cases heq
  obtain ⟨_, _, _, _, _, _, _, _, htc⟩ := hc
  refine ⟨htc, ?_⟩
  rcases hcase with h1 | h2 | h3 | h4
  · obtain ⟨c1, c2, c3, c4⟩ := class_of_tlb_hit h1
    obtain ⟨_, _, hpt, hram, htlb⟩ := h1
    simp [c1, c2, c3, c4, hpt, hram, htlb]
  · obtain ⟨c1, c2, c3, c4⟩ := class_of_page_table_hit h2
    obtain ⟨_, _, _, hpt, hram, htlb⟩ := h2
    simp [c1, c2, c3, c4, hpt, hram, hits_of_insert hI htlb]
  · obtain ⟨c1, c2, c3, c4⟩ := class_of_fault_fill h3
    obtain ⟨_, _, _, _, hpt, hram, htlb⟩ := h3
    simp [c1, c2, c3, c4, hpt, hram, hits_of_insert hI htlb]
  · obtain ⟨c1, c2, c3, c4⟩ := class_of_fault_evict h4
    obtain ⟨_, _, _, _, hpt, hram, htlb⟩ := h4
    simp [c1, c2, c3, c4, hpt, hram, hits_of_insert hI htlb]

/-- The counters after a run, by the classes of its calls. -/
theorem run_counters {s : MMU} (hI : Inv s) (l : List Int) :
    ∃ s1, MMU_run s l = some s1 ∧ Inv s1 ∧
      s1.translation_count = s.translation_count + l.length ∧
      s1.tlb.hits = s.tlb.hits + count_calls is_tlb_hit s l ∧
      s1.page_table.faults = s.page_table.faults + count_calls is_page_fault s l ∧
      s1.ram.num_frames_used + count_calls is_eviction s l =
        s.ram.num_frames_used + count_calls is_page_fault s l ∧
      count_calls is_tlb_hit s l + count_calls is_page_table_hit s l +
        count_calls is_page_fault s l = l.length := by
  induction l generalizing s with
  | nil => exact ⟨s, rfl, hI, by simp, by simp [count_calls], by simp [count_calls],
      by simp [count_calls], by simp [count_calls]⟩
  | cons a rest ih =>
    obtain ⟨s1, r, heq, hI1⟩ := step_total a hI
    obtain ⟨s2, h2, hI2, e1, e2, e3, e4, e5⟩ := ih hI1
    obtain ⟨d1, d2, d3, d4, d5⟩ := step_counters hI heq
    refine ⟨s2, by simp [MMU_run, heq, h2], hI2, ?_, ?_, ?_, ?_, ?_⟩
    · rw [e1, d1]; simp only [List.length_cons]; push_cast; ring
    · rw [e2, d2]; simp only [count_calls, heq]
      cases is_tlb_hit s a <;> (simp; try ring)
    · rw [e3, d3]; simp only [count_calls, heq]
      cases is_page_fault s a <;> (simp; try ring)
    · simp only [count_calls, heq]
      cases hev : is_eviction s a <;> cases hpf : is_page_fault s a <;>
        simp [hev, hpf] at d4 ⊢ <;> omega
    · simp only [count_calls, heq, List.length_cons]
      cases h1 : is_tlb_hit s a <;> cases h2 : is_page_table_hit s a <;>
        cases h3 : is_page_fault s a <;> simp [h1, h2, h3] at d5 ⊢ <;> omega

theorem run_backing_store {s : MMU} (hI : Inv s) (l : List Int) :
    ∃ s1, MMU_run s l = some s1 ∧ Inv s1 ∧ s1.backing_store = s.backing_store := by
  induction l generalizing s with
  | nil => exact ⟨s, rfl, hI, rfl⟩
  | cons a rest ih =>
    obtain ⟨s1, r, heq, hc, _⟩ := step_cases s a hI
    obtain ⟨s2, h2, hI2, hb⟩ := ih (Inv_step hI heq)
    obtain ⟨_, _, _, _, _, _, _, hbs, _⟩ := hc
    exact ⟨s2, by simp [MMU_run, heq, h2], hI2, by rw [hb, hbs]⟩

theorem run_from_init (g : MMU) (file : Int → Int) (l : List Int) :
    ∃ s, MMU_run (MMU_init g file) l = some s ∧ Inv s ∧ s.backing_store = file :=
  run_backing_store (Inv_init g file) l

/-- The value a call reports is the byte of its page in the backing store, unless
the call is a TLB hit for a page that the page table does not map. -/
theorem step_value {s s1 : MMU} {a : Int} {r : Translation} (hI : Inv s)
    (h : MMU_get_byte s a = some (s1, r))
    (hok : is_tlb_hit s a = false ∨ s.page_table.data (page_of a) ≠ -1) :
    s1.page_table.data (page_of a) = r.frame ∧
      r.val = s.backing_store (page_of a * PAGE_SIZE + offset_of a) := by
  obtain ⟨s2, r2, heq, hc, hcase⟩ := step_cases s a hI
  rw [h] at heq
  cases heq
  have hI1 := Inv_step hI h
  obtain ⟨hp0, hp1⟩ := page_of_bounds a
  obtain ⟨ho0, ho1⟩ := offset_of_bounds a
  obtain ⟨_, _, _, _, hval, hf0, hf1, hbs, _⟩ := hc
  have key : s1.page_table.data (page_of a) = r.frame := by
    rcases hcase with h1 | h2 | h3 | h4
    · obtain ⟨c1, _⟩ := class_of_tlb_hit h1
      obtain ⟨hlook, hne, hpt, _, _⟩ := h1
      rcases hok with hok | hok
      · rw [c1] at hok; cases hok
      · rw [hpt]
        obtain ⟨f, hf, hcs⟩ := TLB_lookup_spec s.tlb (page_of a) hI.tlb_n_lo hI.tlb_n_hi
        rw [hlook] at hf
        cases hf
        rcases hcs with ⟨hm, _⟩ | ⟨k, hk0, hk1, hkp, hkf, _⟩
        · exact absurd hm hne
        · obtain ⟨_, _, _, _, hd⟩ := hI.tlb_ok k hk0 hk1
          rw [hkp, hkf] at hd
          rcases hd with hd | hd
          · exact hd
          · exact absurd hd hok
    · obtain ⟨_, hd, _, hpt, _, _⟩ := h2
      rw [hpt]; exact hd
    · obtain ⟨_, _, _, _, hpt, _, _⟩ := h3
      rw [hpt]; simp [array_set]
    · obtain ⟨_, _, _, _, hpt, _, _⟩ := h4
      rw [hpt]; simp [array_set]
  refine ⟨key, ?_⟩
  have hm := hI1.mem_ok (page_of a) hp0 hp1 (by rw [key]; omega) (offset_of a) ho0 ho1
  rw [key, hbs] at hm
  rw [hval, hm]

/-! ## Round trip, physical address, counters -/

/-- C1 as stated fails. Pages 0..127 are read once each, then page 0 again (a
page-table hit that puts `(0, 0)` into the TLB), then page 128 (a page fault that
evicts page 0 and loads page 128 into frame 0). The next read of address 0 is a
TLB hit on the stale entry: it reports 0, the byte of page 128, although
the byte at offset 0 of page 0 of the backing store is -128. -/
theorem C1_round_trip_counterexample :
    ((MMU_run (MMU_init sample_mmu sample_file)
        (pages_from 0 128 ++ [0, 32768])).bind
      (fun s => MMU_get_byte s 0)).map
        (fun x => (x.2.page, x.2.offset, x.2.frame, x.2.val)) = some (0, 0, 0, 0) ∧
    sample_file (0 * 256 + 0) = -128 ∧ sample_file (128 * 256 + 0) = 0 := by
  set_option maxRecDepth 1000000 in decide

/-- C1 (amended): from the state built by `MMU_init`, after any list of
addresses, the value reported for an address `a` is the backing-store byte at
offset `a & 0xFF` of page `(a & 0xFFFF) >> 8` whenever the call is not a TLB hit
for a page that the page table no longer maps (it misses the TLB, or the page is
mapped); the frame used is then the one the page table gives to the page after
the call. -/
theorem C1_round_trip_unless_stale (g : MMU) (file : Int → Int) (pre : List Int) (a : Int) :
    ∃ s s1 r, MMU_run (MMU_init g file) pre = some s ∧ MMU_get_byte s a = some (s1, r) ∧
      r.page = (Int.land a 0xFFFF) >>> (8 : Nat) ∧ r.offset = Int.land a 0xFF ∧
      (is_tlb_hit s a = false ∨ s.page_table.data r.page ≠ -1 →
        s1.page_table.data r.page = r.frame ∧
        r.val = file (r.page * PAGE_SIZE + r.offset)) := by
  obtain ⟨s, hrun, hI, hbs⟩ := run_from_init g file pre
  obtain ⟨s1, r, heq, hc, _⟩ := step_cases s a hI
  obtain ⟨_, hpg, hoff, _⟩ := hc
  refine ⟨s, s1, r, hrun, heq, hpg, hoff, ?_⟩
  rw [hpg, hoff, ← hbs]
  exact step_value hI heq

/-- C1 (amended), at a concrete input: the first read of address 1 reports the
byte at offset 1 of page 0. -/
theorem C1_round_trip_unless_stale_witness :
    ∃ s1 r, MMU_get_byte (MMU_init sample_mmu sample_file) 1 = some (s1, r) ∧
      r.val = sample_file (0 * 256 + 1) := by
  obtain ⟨s, s1, r, h1, h2, h3, h4, h5⟩ :=
    C1_round_trip_unless_stale sample_mmu sample_file [] 1
  cases h1
  have hp : r.page = 0 := by rw [h3]; decide
  have ho : r.offset = 1 := by rw [h4]; decide
  obtain ⟨_, hv⟩ := h5 (Or.inl (by decide))
  rw [hp, ho] at hv
  exact ⟨s1, r, h2, hv⟩

/-- C2: after any list of addresses processed from the initial state, the
physical address emitted for an address `a` is `(frame << 8) | offset`, its low
byte is the low byte of the low 16 bits of `a`, its upper part is the frame and
is below `NUM_FRAMES = 128`, and the frame is never the sentinel `-1`.
Scenario E: the single input 171 emits the physical address 171. -/
theorem C2_physical_address (g : MMU) (file : Int → Int) :
    (∀ (pre : List Int) (a : Int),
      ∃ s s1 r, MMU_run (MMU_init g file) pre = some s ∧ MMU_get_byte s a = some (s1, r) ∧
        r.physical_addr = Int.lor (r.frame <<< (8 : Int)) r.offset ∧
        Int.land r.physical_addr 0xFF = Int.land (Int.land a 0xFFFF) 0xFF ∧
        r.physical_addr >>> (8 : Nat) = r.frame ∧
        r.physical_addr >>> (8 : Nat) < NUM_FRAMES ∧ NUM_FRAMES = 128 ∧
        0 ≤ r.frame ∧ r.frame ≠ -1) ∧
    (∃ s1 r, MMU_run (MMU_init g file) [171] = some s1 ∧
      MMU_get_byte (MMU_init g file) 171 = some (s1, r) ∧
      r.page = 0 ∧ r.offset = 171 ∧ r.frame = 0 ∧ r.physical_addr = 171) := by
  constructor
  · intro pre a
    obtain ⟨s, hrun, hI, _⟩ := run_from_init g file pre
    obtain ⟨s1, r, heq, hc, _⟩ := step_cases s a hI
    obtain ⟨_, _, hoff, hphys, _, hf0, hf1, _, _⟩ := hc
    obtain ⟨ho0, ho1⟩ := offset_of_bounds a
    have hp : r.physical_addr = r.frame * 256 + offset_of a := by
      rw [hphys]; exact lor_shiftLeft_eq _ _ hf0 ho0 ho1
    have hl1 : Int.land r.physical_addr 0xFF = r.physical_addr % 256 := by
      have h := land_low_bits r.physical_addr 8
      simpa using h
    have hl2 : Int.land (Int.land a 0xFFFF) 0xFF = Int.land a 0xFFFF % 256 := by
      have h := land_low_bits (Int.land a 0xFFFF) 8
      simpa using h
    have hl3 : Int.land a 0xFFFF = a % 65536 := by
      have h := land_low_bits a 16
      simpa using h
    have hsh : r.physical_addr >>> (8 : Nat) = r.frame := by
      rw [Int.shiftRight_eq_div_pow, hp]
      have : ((2 ^ 8 : Nat) : Int) = 256 := by norm_num
      rw [this]
      omega
    refine ⟨s, s1, r, hrun, heq, by rw [hoff]; exact hphys, ?_, hsh, by rw [hsh]; exact hf1,
      rfl, hf0, by omega⟩
    rw [hl1, hl2, hl3, hp, offset_of_eq]
    omega
  · exact ⟨_, _, rfl, rfl, rfl, rfl, rfl, rfl⟩

/-- C3: after processing any list of `n` addresses from the initial state,
`translation_count = n`, `tlb.hits` and `page_table.faults` are the numbers of
calls that were TLB hits and page faults, each is at most `n`, so is their sum,
and `n - tlb.hits - page_table.faults` is the number of calls that missed the
TLB and found the page in the page table; a call from the state reached is in
exactly one of the three classes. -/
theorem C3_counter_accounting (g : MMU) (file : Int → Int) (addrs : List Int) :
    ∃ s, MMU_run (MMU_init g file) addrs = some s ∧
      s.translation_count = addrs.length ∧
      s.tlb.hits = count_calls is_tlb_hit (MMU_init g file) addrs ∧
      s.page_table.faults = count_calls is_page_fault (MMU_init g file) addrs ∧
      s.tlb.hits ≤ s.translation_count ∧
      s.page_table.faults ≤ s.translation_count ∧
      s.tlb.hits + s.page_table.faults ≤ s.translation_count ∧
      s.translation_count - s.tlb.hits - s.page_table.faults =
        count_calls is_page_table_hit (MMU_init g file) addrs ∧
      ∀ a, (if is_tlb_hit s a then 1 else 0) + (if is_page_table_hit s a then 1 else 0) +
        (if is_page_fault s a then 1 else 0) = 1 := by
  obtain ⟨s, hrun, hI, e1, e2, e3, _, e5⟩ := run_counters (Inv_init g file) addrs
  have z1 : (MMU_init g file).translation_count = 0 := rfl
  have z2 : (MMU_init g file).tlb.hits = 0 := rfl
  have z3 : (MMU_init g file).page_table.faults = 0 := rfl
  rw [z1] at e1
  rw [z2] at e2
  rw [z3] at e3
  refine ⟨s, hrun, by omega, by omega, by omega, by omega, by omega, by omega, by omega, ?_⟩
  intro a
  obtain ⟨s1, r, heq, _⟩ := step_total a hI
  exact (step_counters hI heq).2.2.2.2

/-! ## Page faults and distinct pages -/

/-- Pages that are in the TLB or mapped after a call were so before the call or
are the page of the call; a page that was neither page-faults. -/
theorem step_seen {s s1 : MMU} {a : Int} {r : Translation} (hI : Inv s)
    (h : MMU_get_byte s a = some (s1, r)) (T : Finset Int)
    (hT1 : ∀ i, 0 ≤ i → i < s.tlb.num_entries → (s.tlb.data i).page ∈ T)
    (hT2 : ∀ p, 0 ≤ p → p < PAGE_TABLE_ENTRIES → s.page_table.data p ≠ -1 → p ∈ T) :
    (∀ i, 0 ≤ i → i < s1.tlb.num_entries → (s1.tlb.data i).page ∈ insert (page_of a) T) ∧
    (∀ p, 0 ≤ p → p < PAGE_TABLE_ENTRIES → s1.page_table.data p ≠ -1 →
      p ∈ insert (page_of a) T) ∧
    (page_of a ∉ T → is_page_fault s a = true) := by
  obtain ⟨s2, r2, heq, hc, hcase⟩ := step_cases s a hI
  rw [h] at heq
  cases heq
  obtain ⟨hp0, hp1⟩ := page_of_bounds a
  have hins : ∀ {f : Int}, TLB_insert s.tlb (page_of a) f = some s1.tlb →
      ∀ i, 0 ≤ i → i < s1.tlb.num_entries → (s1.tlb.data i).page ∈ insert (page_of a) T := by
    intro f hf
    exact TLB_inserted_live
      (TLB_inserted_of_eq hI.tlb_n_lo hI.tlb_n_hi hI.tlb_front_lo hI.tlb_front_hi hf)
      (fun e => e.page ∈ insert (page_of a) T)
      (fun i hi0 hi1 => Finset.mem_insert_of_mem (hT1 i hi0 hi1))
      (Finset.mem_insert_self _ _)
  rcases hcase with h1 | h2 | h3 | h4
  · obtain ⟨hlook, hne, hpt, _, htlb⟩ := h1
    refine ⟨?_, ?_, ?_⟩
    · rw [htlb]
      exact fun i hi0 hi1 => Finset.mem_insert_of_mem (hT1 i hi0 hi1)
    · rw [hpt]
      exact fun p h0 h1 hd => Finset.mem_insert_of_mem (hT2 p h0 h1 hd)
    · intro hnot
      exfalso
      obtain ⟨f, hf, hcs⟩ := TLB_lookup_spec s.tlb (page_of a) hI.tlb_n_lo hI.tlb_n_hi
      rw [hlook] at hf
      cases hf
      rcases hcs with ⟨hm, _⟩ | ⟨k, hk0, hk1, hkp, _, _⟩
      · exact hne hm
      · exact hnot (hkp ▸ hT1 k hk0 hk1)
  · obtain ⟨_, hd, hne, hpt, _, htlb⟩ := h2
    refine ⟨hins htlb, ?_, ?_⟩
    · rw [hpt]
      exact fun p h0 h1 hd => Finset.mem_insert_of_mem (hT2 p h0 h1 hd)
    · intro hnot
      exact absurd (hT2 _ hp0 hp1 (by rw [hd]; exact hne)) hnot
  · obtain ⟨c1, c2, c3, c4⟩ := class_of_fault_fill h3
    obtain ⟨_, _, _, _, hpt, _, htlb⟩ := h3
    refine ⟨hins htlb, ?_, fun _ => c3⟩
    rw [hpt]
    intro p h0 h1 hd
    by_cases hpp : p = page_of a
    · rw [hpp]; exact Finset.mem_insert_self _ _
    · simp only [array_set, hpp, if_false] at hd
      exact Finset.mem_insert_of_mem (hT2 p h0 h1 hd)
  · obtain ⟨c1, c2, c3, c4⟩ := class_of_fault_evict h4
    obtain ⟨_, _, _, _, hpt, _, htlb⟩ := h4
    refine ⟨hins htlb, ?_, fun _ => c3⟩
    rw [hpt]
    intro p h0 h1 hd
    by_cases hpp : p = page_of a
    · rw [hpp]; exact Finset.mem_insert_self _ _
    · simp only [array_set, hpp, if_false] at hd
      by_cases hpq : p = s.page_table.replace_queue s.page_table.oldest
      · simp [hpq] at hd
      · simp only [hpq, if_false] at hd
        exact Finset.mem_insert_of_mem (hT2 p h0 h1 hd)

/-- Every page touched by a run and not seen before it costs one page fault. -/
theorem run_faults_ge {s : MMU} (hI : Inv s) (l : List Int) (T : Finset Int)
    (hT1 : ∀ i, 0 ≤ i → i < s.tlb.num_entries → (s.tlb.data i).page ∈ T)
    (hT2 : ∀ p, 0 ≤ p → p < PAGE_TABLE_ENTRIES → s.page_table.data p ≠ -1 → p ∈ T) :
    (T ∪ (l.map page_of).toFinset).card ≤ T.card + count_calls is_page_fault s l := by
  induction l generalizing s T with
  | nil => simp [count_calls]
  | cons a rest ih =>
    obtain ⟨s1, r, heq, hI1⟩ := step_total a hI
    obtain ⟨k1, k2, k3⟩ := step_seen hI heq T hT1 hT2
    have hrec := ih hI1 (insert (page_of a) T) k1 k2
    have hset : T ∪ ((a :: rest).map page_of).toFinset =
        insert (page_of a) T ∪ (rest.map page_of).toFinset := by
      simp [Finset.insert_union, Finset.union_insert]
    rw [hset]
    simp only [count_calls, heq]
    by_cases hmem : page_of a ∈ T
    · rw [Finset.insert_eq_of_mem hmem] at hrec ⊢
      omega
    · rw [Finset.card_insert_of_not_mem hmem] at hrec
      rw [k3 hmem]
      simp only [if_true]
      omega

theorem count_calls_pos_split (c : MMU → Int → Bool) {s : MMU} (hI : Inv s) (l : List Int)
    (h : 0 < count_calls c s l) :
    ∃ pre a post s0, l = pre ++ a :: post ∧ MMU_run s pre = some s0 ∧ Inv s0 ∧
      c s0 a = true := by
  induction l generalizing s with
  | nil => simp [count_calls] at h
  | cons a rest ih =>
    by_cases hc : c s a = true
    · exact ⟨[], a, rest, s, rfl, rfl, hI, hc⟩
    · obtain ⟨s1, r, heq, hI1⟩ := step_total a hI
      simp only [count_calls, heq, hc] at h
      obtain ⟨pre, b, post, s0, hl, hrun, hI0, hc0⟩ := ih hI1 (by simpa using h)
      exact ⟨a :: pre, b, post, s0, by rw [hl]; rfl, by simp [MMU_run, heq, hrun], hI0, hc0⟩

/-- C4: a run of `n` addresses from the initial state that touches `D` distinct
page numbers ends with a page-fault counter `f` with `D ≤ f ≤ n`; if `D` exceeds
`NUM_FRAMES` then some call of the run is a page fault taken with all frames in
use, which goes through `MMU_replace_page` and advances `page_table.oldest`. -/
theorem C4_fault_bounds (g : MMU) (file : Int → Int) (addrs : List Int) :
    ∃ s, MMU_run (MMU_init g file) addrs = some s ∧
      ((addrs.map page_of).dedup.length : Int) ≤ s.page_table.faults ∧
      s.page_table.faults ≤ addrs.length ∧
      (NUM_FRAMES < (addrs.map page_of).dedup.length →
        1 ≤ count_calls is_eviction (MMU_init g file) addrs ∧
        ∃ pre a post s0 s1 r, addrs = pre ++ a :: post ∧
          MMU_run (MMU_init g file) pre = some s0 ∧ MMU_get_byte s0 a = some (s1, r) ∧
          is_page_fault s0 a = true ∧ s0.ram.num_frames_used = NUM_FRAMES ∧
          s1.page_table.faults = s0.page_table.faults + 1 ∧
          s1.page_table.oldest = Int.tmod (s0.page_table.oldest + 1) NUM_FRAMES) := by
  obtain ⟨s, hrun, hI, _, _, e3, e4, e5⟩ := run_counters (Inv_init g file) addrs
  have z3 : (MMU_init g file).page_table.faults = 0 := rfl
  have z4 : (MMU_init g file).ram.num_frames_used = 0 := rfl
  rw [z3] at e3
  rw [z4] at e4
  have hge := run_faults_ge (Inv_init g file) addrs ∅
    (fun i h0 h1 => by have h1 : i < 0 := h1; omega)
    (fun p h0 h1 hd => by exfalso; apply hd; simp [MMU_init, h0, h1])
  rw [Finset.empty_union, Finset.card_empty, List.card_toFinset] at hge
  have hnfu := hI.nfu_hi
  refine ⟨s, hrun, by omega, by omega, ?_⟩
  intro hD
  have hpos : 0 < count_calls is_eviction (MMU_init g file) addrs := by omega
  refine ⟨hpos, ?_⟩
  obtain ⟨pre, a, post, s0, hl, hrun0, hI0, hev⟩ :=
    count_calls_pos_split is_eviction (Inv_init g file) addrs hpos
  obtain ⟨s1, r, heq, hc, hcase⟩ := step_cases s0 a hI0
  refine ⟨pre, a, post, s0, s1, r, hl, hrun0, heq, ?_⟩
  rcases hcase with h1 | h2 | h3 | h4
  · rw [(class_of_tlb_hit h1).2.2.2] at hev; cases hev
  · rw [(class_of_page_table_hit h2).2.2.2] at hev; cases hev
  · rw [(class_of_fault_fill h3).2.2.2] at hev; cases hev
  · obtain ⟨_, _, c3, _⟩ := class_of_fault_evict h4
    obtain ⟨_, _, hfull, _, hpt, _, _⟩ := h4
    exact ⟨c3, hfull, by rw [hpt], by rw [hpt]⟩

/-- C4 at a concrete input: reading pages 0..128 once each touches 129 distinct
pages, so one of the calls goes through `MMU_replace_page`. -/
theorem C4_fault_bounds_witness :
    1 ≤ count_calls is_eviction (MMU_init sample_mmu sample_file)
      (pages_from 0 129) := by
  obtain ⟨s, _, _, _, h⟩ := C4_fault_bounds sample_mmu sample_file
    (pages_from 0 129)
  exact (h (by set_option maxRecDepth 1000000 in decide)).1

/-! ## Residence between two references -/

/-- A mapped page stays mapped over a call that does not hand it to
`MMU_replace_page`. -/
theorem step_keeps_mapped {s s1 : MMU} {a : Int} {r : Translation} (hI : Inv s)
    (h : MMU_get_byte s a = some (s1, r)) {p : Int}
    (hm : s.page_table.data p ≠ -1) (he : evicted_page s a ≠ some p) :
    s1.page_table.data p ≠ -1 := by
  obtain ⟨s2, r2, heq, hc, hcase⟩ := step_cases s a hI
  rw [h] at heq
  cases heq
  obtain ⟨_, _, _, _, _, hf0, _, _, _⟩ := hc
  rcases hcase with h1 | h2 | h3 | h4
  · obtain ⟨_, _, hpt, _, _⟩ := h1
    rw [hpt]; exact hm
  · obtain ⟨_, _, _, hpt, _, _⟩ := h2
    rw [hpt]; exact hm
  · obtain ⟨_, _, _, _, hpt, _, _⟩ := h3
    rw [hpt]
    by_cases hpp : p = page_of a
    · simp only [array_set, hpp, if_true]; omega
    · simp only [array_set, hpp, if_false]; exact hm
  · obtain ⟨_, _, _, c4⟩ := class_of_fault_evict h4
    obtain ⟨_, _, _, _, hpt, _, _⟩ := h4
    rw [hpt]
    by_cases hpp : p = page_of a
    · simp only [array_set, hpp, if_true]; omega
    · have hpq : p ≠ s.page_table.replace_queue s.page_table.oldest := by
        intro hq
        apply he
        simp [evicted_page, c4, hq]
      simp only [array_set, hpp, hpq, if_false]; exact hm

theorem run_keeps_mapped {s : MMU} (hI : Inv s) (l : List Int) {p : Int}
    (hm : s.page_table.data p ≠ -1) (he : evicts_page p s l = false) :
    ∃ s1, MMU_run s l = some s1 ∧ Inv s1 ∧ s1.page_table.data p ≠ -1 := by
  induction l generalizing s with
  | nil => exact ⟨s, rfl, hI, hm⟩
  | cons a rest ih =>
    obtain ⟨s1, r, heq, hI1⟩ := step_total a hI
    simp only [evicts_page, count_calls, heq, decide_eq_false_iff_not, not_lt,
      Nat.le_zero, Nat.add_eq_zero_iff] at he
    obtain ⟨he1, he2⟩ := he
    have hne : evicted_page s a ≠ some p := by
      intro hq
      simp [hq] at he1
    obtain ⟨s2, h2, hI2, hm2⟩ := ih hI1 (step_keeps_mapped hI heq hm hne)
      (by simp [evicts_page, he2])
    exact ⟨s2, by simp [MMU_run, heq, h2], hI2, hm2⟩

/-- C5 as stated fails. Pages 0..127 are read once each, then page 0, then page
128 (which evicts page 0 from the page table and leaves `(0, 0)` in the TLB).
Reference i reads page 0 again: a TLB hit on the stale entry. Pages 1..15 are
then read (page-table hits, no call of `MMU_replace_page`), which pushes the
entry of page 0 out of the TLB. Reference j reads page 0: a page fault, the
counter goes from 129 to 130. -/
theorem C5_counterexample :
    (MMU_run (MMU_init sample_mmu sample_file)
        (pages_from 0 128 ++ [0, 32768] ++ [0])).map
      (fun s => (evicts_page (page_of 0) s (pages_from 1 15),
        count_calls is_eviction s (pages_from 1 15)))
      = some (false, 0) ∧
    (MMU_run (MMU_init sample_mmu sample_file)
        (pages_from 0 128 ++ [0, 32768] ++ [0] ++
          pages_from 1 15)).map
      (fun s => (is_page_fault s 0, s.page_table.faults,
        (MMU_get_byte s 0).map (fun x => x.1.page_table.faults)))
      = some (true, 129, some 130) := by
  set_option maxRecDepth 1000000 in decide

/-- C5 (amended): in a run from the initial state, let references i and j
(i before j) be to the same page `p`. If `p` is mapped in the page table right
after reference i (which is so whenever reference i is not a TLB hit) and no
reference strictly between them hands `p` to `MMU_replace_page`, then reference
j is not a page fault and leaves the page-fault counter unchanged. -/
theorem C5_no_fault_while_resident (g : MMU) (file : Int → Int) (pre mid : List Int)
    (ai aj : Int) (hp : page_of aj = page_of ai) :
    ∃ si si1 ri, MMU_run (MMU_init g file) pre = some si ∧
      MMU_get_byte si ai = some (si1, ri) ∧
      (is_tlb_hit si ai = false → si1.page_table.data (page_of ai) ≠ -1) ∧
      (si1.page_table.data (page_of ai) ≠ -1 → evicts_page (page_of ai) si1 mid = false →
        ∃ sj sj1 rj, MMU_run si1 mid = some sj ∧ MMU_get_byte sj aj = some (sj1, rj) ∧
          is_page_fault sj aj = false ∧ sj1.page_table.faults = sj.page_table.faults) := by
  obtain ⟨si, hrun, hI, _⟩ := run_from_init g file pre
  obtain ⟨si1, ri, heq, hI1⟩ := step_total ai hI
  refine ⟨si, si1, ri, hrun, heq, ?_, ?_⟩
  · intro hmiss
    obtain ⟨hk, _⟩ := step_value hI heq (Or.inl hmiss)
    have hf : 0 ≤ ri.frame := by
      obtain ⟨s2, r2, heq2, hc2, _⟩ := step_cases si ai hI
      rw [heq] at heq2
      cases heq2
      exact hc2.2.2.2.2.2.1
    rw [hk]; omega
  · intro hm he
    obtain ⟨sj, hrunj, hIj, hmj⟩ := run_keeps_mapped hI1 mid hm he
    obtain ⟨sj1, rj, heqj, _⟩ := step_total aj hIj
    have hpf : is_page_fault sj aj = false := by
      rw [← hp] at hmj
      simp only [is_page_fault, PageTable_lookup_page_of]
      cases TLB_lookup sj.tlb (page_of aj) <;> simp [hmj]
    refine ⟨sj, sj1, rj, hrunj, heqj, hpf, ?_⟩
    have hcnt := (step_counters hIj heqj).2.2.1
    rw [hpf] at hcnt
    simpa using hcnt

/-- C5 (amended) at a concrete input: address 1 (page 0), then pages 1 and 2,
then address 2 (page 0 again), which is not a page fault. -/
theorem C5_no_fault_while_resident_witness :
    (MMU_run (MMU_init sample_mmu sample_file) [1, 256, 512]).map
      (fun s => is_page_fault s 2) = some false := by
  obtain ⟨si, si1, ri, h1, h2, h3, h4⟩ :=
    C5_no_fault_while_resident sample_mmu sample_file [] [256, 512] 1 2 (by decide)
  cases h1
  have hs : si1 = ((MMU_get_byte (MMU_init sample_mmu sample_file) 1).map Prod.fst).getD
      sample_mmu := by rw [h2]; rfl
  obtain ⟨sj, sj1, rj, h5, _, h6, _⟩ := h4 (h3 (by decide)) (by rw [hs]; decide)
  simp only [MMU_run, h2, Option.map] 
  simp only [MMU_run] at h5
  rw [h5]
  simp [h6]

/-! ## The TLB after a call -/

/-- In a state satisfying the invariant, a live TLB slot decides the lookup of
its page. -/
theorem lookup_of_entry {s : MMU} (hI : Inv s) {k : Int} (hk0 : 0 ≤ k)
    (hk1 : k < s.tlb.num_entries) :
    TLB_lookup s.tlb (s.tlb.data k).page = some (s.tlb.data k).frame := by
  obtain ⟨f, hf, hcs⟩ := TLB_lookup_spec s.tlb (s.tlb.data k).page hI.tlb_n_lo hI.tlb_n_hi
  rcases hcs with ⟨_, hmiss⟩ | ⟨j, hj0, hj1, hjp, hjf, _⟩
  · exact absurd rfl (hmiss k hk0 hk1)
  · have hjk := hI.tlb_distinct j k hj0 hj1 hk0 hk1 hjp
    rw [hf, ← hjf, hjk]

theorem TLB_lookup_loop_congr (t1 t2 : TLB) (p : Int) (hd : t1.data = t2.data) :
    ∀ (n : Nat) (i : Int), TLB_lookup_loop t1 p n i = TLB_lookup_loop t2 p n i := by
  intro n
  induction n with
  | zero => intro i; rfl
  | succ n ih => intro i; simp only [TLB_lookup_loop, hd, ih]

theorem TLB_lookup_hits (tlb : TLB) (h p : Int) :
    TLB_lookup { tlb with hits := h } p = TLB_lookup tlb p := by
  unfold TLB_lookup
  exact TLB_lookup_loop_congr { tlb with hits := h } tlb p rfl _ _

/-- After a call for address `a` the TLB holds the page of `a` with the frame the
call used. -/
theorem lookup_after_step {s s1 : MMU} {a : Int} {r : Translation} (hI : Inv s)
    (h : MMU_get_byte s a = some (s1, r)) :
    TLB_lookup s1.tlb (page_of a) = some r.frame := by
  have hI1 := Inv_step hI h
  obtain ⟨s2, r2, heq, hc, hcase⟩ := step_cases s a hI
  rw [h] at heq
  cases heq
  have hins : TLB_insert s.tlb (page_of a) r.frame = some s1.tlb →
      TLB_lookup s1.tlb (page_of a) = some r.frame := by
    intro hf
    obtain ⟨k, hk0, hk1, _, _, _, _, _, hk, _⟩ :=
      TLB_inserted_of_eq hI.tlb_n_lo hI.tlb_n_hi hI.tlb_front_lo hI.tlb_front_hi hf
    have hl := lookup_of_entry hI1 hk0 hk1
    rw [hk] at hl
    exact hl
  rcases hcase with h1 | h2 | h3 | h4
  · obtain ⟨hlook, _, _, _, htlb⟩ := h1
    rw [htlb, ← hlook]
    exact TLB_lookup_hits _ _ _
  · exact hins h2.2.2.2.2.2
  · exact hins h3.2.2.2.2.2.2
  · exact hins h4.2.2.2.2.2.2

/-- C6: after any list of addresses processed from the initial state, if `a`
and `b` have the same page number then processing `a` and then `b` makes the
call for `b` a TLB hit: `tlb.hits` grows by exactly one during `b`,
`page_table.faults` is unchanged by `b`, and `b` uses the frame `a` used.
Scenario B: the input `[1, 2]` ends with `translation_count = 2`,
`page_table.faults = 1`, `tlb.hits = 1`. -/
theorem C6_immediate_rereference (g : MMU) (file : Int → Int) (pre : List Int) (a b : Int)
    (hp : (Int.land a 0xFFFF) >>> (8 : Nat) = (Int.land b 0xFFFF) >>> (8 : Nat)) :
    (∃ s s1 r1 s2 r2, MMU_run (MMU_init g file) pre = some s ∧
      MMU_get_byte s a = some (s1, r1) ∧ MMU_get_byte s1 b = some (s2, r2) ∧
      is_tlb_hit s1 b = true ∧ s2.tlb.hits = s1.tlb.hits + 1 ∧
      s2.page_table.faults = s1.page_table.faults ∧ r2.frame = r1.frame) ∧
    (∃ s, MMU_run (MMU_init g file) [1, 2] = some s ∧ s.translation_count = 2 ∧
      s.page_table.faults = 1 ∧ s.tlb.hits = 1) := by
  refine ⟨?_, ⟨_, rfl, rfl, rfl, rfl⟩⟩
  have hp : page_of a = page_of b := hp
  obtain ⟨s, hrun, hI, _⟩ := run_from_init g file pre
  obtain ⟨s1, r1, heq1, hc1, _⟩ := step_cases s a hI
  have hI1 := Inv_step hI heq1
  have hl := lookup_after_step hI heq1
  have hf0 : 0 ≤ r1.frame := hc1.2.2.2.2.2.1
  rw [hp] at hl
  obtain ⟨s2, r2, heq2, hc2, hcase⟩ := step_cases s1 b hI1
  have hhit : is_tlb_hit s1 b = true := by
    simp only [is_tlb_hit, hl]
    exact decide_eq_true (by omega)
  have hpf : is_page_fault s1 b = false := by
    simp only [is_page_fault, hl, PageTable_lookup_page_of]
    exact decide_eq_false (by omega)
  obtain ⟨_, d2, d3, _, _⟩ := step_counters hI1 heq2
  rw [hhit] at d2
  rw [hpf] at d3
  refine ⟨s, s1, r1, s2, r2, hrun, heq1, heq2, hhit, by simpa using d2, by simpa using d3, ?_⟩
  have hl2 : TLB_lookup s1.tlb (page_of b) = some r2.frame := by
    rcases hcase with h1 | h2 | h3 | h4
    · exact h1.1
    · have h := h2.1; rw [hl] at h; have h := Option.some.inj h; omega
    · have h := h3.1; rw [hl] at h; have h := Option.some.inj h; omega
    · have h := h4.1; rw [hl] at h; have h := Option.some.inj h; omega
  rw [hl] at hl2
  exact (Option.some.inj hl2).symm

/-- C6 at a concrete input: address 1 and then address 2, both in page 0. -/
theorem C6_immediate_rereference_witness :
    ∃ s1 r1 s2 r2, MMU_get_byte (MMU_init sample_mmu sample_file) 1 = some (s1, r1) ∧
      MMU_get_byte s1 2 = some (s2, r2) ∧ is_tlb_hit s1 2 = true ∧
      s2.tlb.hits = s1.tlb.hits + 1 ∧ r2.frame = r1.frame := by
  obtain ⟨⟨s, s1, r1, s2, r2, h0, h1, h2, h3, h4, _, h6⟩, _⟩ :=
    C6_immediate_rereference sample_mmu sample_file [] 1 2 (by decide)
  cases h0
  exact ⟨s1, r1, s2, r2, h1, h2, h3, h4, h6⟩

/-! ## Runs over pairwise distinct pages -/

theorem getElem?_snoc {l : List Int} {a : Int} {j : Nat} {x : Int}
    (h : (l ++ [a])[j]? = some x) :
    (j < l.length ∧ l[j]? = some x) ∨ (j = l.length ∧ x = a) := by
  by_cases hj : j < l.length
  · left
    rw [List.getElem?_append_left hj] at h
    exact ⟨hj, h⟩
  · right
    have hj : l.length ≤ j := Nat.le_of_not_lt hj
    rw [List.getElem?_append_right hj] at h
    by_cases hz : j - l.length = 0
    · rw [hz] at h
      simp at h
      exact ⟨by omega, h.symm⟩
    · obtain ⟨m, hm⟩ := Nat.exists_eq_succ_of_ne_zero hz
      rw [hm] at h
      simp at h

theorem window_slot (n : Nat) (k : Int) (h0 : 0 ≤ k) (h1 : k < min (n : Int) 16) :
    ∃ j : Nat, j < n ∧ n ≤ j + 16 ∧ (j : Int) % 16 = k := by
  refine ⟨n - 1 - ((n - 1 - k.toNat) % 16), ?_, ?_, ?_⟩ <;> omega

theorem mem_pages_of_getElem? {l : List Int} {j : Nat} {x : Int} (h : l[j]? = some x) :
    page_of x ∈ l.map page_of :=
  List.mem_map_of_mem page_of (List.getElem?_mem h)

/-- In a fresh state no live TLB slot holds a page outside `l`. -/
theorem fresh_tlb_pages {s : MMU} {l : List Int} (hF : FreshState s l) {k : Int}
    (hk0 : 0 ≤ k) (hk1 : k < s.tlb.num_entries) :
    ∃ (j : Nat) (x : Int), l[j]? = some x ∧ l.length ≤ j + 16 ∧
      s.tlb.data k = { page := page_of x, frame := j } := by
  rw [hF.tlb_n] at hk1
  obtain ⟨j, hj1, hj2, hj3⟩ := window_slot l.length k hk0 hk1
  have hx : l[j]? = some l[j] := List.getElem?_eq_getElem hj1
  refine ⟨j, l[j], hx, hj2, ?_⟩
  rw [← hj3]
  exact hF.tlb_slot j _ hx hj2

theorem fresh_init (g : MMU) (file : Int → Int) : FreshState (MMU_init g file) [] := by
  refine
    { inv := Inv_init g file, nfu := rfl, faults := rfl, oldest := rfl, mapped := ?_,
      unmapped := ?_, tlb_n := rfl, tlb_front := rfl, tlb_slot := ?_ }
  · intro j x h; simp at h
  · intro p h0 h1 _; simp [MMU_init, PAGE_TABLE_ENTRIES, h0, h1]
  · intro j x h; simp at h

/-- In a fresh state a page outside `l` misses the TLB and the page table. -/
theorem fresh_miss {s : MMU} {l : List Int} (hF : FreshState s l) {a : Int}
    (hnew : page_of a ∉ l.map page_of) :
    TLB_lookup s.tlb (page_of a) = some (-1) ∧ s.page_table.data (page_of a) = -1 := by
  obtain ⟨hp0, hp1⟩ := page_of_bounds a
  refine ⟨?_, hF.unmapped _ hp0 hp1 hnew⟩
  obtain ⟨f, hf, hcs⟩ := TLB_lookup_spec s.tlb (page_of a) hF.inv.tlb_n_lo hF.inv.tlb_n_hi
  rcases hcs with ⟨hm, _⟩ | ⟨k, hk0, hk1, hkp, _, _⟩
  · rw [hf, hm]
  · exfalso
    obtain ⟨j, x, hx, _, hd⟩ := fresh_tlb_pages hF hk0 hk1
    rw [hd] at hkp
    exact hnew (hkp ▸ mem_pages_of_getElem? hx)

/-- Reading a new page in a fresh state with a free frame: a page fault that
takes the next frame. -/
theorem fresh_step {s : MMU} {l : List Int} (hF : FreshState s l) {a : Int}
    (hlen : l.length < 128) (hnew : page_of a ∉ l.map page_of) :
    ∃ s1 r, MMU_get_byte s a = some (s1, r) ∧ FreshState s1 (l ++ [a]) ∧
      r.frame = l.length ∧ is_page_fault s a = true := by
  obtain ⟨hlook, hdp⟩ := fresh_miss hF hnew
  obtain ⟨s1, r, heq, hc, hcase⟩ := step_cases s a hF.inv
  have hI1 := Inv_step hF.inv heq
  have hnfu := hF.nfu
  have h3 : StepFaultFill s a s1 r := by
    rcases hcase with h1 | h2 | h3 | h4
    · have h := h1.1; rw [hlook] at h
      exact absurd (Option.some.inj h).symm h1.2.1
    · have h := h2.2.1; rw [hdp] at h
      exact absurd h.symm h2.2.2.1
    · exact h3
    · have h := h4.2.2.1
      simp only [NUM_FRAMES] at h
      omega
  obtain ⟨_, _, c3, _⟩ := class_of_fault_fill h3
  obtain ⟨_, _, _, hfr, hpt, hram, htlb⟩ := h3
  rw [hnfu] at hfr
  refine ⟨s1, r, heq, ?_, hfr, c3⟩
  rw [hfr] at hpt htlb
  have hlen' : (l ++ [a]).length = l.length + 1 := by simp
  have hn := hF.tlb_n
  have hfront := hF.tlb_front
  have htlb1 : s1.tlb.num_entries = min (((l ++ [a]).length : Nat) : Int) 16 ∧
      s1.tlb.front = (if (((l ++ [a]).length : Nat) : Int) < 16 then 0
        else (((l ++ [a]).length : Nat) : Int) % 16) ∧
      s1.tlb.data = array_set s.tlb.data ((l.length : Int) % 16)
        { page := page_of a, frame := l.length } := by
    rw [hlen']
    by_cases h16 : (l.length : Int) < 16
    · have hne : s.tlb.num_entries = l.length := by rw [hn]; omega
      have hlt : s.tlb.num_entries < 16 := by omega
      have hge : 0 ≤ s.tlb.num_entries := by omega
      simp only [TLB_insert, TLB_ENTRIES, hlt, hge, if_true, Option.some.injEq] at htlb
      rw [← htlb]
      refine ⟨?_, ?_, ?_⟩
      · show s.tlb.num_entries + 1 = _
        push_cast; omega
      · show s.tlb.front = _
        rw [hfront]; push_cast
        split <;> split <;> omega
      · show array_set s.tlb.data s.tlb.num_entries _ = _
        have e : (l.length : Int) % 16 = l.length := by omega
        rw [hne, e]
    · have hne : s.tlb.num_entries = 16 := by rw [hn]; omega
      have hfr16 : s.tlb.front = (l.length : Int) % 16 := by rw [hfront]; simp [h16]
      have hlt : ¬ s.tlb.num_entries < 16 := by omega
      have hf0 : 0 ≤ s.tlb.front := by omega
      have hf1 : s.tlb.front < 16 := by omega
      simp only [TLB_insert, TLB_ENTRIES, hlt, hf0, hf1, if_true, if_false, and_self,
        Option.some.injEq] at htlb
      rw [← htlb]
      refine ⟨?_, ?_, ?_⟩
      · show s.tlb.num_entries = _
        push_cast; omega
      · show Int.tmod (s.tlb.front + 1) 16 = _
        rw [tmod_succ_eq _ _ hf0 (by decide), hfr16]; push_cast
        split <;> omega
      · show array_set s.tlb.data s.tlb.front _ = _
        rw [hfr16]
  obtain ⟨ht1, ht2, ht3⟩ := htlb1
  refine
    { inv := hI1, nfu := ?_, faults := ?_, oldest := ?_, mapped := ?_, unmapped := ?_,
      tlb_n := ht1, tlb_front := ht2, tlb_slot := ?_ }
  · rw [hram, hlen']; show s.ram.num_frames_used + 1 = _
    rw [hnfu]; push_cast; rfl
  · rw [hpt, hlen']; show s.page_table.faults + 1 = _
    rw [hF.faults]; push_cast; rfl
  · rw [hpt]; exact hF.oldest
  · intro j x hx
    rw [hpt]
    show array_set s.page_table.data (page_of a) (l.length : Int) (page_of x) = j
    rcases getElem?_snoc hx with ⟨_, hj⟩ | ⟨hj, hxa⟩
    · have hne : page_of x ≠ page_of a := fun he => hnew (he ▸ mem_pages_of_getElem? hj)
      simp only [array_set, hne, if_false]
      exact hF.mapped j x hj
    · simp [array_set, hxa, hj]
  · intro p hp0 hp1 hp
    rw [hpt]
    show array_set s.page_table.data (page_of a) (l.length : Int) p = -1
    have hpa : p ≠ page_of a := by
      intro he; apply hp; simp [he]
    have hpl : p ∉ l.map page_of := by
      intro he; apply hp
      simp only [List.map_append, List.mem_append]
      exact Or.inl he
    simp only [array_set, hpa, if_false]
    exact hF.unmapped p hp0 hp1 hpl
  · intro j x hx hwin
    rw [ht3]
    rcases getElem?_snoc hx with ⟨hjl, hj⟩ | ⟨hj, hxa⟩
    · have hne : (j : Int) % 16 ≠ (l.length : Int) % 16 := by
        rw [hlen'] at hwin; omega
      simp only [array_set, hne, if_false]
      exact hF.tlb_slot j x hj (by rw [hlen'] at hwin; omega)
    · simp [array_set, hxa, hj]

/-- A run over new, pairwise distinct pages that fit into the free frames. -/
theorem fresh_run {s : MMU} {l : List Int} (hF : FreshState s l) (m : List Int)
    (hlen : (l ++ m).length ≤ 128) (hnd : ((l ++ m).map page_of).Nodup) :
    ∃ s1, MMU_run s m = some s1 ∧ FreshState s1 (l ++ m) := by
  induction m generalizing s l with
  | nil => exact ⟨s, rfl, by simpa using hF⟩
  | cons a rest ih =>
    have hsplit : l ++ a :: rest = (l ++ [a]) ++ rest := by simp
    rw [hsplit] at hlen hnd ⊢
    have hnd1 : ((l ++ [a]).map page_of).Nodup := by
      rw [List.map_append] at hnd
      exact (List.nodup_append.mp hnd).1
    have hnew : page_of a ∉ l.map page_of := by
      rw [List.map_append] at hnd1
      intro hmem
      exact (List.nodup_append.mp hnd1).2.2 hmem (by simp)
    have hl : l.length < 128 := by
      simp only [List.length_append, List.length_cons, List.length_nil] at hlen
      omega
    obtain ⟨s1, r, heq, hF1, _, _⟩ := fresh_step hF hl hnew
    obtain ⟨s2, h2, hF2⟩ := ih hF1 hlen hnd
    exact ⟨s2, by simp [MMU_run, heq, h2], hF2⟩

/-- A call whose page misses both lookups is a page fault. -/
theorem fault_of_miss {s : MMU} {a : Int}
    (h1 : TLB_lookup s.tlb (page_of a) = some (-1))
    (h2 : s.page_table.data (page_of a) = -1) : is_page_fault s a = true := by
  simp [is_page_fault, h1, PageTable_lookup_page_of, h2]

/-- C7 (Scenario D generalised): 129 addresses with pairwise distinct pages
`p0, ..., p128` are read in order from the initial state. The 129th call is a
page fault that hands `p0` to `MMU_replace_page`, unmaps it and installs `p128`
in frame 0; a read of any address of `p0` made right afterwards is again a page
fault, the 130th. -/
theorem C7_fifo_eviction (g : MMU) (file : Int → Int) (a0 : Int) (mid : List Int)
    (a128 b : Int) (hlen : mid.length = 127)
    (hnd : ((a0 :: mid ++ [a128]).map page_of).Nodup) (hb : page_of b = page_of a0) :
    ∃ s128 s129 r129 s130 r130,
      MMU_run (MMU_init g file) (a0 :: mid) = some s128 ∧
      s128.page_table.data (page_of a0) = 0 ∧ s128.page_table.faults = 128 ∧
      MMU_get_byte s128 a128 = some (s129, r129) ∧
      is_page_fault s128 a128 = true ∧ evicted_page s128 a128 = some (page_of a0) ∧
      s129.page_table.data (page_of a0) = -1 ∧ s129.page_table.data (page_of a128) = 0 ∧
      r129.frame = 0 ∧ s129.page_table.faults = 129 ∧
      MMU_get_byte s129 b = some (s130, r130) ∧
      is_page_fault s129 b = true ∧ s130.page_table.faults = 130 := by
  have hnd0 : (([] ++ (a0 :: mid)).map page_of).Nodup := by
    have h : (a0 :: mid ++ [a128]).map page_of =
        (a0 :: mid).map page_of ++ [page_of a128] := by simp
    rw [h] at hnd
    exact (List.nodup_append.mp hnd).1
  have hnew : page_of a128 ∉ (a0 :: mid).map page_of := by
    have h : (a0 :: mid ++ [a128]).map page_of =
        (a0 :: mid).map page_of ++ [page_of a128] := by simp
    rw [h] at hnd
    intro hmem
    exact (List.nodup_append.mp hnd).2.2 hmem (by simp)
  have hp0mid : page_of a0 ∉ mid.map page_of := by
    have h : (a0 :: mid).map page_of = page_of a0 :: mid.map page_of := rfl
    simp only [List.nil_append] at hnd0
    rw [h] at hnd0
    exact (List.nodup_cons.mp hnd0).1
  have hne128 : page_of a0 ≠ page_of a128 := by
    intro he; apply hnew; rw [← he]; simp
  obtain ⟨s128, hrun, hF⟩ := fresh_run (fresh_init g file) (a0 :: mid)
    (by simp [hlen]) hnd0
  simp only [List.nil_append] at hF
  have hI := hF.inv
  have hd0 : s128.page_table.data (page_of a0) = 0 := by
    have h := hF.mapped 0 a0 (by simp)
    simpa using h
  have hfl : s128.page_table.faults = 128 := by
    rw [hF.faults]; simp [hlen]
  have hnfu : s128.ram.num_frames_used = 128 := by
    rw [hF.nfu]; simp [hlen]
  obtain ⟨hp0, hp1⟩ := page_of_bounds a0
  have hq0 : s128.page_table.replace_queue 0 = page_of a0 := by
    have h := (hI.data_ok (page_of a0) hp0 hp1 (by rw [hd0]; decide)).2.2
    rw [hd0] at h
    exact h
  obtain ⟨hlook, hdp⟩ := fresh_miss hF hnew
  obtain ⟨s129, r129, heq, hc, hcase⟩ := step_cases s128 a128 hI
  have hI1 := Inv_step hI heq
  have h4 : StepFaultEvict s128 a128 s129 r129 := by
    rcases hcase with h1 | h2 | h3 | h4
    · have h := h1.1; rw [hlook] at h
      exact absurd (Option.some.inj h).symm h1.2.1
    · have h := h2.2.1; rw [hdp] at h
      exact absurd h.symm h2.2.2.1
    · exact absurd hnfu h3.2.2.1
    · exact h4
  obtain ⟨_, _, c3, c4⟩ := class_of_fault_evict h4
  obtain ⟨_, _, _, hfr, hpt, hram, htlb⟩ := h4
  rw [hF.oldest, hq0, hd0] at hfr
  rw [hF.oldest, hq0, hfr] at hpt
  have hev : evicted_page s128 a128 = some (page_of a0) := by
    simp [evicted_page, c4, hF.oldest, hq0]
  have hd1 : s129.page_table.data (page_of a0) = -1 := by
    rw [hpt]; simp [array_set, hne128]
  have hd2 : s129.page_table.data (page_of a128) = 0 := by
    rw [hpt]; simp [array_set]
  have hf129 : s129.page_table.faults = 129 := by
    rw [hpt]; show s128.page_table.faults + 1 = 129
    rw [hfl]; rfl
  have hins := TLB_inserted_of_eq hI.tlb_n_lo hI.tlb_n_hi hI.tlb_front_lo hI.tlb_front_hi htlb
  have hno : ∀ i, 0 ≤ i → i < s129.tlb.num_entries →
      (s129.tlb.data i).page ≠ page_of a0 := by
    refine TLB_inserted_live hins (fun e => e.page ≠ page_of a0) ?_ (Ne.symm hne128)
    intro k hk0 hk1
    obtain ⟨j, x, hx, hwin, hd⟩ := fresh_tlb_pages hF hk0 hk1
    rw [hd]
    show page_of x ≠ page_of a0
    have hj : j ≠ 0 := by
      simp only [List.length_cons, hlen] at hwin
      omega
    obtain ⟨j1, rfl⟩ := Nat.exists_eq_succ_of_ne_zero hj
    rw [List.getElem?_cons_succ] at hx
    intro he
    exact hp0mid (he ▸ mem_pages_of_getElem? hx)
  have hlook2 : TLB_lookup s129.tlb (page_of b) = some (-1) := by
    rw [hb]
    obtain ⟨f, hf, hcs⟩ := TLB_lookup_spec s129.tlb (page_of a0) hI1.tlb_n_lo hI1.tlb_n_hi
    rcases hcs with ⟨hm, _⟩ | ⟨k, hk0, hk1, hkp, _, _⟩
    · rw [hf, hm]
    · exact absurd hkp (hno k hk0 hk1)
  have hdb : s129.page_table.data (page_of b) = -1 := by rw [hb]; exact hd1
  have hpf2 := fault_of_miss hlook2 hdb
  obtain ⟨s130, r130, heq2, _⟩ := step_total b hI1
  have hcnt := (step_counters hI1 heq2).2.2.1
  rw [hpf2, hf129] at hcnt
  exact ⟨s128, s129, r129, s130, r130, hrun, hd0, hfl, heq, c3, hev, hd1, hd2, hfr, hf129,
    heq2, hpf2, by rw [hcnt]; rfl⟩

/-- C7 at the input of Scenario D: pages 0..127, then page 128, then page 0. -/
theorem C7_fifo_eviction_witness :
    ∃ s128 s129 r129 s130 r130,
      MMU_run (MMU_init sample_mmu sample_file)
        (0 :: pages_from 1 127) = some s128 ∧
      MMU_get_byte s128 32768 = some (s129, r129) ∧
      evicted_page s128 32768 = some 0 ∧ s129.page_table.data 0 = -1 ∧
      s129.page_table.data 128 = 0 ∧ r129.frame = 0 ∧
      MMU_get_byte s129 0 = some (s130, r130) ∧ s130.page_table.faults = 130 := by
  obtain ⟨s128, s129, r129, s130, r130, h1, _, _, h4, _, h6, h7, h8, h9, _, h11, _, h13⟩ :=
    C7_fifo_eviction sample_mmu sample_file 0
      (pages_from 1 127) 32768 0
      (by simp [pages_from])
      (by set_option maxRecDepth 1000000 in decide) rfl
  exact ⟨s128, s129, r129, s130, r130, h1, h4, h6, h7, h8, h9, h11, h13⟩

/-- C8: after any list of addresses processed from the initial state, a call
whose page `p` is not found by `TLB_lookup` while `PageTable[p] = f` with
`f != -1` uses frame `f`, inserts `(p, f)` into the TLB (so that `p` is found
there afterwards) and leaves the page table (entries, queue, `oldest`,
`next_empty`, `faults`), the memory, `num_frames_used` and `tlb.hits` unchanged.
Scenario C: after pages 0..16, read once each, there are 17 page faults and no
TLB hit; reading page 0 again misses the TLB, finds frame 0 in the page table
and is not a page fault. -/
theorem C8_page_table_hit (g : MMU) (file : Int → Int) (pre : List Int) (a : Int) :
    (∃ s, MMU_run (MMU_init g file) pre = some s ∧
      ∀ f, TLB_lookup s.tlb (page_of a) = some (-1) → s.page_table.data (page_of a) = f →
        f ≠ -1 →
        ∃ s1 r, MMU_get_byte s a = some (s1, r) ∧ r.frame = f ∧
          TLB_insert s.tlb (page_of a) f = some s1.tlb ∧
          TLB_lookup s1.tlb (page_of a) = some f ∧
          s1.page_table = s.page_table ∧ s1.ram = s.ram ∧ s1.tlb.hits = s.tlb.hits ∧
          s1.translation_count = s.translation_count + 1) ∧
    (∃ s s1 r, MMU_run (MMU_init g file) (pages_from 0 17) = some s ∧
      s.page_table.faults = 17 ∧ s.tlb.hits = 0 ∧
      TLB_lookup s.tlb (page_of 0) = some (-1) ∧ s.page_table.data (page_of 0) = 0 ∧
      MMU_get_byte s 0 = some (s1, r) ∧ r.frame = 0 ∧
      s1.page_table.faults = 17 ∧ s1.tlb.hits = 0 ∧ s1.translation_count = 18) := by
  constructor
  · obtain ⟨s, hrun, hI, _⟩ := run_from_init g file pre
    refine ⟨s, hrun, ?_⟩
    intro f hlook hd hne
    obtain ⟨s1, r, heq, hc, hcase⟩ := step_cases s a hI
    have hl := lookup_after_step hI heq
    have h2 : StepPageTableHit s a s1 r := by
      rcases hcase with h1 | h2 | h3 | h4
      · have h := h1.1; rw [hlook] at h
        exact absurd (Option.some.inj h).symm h1.2.1
      · exact h2
      · have h := h3.2.1; rw [hd] at h; exact absurd h hne
      · have h := h4.2.1; rw [hd] at h; exact absurd h hne
    obtain ⟨_, hfr, _, hpt, hram, htlb⟩ := h2
    rw [hd] at hfr
    rw [← hfr] at hl htlb
    exact ⟨s1, r, heq, hfr.symm, htlb, hl, hpt, hram, hits_of_insert hI htlb, hc.2.2.2.2.2.2.2.2⟩
  · exact ⟨_, _, _, rfl, rfl, rfl, rfl, rfl, rfl, rfl, rfl, rfl, rfl⟩

/-- C8 at the input of Scenario C, on a concrete backing store. -/
theorem C8_page_table_hit_witness :
    ∃ s s1 r, MMU_run (MMU_init sample_mmu sample_file) (pages_from 0 17) = some s ∧
      MMU_get_byte s 0 = some (s1, r) ∧ r.frame = 0 ∧
      s1.page_table = s.page_table ∧ s1.ram = s.ram ∧ s1.tlb.hits = s.tlb.hits := by
  obtain ⟨⟨s, h1, h2⟩, _⟩ := C8_page_table_hit sample_mmu sample_file (pages_from 0 17) 0
  have hs : s = (MMU_run (MMU_init sample_mmu sample_file) (pages_from 0 17)).getD
      sample_mmu := by rw [h1]; rfl
  obtain ⟨s1, r, h3, h4, _, _, h5, h6, h7, _⟩ := h2 0
    (by rw [hs]; set_option maxRecDepth 100000 in decide)
    (by rw [hs]; set_option maxRecDepth 100000 in decide) (by decide)
  exact ⟨s, s1, r, h1, h3, h4, h5, h6, h7⟩

/-! ## The address split -/

/-- A call echoes its address and reports the page and offset split from it. -/
theorem step_echo {s s1 : MMU} {a : Int} {r : Translation}
    (h : MMU_get_byte s a = some (s1, r)) :
    r.logical_addr = a ∧ r.page = page_of a ∧ r.offset = offset_of a := by
  have fin : ∀ (c : Prop) [Decidable c] (m : MMU) (f v q : Int),
      (if c then some (m, Translation.mk a (page_of a) (offset_of a) f q v) else none) =
        some (s1, r) →
      r.logical_addr = a ∧ r.page = page_of a ∧ r.offset = offset_of a := by
    intro c _ m f v q hc
    split at hc
    · simp only [Option.some.injEq, Prod.mk.injEq] at hc
      rw [← hc.2]
      exact ⟨rfl, rfl, rfl⟩
    · cases hc
  simp only [MMU_get_byte] at h
  cases h1 : TLB_lookup s.tlb (page_of a) with
  | none => rw [h1] at h; cases h
  | some f0 =>
    rw [h1] at h
    simp only [Option.bind_eq_bind, Option.some_bind] at h
    split at h
    · cases h2 : PageTable_lookup s.page_table (page_of a) with
      | none => rw [h2] at h; cases h
      | some f1 =>
        rw [h2] at h
        simp only [Option.some_bind] at h
        split at h
        · cases h3 : MMU_read_from_store
              { s with page_table := { s.page_table with
                  faults := s.page_table.faults + 1 } } (page_of a) with
          | none => rw [h3] at h; cases h
          | some y =>
            rw [h3] at h
            simp only [Option.some_bind] at h
            cases h4 : TLB_insert y.1.tlb (page_of a) y.2 with
            | none => rw [h4] at h; cases h
            | some t =>
              rw [h4] at h
              exact fin _ _ _ _ _ h
        · cases h4 : TLB_insert s.tlb (page_of a) f1 with
          | none => rw [h4] at h; cases h
          | some t =>
            rw [h4] at h
            exact fin _ _ _ _ _ h
    · exact fin _ _ _ _ _ h

/-- The call depends on the address only through its page and offset, the
echoed address apart. -/
theorem step_congr (s : MMU) {a b : Int} (hp : page_of a = page_of b)
    (ho : offset_of a = offset_of b) :
    MMU_get_byte s b =
      (MMU_get_byte s a).map (fun x => (x.1, { x.2 with logical_addr := b })) := by
  simp only [MMU_get_byte, hp, ho]
  cases TLB_lookup s.tlb (page_of b) with
  | none => rfl
  | some f0 =>
    simp only [Option.bind_eq_bind, Option.some_bind]
    split
    · cases PageTable_lookup s.page_table (page_of b) with
      | none => rfl
      | some f1 =>
        simp only [Option.some_bind]
        split
        · cases MMU_read_from_store _ (page_of b) with
          | none => rfl
          | some y =>
            simp only [Option.some_bind]
            cases TLB_insert y.1.tlb (page_of b) y.2 with
            | none => rfl
            | some t =>
              simp only [Option.some_bind]
              split <;> rfl
        · cases TLB_insert s.tlb (page_of b) f1 with
          | none => rfl
          | some t =>
            simp only [Option.some_bind]
            split <;> rfl
    · split <;> rfl

/-- C9: in every state, two inputs `a` and `b` (negative values included) with
the same low 16 bits give the same successor state, the same physical address
and the same value: the result for `b` is the result for `a` with the echoed
address replaced (and a call that fails for one fails for the other). The page
used is `(a mod 65536) div 256`, in `0..255`, the offset is `a mod 256`, in
`0..255`. -/
theorem C9_high_bits_ignored (s : MMU) (a b : Int)
    (h : Int.land a 0xFFFF = Int.land b 0xFFFF) :
    MMU_get_byte s b =
      (MMU_get_byte s a).map (fun x => (x.1, { x.2 with logical_addr := b })) ∧
    (∀ s1 r, MMU_get_byte s a = some (s1, r) →
      r.logical_addr = a ∧ r.page = a % 65536 / 256 ∧ r.offset = a % 256) ∧
    (Int.land a 0xFFFF) >>> (8 : Nat) = a % 65536 / 256 ∧
    0 ≤ a % 65536 / 256 ∧ a % 65536 / 256 < 256 ∧
    Int.land a 0xFF = a % 256 ∧ 0 ≤ a % 256 ∧ a % 256 < 256 := by
  have h16 : ∀ x : Int, Int.land x 0xFFFF = x % 65536 := by
    intro x
    have h := land_low_bits x 16
    simpa using h
  have hm : a % 65536 = b % 65536 := by rw [← h16, ← h16]; exact h
  have hp : page_of a = page_of b := by rw [page_of_eq, page_of_eq, hm]
  have ho : offset_of a = offset_of b := by rw [offset_of_eq, offset_of_eq]; omega
  refine ⟨step_congr s hp ho, ?_, page_of_eq a, by omega, by omega, offset_of_eq a,
    by omega, by omega⟩
  intro s1 r hstep
  obtain ⟨e1, e2, e3⟩ := step_echo hstep
  exact ⟨e1, by rw [e2, page_of_eq], by rw [e3, offset_of_eq]⟩

/-- C9 at the input of Scenario F: 65536 has the same effect as 0. -/
theorem C9_high_bits_ignored_witness :
    MMU_get_byte (MMU_init sample_mmu sample_file) 65536 =
      (MMU_get_byte (MMU_init sample_mmu sample_file) 0).map
        (fun x => (x.1, { x.2 with logical_addr := 65536 })) :=
  (C9_high_bits_ignored (MMU_init sample_mmu sample_file) 0 65536 (by decide)).1

/-- C10 (invariant 1): in every state reached from the initial one, whenever
`PageTable[p] = f` with `f != -1`, exactly one of the `num_frames_used` live
entries of the replacement queue equals `p`, `f` is a frame index, and frame `f`
of the memory holds the `PAGE_SIZE` bytes of page `p` of the backing store. -/
theorem C10_mapped_page_invariant (g : MMU) (file : Int → Int) (addrs : List Int) :
    ∃ s, MMU_run (MMU_init g file) addrs = some s ∧
      ∀ p f, 0 ≤ p → p < PAGE_TABLE_ENTRIES → s.page_table.data p = f → f ≠ -1 →
        (∃! i, 0 ≤ i ∧ i < s.ram.num_frames_used ∧ s.page_table.replace_queue i = p) ∧
        0 ≤ f ∧ f < NUM_FRAMES ∧
        ∀ o, 0 ≤ o → o < PAGE_SIZE → s.ram.memory f o = file (p * PAGE_SIZE + o) := by
  obtain ⟨s, hrun, hI, hbs⟩ := run_from_init g file addrs
  refine ⟨s, hrun, ?_⟩
  intro p f hp0 hp1 hd hne
  rw [← hd] at hne
  obtain ⟨h1, h2, h3⟩ := hI.data_ok p hp0 hp1 hne
  have hn := hI.nfu_hi
  refine ⟨⟨f, ⟨by rw [← hd]; exact h1, by rw [← hd]; exact h2, by rw [← hd]; exact h3⟩, ?_⟩,
    by rw [← hd]; exact h1, by rw [← hd]; omega, ?_⟩
  · rintro i ⟨hi0, hi1, hi2⟩
    have hq := (hI.queue_ok i hi0 hi1).2.2
    rw [hi2, hd] at hq
    exact hq.symm
  · intro o ho0 ho1
    rw [← hd, ← hbs]
    exact hI.mem_ok p hp0 hp1 hne o ho0 ho1

/-- C10 at a concrete input: after addresses 1 and 258, page 1 is mapped to
frame 1 and byte 2 of that frame is byte 2 of page 1 of the backing store. -/
theorem C10_mapped_page_invariant_witness :
    ∃ s, MMU_run (MMU_init sample_mmu sample_file) [1, 258] = some s ∧
      s.page_table.data 1 = 1 ∧ s.ram.memory 1 2 = sample_file (1 * 256 + 2) := by
  obtain ⟨s, h1, h2⟩ := C10_mapped_page_invariant sample_mmu sample_file [1, 258]
  have hs : s = (MMU_run (MMU_init sample_mmu sample_file) [1, 258]).getD sample_mmu := by
    rw [h1]; rfl
  have hd : s.page_table.data 1 = 1 := by rw [hs]; decide
  obtain ⟨_, _, _, hm⟩ := h2 1 1 (by decide) (by decide) hd (by decide)
  exact ⟨s, h1, hd, hm 2 (by decide) (by decide)⟩

/-! ## Frames and their owners -/

theorem mem_mapped_pages {s : MMU} {p : Int} :
    p ∈ mapped_pages s ↔ 0 ≤ p ∧ p < PAGE_TABLE_ENTRIES ∧ s.page_table.data p ≠ -1 := by
  simp only [mapped_pages, PAGE_TABLE_ENTRIES, List.mem_filter, List.mem_map, List.mem_range,
    decide_eq_true_eq]
  constructor
  · rintro ⟨⟨n, hn, rfl⟩, hd⟩
    have hn : n < 256 := hn
    exact ⟨by omega, by omega, hd⟩
  · rintro ⟨h0, h1, hd⟩
    refine ⟨⟨p.toNat, ?_, ?_⟩, hd⟩
    · show p.toNat < 256
      omega
    · omega

theorem mem_live_queue {s : MMU} (h0 : 0 ≤ s.ram.num_frames_used) {p : Int} :
    p ∈ live_queue s ↔
      ∃ i, 0 ≤ i ∧ i < s.ram.num_frames_used ∧ s.page_table.replace_queue i = p := by
  simp only [live_queue, List.mem_map, List.mem_range]
  constructor
  · rintro ⟨n, hn, rfl⟩
    exact ⟨n, by omega, by omega, rfl⟩
  · rintro ⟨i, hi0, hi1, rfl⟩
    exact ⟨i.toNat, by omega, by rw [Int.toNat_of_nonneg hi0]⟩

theorem nodup_mapped_pages (s : MMU) : (mapped_pages s).Nodup := by
  apply List.Nodup.filter
  apply List.Nodup.map_on _ (List.nodup_range _)
  intro x _ y _ h
  exact Int.ofNat.inj h

theorem nodup_live_queue {s : MMU} (hI : Inv s) : (live_queue s).Nodup := by
  apply List.Nodup.map_on _ (List.nodup_range _)
  intro x hx y hy h
  have hx : x < s.ram.num_frames_used.toNat := List.mem_range.mp hx
  have hy : y < s.ram.num_frames_used.toNat := List.mem_range.mp hy
  have h1 := (hI.queue_ok x (by omega) (by omega)).2.2
  have h2 := (hI.queue_ok y (by omega) (by omega)).2.2
  rw [h] at h1
  rw [h1] at h2
  omega

/-- The live queue entries are exactly the mapped pages. -/
theorem live_queue_perm {s : MMU} (hI : Inv s) : List.Perm (live_queue s) (mapped_pages s) := by
  rw [List.perm_ext_iff_of_nodup (nodup_live_queue hI) (nodup_mapped_pages s)]
  intro p
  rw [mem_live_queue hI.nfu_lo, mem_mapped_pages]
  constructor
  · rintro ⟨i, hi0, hi1, rfl⟩
    obtain ⟨h1, h2, h3⟩ := hI.queue_ok i hi0 hi1
    exact ⟨h1, h2, by rw [h3]; omega⟩
  · rintro ⟨h0, h1, hd⟩
    obtain ⟨k1, k2, k3⟩ := hI.data_ok p h0 h1 hd
    exact ⟨_, k1, k2, k3⟩

/-- The number of frames in use never decreases over a call. -/
theorem nfu_mono {s s1 : MMU} {a : Int} {r : Translation} (hI : Inv s)
    (h : MMU_get_byte s a = some (s1, r)) :
    s.ram.num_frames_used ≤ s1.ram.num_frames_used := by
  obtain ⟨s2, r2, heq, _, hcase⟩ := step_cases s a hI
  rw [h] at heq
  cases heq
  rcases hcase with h1 | h2 | h3 | h4
  · rw [h1.2.2.2.1]
  · rw [h2.2.2.2.2.1]
  · rw [h3.2.2.2.2.2.1]; show s.ram.num_frames_used ≤ s.ram.num_frames_used + 1; omega
  · rw [h4.2.2.2.2.2.1]

/-- Every frame in use is owned by exactly one page. -/
theorem frame_owner {s : MMU} (hI : Inv s) {f : Int} (hf0 : 0 ≤ f)
    (hf1 : f < s.ram.num_frames_used) :
    ∃! p, 0 ≤ p ∧ p < PAGE_TABLE_ENTRIES ∧ s.page_table.data p = f := by
  obtain ⟨h1, h2, h3⟩ := hI.queue_ok f hf0 hf1
  refine ⟨s.page_table.replace_queue f, ⟨h1, h2, h3⟩, ?_⟩
  rintro p ⟨hp0, hp1, hp2⟩
  have hq := (hI.data_ok p hp0 hp1 (by rw [hp2]; omega)).2.2
  rw [hp2] at hq
  exact hq.symm

/-- C11 (invariant 2): in every state reached from the initial one, every frame
index below `num_frames_used` is `PageTable[p]` for exactly one page `p`, no
mapped page has a frame outside that range, the first `num_frames_used` entries
of the replacement queue are a permutation of the mapped pages (so there are
`num_frames_used` mapped pages), and after one more call every frame that was in
use is still in use and owned. -/
theorem C11_frame_ownership (g : MMU) (file : Int → Int) (addrs : List Int) :
    ∃ s, MMU_run (MMU_init g file) addrs = some s ∧
      (∀ f, 0 ≤ f → f < s.ram.num_frames_used →
        ∃! p, 0 ≤ p ∧ p < PAGE_TABLE_ENTRIES ∧ s.page_table.data p = f) ∧
      (∀ p, 0 ≤ p → p < PAGE_TABLE_ENTRIES → s.page_table.data p ≠ -1 →
        0 ≤ s.page_table.data p ∧ s.page_table.data p < s.ram.num_frames_used) ∧
      List.Perm (live_queue s) (mapped_pages s) ∧
      ((mapped_pages s).length : Int) = s.ram.num_frames_used ∧
      ∀ a, ∃ s1 r, MMU_get_byte s a = some (s1, r) ∧
        ∀ f, 0 ≤ f → f < s.ram.num_frames_used →
          f < s1.ram.num_frames_used ∧
          ∃! p, 0 ≤ p ∧ p < PAGE_TABLE_ENTRIES ∧ s1.page_table.data p = f := by
  obtain ⟨s, hrun, hI, _⟩ := run_from_init g file addrs
  have hperm := live_queue_perm hI
  refine ⟨s, hrun, fun f h0 h1 => frame_owner hI h0 h1, ?_, hperm, ?_, ?_⟩
  · intro p h0 h1 hd
    obtain ⟨k1, k2, _⟩ := hI.data_ok p h0 h1 hd
    exact ⟨k1, k2⟩
  · rw [← hperm.length_eq]
    simp only [live_queue, List.length_map, List.length_range]
    exact Int.toNat_of_nonneg hI.nfu_lo
  · intro a
    obtain ⟨s1, r, heq, hI1⟩ := step_total a hI
    refine ⟨s1, r, heq, ?_⟩
    intro f h0 h1
    have hm := nfu_mono hI heq
    exact ⟨by omega, frame_owner hI1 h0 (by omega)⟩

/-! ## In-bounds accesses -/

/-- In a state satisfying the invariant with all frames in use,
`MMU_replace_page` succeeds and returns the frame of a mapped page. -/
theorem replace_page_ok {s : MMU} (hI : Inv s) (hfull : s.ram.num_frames_used = NUM_FRAMES) :
    ∃ s2 f, MMU_replace_page s = some (s2, f) ∧
      f = s.page_table.data (s.page_table.replace_queue s.page_table.oldest) ∧
      f ≠ -1 ∧ 0 ≤ f ∧ f < NUM_FRAMES := by
  have hol := hI.oldest_lo
  have hoh := hI.oldest_hi
  obtain ⟨hq0, hq1, hqd⟩ := hI.queue_ok s.page_table.oldest hol (by rw [hfull]; exact hoh)
  refine ⟨{ s with page_table := { s.page_table with
              oldest := Int.tmod (s.page_table.oldest + 1) NUM_FRAMES
              data := array_set s.page_table.data
                (s.page_table.replace_queue s.page_table.oldest) (-1) } },
    s.page_table.data (s.page_table.replace_queue s.page_table.oldest), ?_, rfl, ?_, ?_, ?_⟩
  · simp [MMU_replace_page, hol, hoh, hq0, hq1]
  · rw [hqd]; omega
  · rw [hqd]; exact hol
  · rw [hqd]; exact hoh

theorem next_empty_bounds {s : MMU} (hI : Inv s) :
    0 ≤ s.page_table.next_empty ∧ s.page_table.next_empty < NUM_FRAMES := by
  have h0 := hI.nfu_lo
  have h1 := hI.nfu_hi
  by_cases hfull : s.ram.num_frames_used = NUM_FRAMES
  · rw [hI.full hfull]; exact ⟨hI.oldest_lo, hI.oldest_hi⟩
  · have hlt : s.ram.num_frames_used < NUM_FRAMES := lt_of_le_of_ne h1 hfull
    rw [(hI.filling hlt).2]; exact ⟨h0, hlt⟩

/-- C12: in every state reached from the initial one and for every input
address, `MMU_get_byte` returns (no array access of the call leaves its bounds):
the page index is in `[0, 256)`, the offset in `[0, 256)`, the frame used in
`[0, 128)`, `oldest` and `next_empty` in `[0, 128)`, `num_entries` in `[0, 16]`
and `front` in `[0, 16)`, the TLB scan ends; and when all frames are in use
`MMU_replace_page` reads a page whose page-table entry is mapped, so it never
returns `-1`. -/
theorem C12_in_bounds (g : MMU) (file : Int → Int) (pre : List Int) (a : Int) :
    ∃ s s1 r, MMU_run (MMU_init g file) pre = some s ∧ MMU_get_byte s a = some (s1, r) ∧
      (0 ≤ r.page ∧ r.page < PAGE_TABLE_ENTRIES) ∧ (0 ≤ r.offset ∧ r.offset < PAGE_SIZE) ∧
      (0 ≤ r.frame ∧ r.frame < NUM_FRAMES) ∧
      (0 ≤ s.page_table.oldest ∧ s.page_table.oldest < NUM_FRAMES) ∧
      (0 ≤ s.page_table.next_empty ∧ s.page_table.next_empty < NUM_FRAMES) ∧
      (0 ≤ s.tlb.num_entries ∧ s.tlb.num_entries ≤ TLB_ENTRIES) ∧
      (0 ≤ s.tlb.front ∧ s.tlb.front < TLB_ENTRIES) ∧
      (∃ f, TLB_lookup s.tlb (page_of a) = some f) ∧
      (∃ f, PageTable_lookup s.page_table (page_of a) = some f) ∧
      (s.ram.num_frames_used = NUM_FRAMES →
        ∃ s2 f, MMU_replace_page s = some (s2, f) ∧
          f = s.page_table.data (s.page_table.replace_queue s.page_table.oldest) ∧
          f ≠ -1 ∧ 0 ≤ f ∧ f < NUM_FRAMES) := by
  obtain ⟨s, hrun, hI, _⟩ := run_from_init g file pre
  obtain ⟨s1, r, heq, hc, _⟩ := step_cases s a hI
  obtain ⟨_, hpg, hoff, _, _, hf0, hf1, _, _⟩ := hc
  obtain ⟨f0, hl, _⟩ := TLB_lookup_spec s.tlb (page_of a) hI.tlb_n_lo hI.tlb_n_hi
  refine ⟨s, s1, r, hrun, heq, ?_, ?_, ⟨hf0, hf1⟩, ⟨hI.oldest_lo, hI.oldest_hi⟩,
    next_empty_bounds hI, ⟨hI.tlb_n_lo, hI.tlb_n_hi⟩, ⟨hI.tlb_front_lo, hI.tlb_front_hi⟩,
    ⟨f0, hl⟩, ⟨_, PageTable_lookup_page_of _ _⟩, replace_page_ok hI⟩
  · rw [hpg]; exact page_of_bounds a
  · rw [hoff]; exact offset_of_bounds a

/-! ## TLB hits -/

/-- C15: in every state, a call whose page is found by `TLB_lookup` (frame
`f != -1`) changes only `tlb.hits` (plus one) and `translation_count` (plus one)
and uses frame `f`; the TLB slots, `num_entries`, `front`, the page table, the
memory and `num_frames_used` are unchanged, and the next `TLB_insert` writes the
slot it would have written without the hit. The call returns whenever `f` is a
frame index. -/
theorem C15_no_mru_promotion (s : MMU) (a f : Int)
    (hl : TLB_lookup s.tlb (page_of a) = some f) (hf : f ≠ -1) :
    (∀ s1 r, MMU_get_byte s a = some (s1, r) →
      s1 = { s with tlb := { s.tlb with hits := s.tlb.hits + 1 },
                    translation_count := s.translation_count + 1 } ∧
      r.frame = f) ∧
    (0 ≤ f ∧ f < NUM_FRAMES → ∃ s1 r, MMU_get_byte s a = some (s1, r)) ∧
    (∀ p fr, TLB_insert { s.tlb with hits := s.tlb.hits + 1 } p fr =
      (TLB_insert s.tlb p fr).map (fun t => { t with hits := s.tlb.hits + 1 })) := by
  obtain ⟨ho0, ho1⟩ := offset_of_bounds a
  refine ⟨?_, ?_, ?_⟩
  · intro s1 r h
    simp only [MMU_get_byte, hl, Option.bind_eq_bind, Option.some_bind, hf, if_false] at h
    split at h
    · simp only [Option.some.injEq, Prod.mk.injEq] at h
      obtain ⟨h1, h2⟩ := h
      exact ⟨h1.symm, by rw [← h2]⟩
    · cases h
  · rintro ⟨hf0, hf1⟩
    simp only [NUM_FRAMES] at hf1
    refine ⟨{ s with tlb := { s.tlb with hits := s.tlb.hits + 1 },
                     translation_count := s.translation_count + 1 },
      Translation.mk a (page_of a) (offset_of a) f
        (Int.lor (f <<< (8 : Int)) (offset_of a)) (s.ram.memory f (offset_of a)), ?_⟩
    simp [MMU_get_byte, hl, hf, NUM_FRAMES, PAGE_SIZE, hf0, hf1, ho0, ho1]
  · intro p fr
    simp only [TLB_insert]
    split
    · split <;> rfl
    · split <;> rfl

/-- C15 at a concrete input: after address 1, address 2 (same page) is found in
the TLB and only the two counters change. -/
theorem C15_no_mru_promotion_witness :
    ∃ s s1 r, MMU_run (MMU_init sample_mmu sample_file) [1] = some s ∧
      MMU_get_byte s 2 = some (s1, r) ∧ r.frame = 0 ∧
      s1 = { s with tlb := { s.tlb with hits := s.tlb.hits + 1 },
                    translation_count := s.translation_count + 1 } := by
  obtain ⟨s, hrun, hI, _⟩ := run_from_init sample_mmu sample_file [1]
  have hs : s = (MMU_run (MMU_init sample_mmu sample_file) [1]).getD sample_mmu := by
    rw [hrun]; rfl
  have hl : TLB_lookup s.tlb (page_of 2) = some 0 := by rw [hs]; decide
  obtain ⟨h1, h2, _⟩ := C15_no_mru_promotion s 2 0 hl (by decide)
  obtain ⟨s1, r, heq⟩ := h2 (by decide)
  obtain ⟨e1, e2⟩ := h1 s1 r heq
  exact ⟨s, s1, r, hrun, heq, e2, e1⟩

/-! ## TLB insertions and frame allocation -/

/-- A property kept by every call from states satisfying the invariant holds
after every run. -/
theorem run_invariant (P : MMU → Prop)
    (hstep : ∀ s a s1 r, Inv s → P s → MMU_get_byte s a = some (s1, r) → P s1)
    {s : MMU} (hI : Inv s) (hP : P s) (l : List Int) :
    ∃ s1, MMU_run s l = some s1 ∧ Inv s1 ∧ P s1 := by
  induction l generalizing s with
  | nil => exact ⟨s, rfl, hI, hP⟩
  | cons a rest ih =>
    obtain ⟨s1, r, heq, hI1⟩ := step_total a hI
    obtain ⟨s2, h2, hI2, hP2⟩ := ih hI1 (hstep s a s1 r hI hP heq)
    exact ⟨s2, by simp [MMU_run, heq, h2], hI2, hP2⟩

/-- On a TLB miss the call inserts the page with the frame it used, and the page
table gives that frame to the page when the insertion is made. -/
theorem insert_on_miss {s s1 : MMU} {a : Int} {r : Translation} (hI : Inv s)
    (h : MMU_get_byte s a = some (s1, r)) (hm : is_tlb_hit s a = false) :
    TLB_lookup s.tlb (page_of a) = some (-1) ∧
    TLB_insert s.tlb (page_of a) r.frame = some s1.tlb ∧
    s1.page_table.data (page_of a) = r.frame := by
  obtain ⟨s2, r2, heq, hc, hcase⟩ := step_cases s a hI
  rw [h] at heq
  cases heq
  have hv := (step_value hI h (Or.inl hm)).1
  rcases hcase with h1 | h2 | h3 | h4
  · rw [(class_of_tlb_hit h1).1] at hm; cases hm
  · exact ⟨h2.1, h2.2.2.2.2.2, hv⟩
  · exact ⟨h3.1, h3.2.2.2.2.2.2, hv⟩
  · exact ⟨h4.1, h4.2.2.2.2.2.2, hv⟩

/-- On a TLB hit the TLB keeps its slots, `num_entries` and `front`. -/
theorem tlb_on_hit {s s1 : MMU} {a : Int} {r : Translation} (hI : Inv s)
    (h : MMU_get_byte s a = some (s1, r)) (hm : is_tlb_hit s a = true) :
    s1.tlb.data = s.tlb.data ∧ s1.tlb.num_entries = s.tlb.num_entries ∧
    s1.tlb.front = s.tlb.front := by
  obtain ⟨s2, r2, heq, hc, hcase⟩ := step_cases s a hI
  rw [h] at heq
  cases heq
  rcases hcase with h1 | h2 | h3 | h4
  · rw [h1.2.2.2.2]; exact ⟨rfl, rfl, rfl⟩
  · rw [(class_of_page_table_hit h2).1] at hm; cases hm
  · rw [(class_of_fault_fill h3).1] at hm; cases hm
  · rw [(class_of_fault_evict h4).1] at hm; cases hm

/-- C16 (invariant 4): in every state reached from the initial one the TLB holds
at most `TLB_ENTRIES = 16` entries (`0 <= num_entries <= 16`, `0 <= front < 16`);
a call inserts into the TLB exactly when it misses the TLB, the insertion is
`TLB_insert(p, f)` with `p` the page of the call and `f` the frame it uses, and
the page table maps `p` to `f` when the insertion is made; every live TLB entry
names the frame the page table gives to its page, unless the page has been
unmapped since. -/
theorem C16_tlb_invariant (g : MMU) (file : Int → Int) (pre : List Int) (a : Int) :
    ∃ s s1 r, MMU_run (MMU_init g file) pre = some s ∧ MMU_get_byte s a = some (s1, r) ∧
      (0 ≤ s.tlb.num_entries ∧ s.tlb.num_entries ≤ TLB_ENTRIES) ∧
      (0 ≤ s.tlb.front ∧ s.tlb.front < TLB_ENTRIES) ∧ TLB_ENTRIES = 16 ∧
      (is_tlb_hit s a = true →
        s1.tlb.data = s.tlb.data ∧ s1.tlb.num_entries = s.tlb.num_entries ∧
        s1.tlb.front = s.tlb.front) ∧
      (is_tlb_hit s a = false →
        TLB_insert s.tlb (page_of a) r.frame = some s1.tlb ∧
        s1.page_table.data (page_of a) = r.frame) ∧
      (∀ i, 0 ≤ i → i < s.tlb.num_entries →
        s.page_table.data (s.tlb.data i).page = (s.tlb.data i).frame ∨
        s.page_table.data (s.tlb.data i).page = -1) := by
  obtain ⟨s, hrun, hI, _⟩ := run_from_init g file pre
  obtain ⟨s1, r, heq, _⟩ := step_total a hI
  refine ⟨s, s1, r, hrun, heq, ⟨hI.tlb_n_lo, hI.tlb_n_hi⟩, ⟨hI.tlb_front_lo, hI.tlb_front_hi⟩,
    rfl, tlb_on_hit hI heq, ?_, ?_⟩
  · intro hm
    exact (insert_on_miss hI heq hm).2
  · intro i h0 h1
    exact (hI.tlb_ok i h0 h1).2.2.2.2

/-- While a frame is free every page fault so far took a new frame. -/
theorem faults_while_filling (g : MMU) (file : Int → Int) (l : List Int) :
    ∃ s, MMU_run (MMU_init g file) l = some s ∧ Inv s ∧
      ((s.ram.num_frames_used < NUM_FRAMES → s.page_table.faults = s.ram.num_frames_used) ∧
       (s.ram.num_frames_used = NUM_FRAMES → NUM_FRAMES ≤ s.page_table.faults)) := by
  refine run_invariant
    (fun s => (s.ram.num_frames_used < NUM_FRAMES →
        s.page_table.faults = s.ram.num_frames_used) ∧
      (s.ram.num_frames_used = NUM_FRAMES → NUM_FRAMES ≤ s.page_table.faults))
    ?_ (Inv_init g file) ⟨fun _ => rfl, fun h => ?_⟩ l
  · intro s a s1 r hI hP heq
    obtain ⟨_, _, d3, d4, _⟩ := step_counters hI heq
    obtain ⟨p1, p2⟩ := hP
    have hn := hI.nfu_hi
    simp only [is_eviction] at d4
    simp only [NUM_FRAMES] at *
    cases hpf : is_page_fault s a <;>
      by_cases hfull : s.ram.num_frames_used = 128 <;>
      simp [hpf, hfull] at d3 d4 <;>
      constructor <;> intro hh <;> omega
  · have h : (0 : Int) = NUM_FRAMES := h
    simp [NUM_FRAMES] at h

/-- C18: `num_frames_used` starts at 0; a call changes it exactly when the call
is a page fault taken with `num_frames_used < NUM_FRAMES`, and then the faulting
page receives the frame index equal to the old `num_frames_used`, the count
grows by exactly one and no page-table entry is unmapped; so `num_frames_used`
never decreases and never exceeds `NUM_FRAMES`, and a page fault taken when
fewer than `NUM_FRAMES` faults have occurred (the k-th fault, k at most 128)
uses the frame whose index is the number of earlier faults (k - 1). Scenario
A: the input `[1]` gives page 0, offset 1, frame 0, one fault, no TLB hit, one
translation. -/
theorem C18_frame_allocation (g : MMU) (file : Int → Int) (pre : List Int) (a : Int) :
    (MMU_init g file).ram.num_frames_used = 0 ∧
    (∃ s s1 r, MMU_run (MMU_init g file) pre = some s ∧ MMU_get_byte s a = some (s1, r) ∧
      s.ram.num_frames_used ≤ s1.ram.num_frames_used ∧
      s1.ram.num_frames_used ≤ NUM_FRAMES ∧
      (s1.ram.num_frames_used ≠ s.ram.num_frames_used ↔
        (is_page_fault s a = true ∧ s.ram.num_frames_used < NUM_FRAMES)) ∧
      (is_page_fault s a = true → s.ram.num_frames_used < NUM_FRAMES →
        s1.ram.num_frames_used = s.ram.num_frames_used + 1 ∧
        r.frame = s.ram.num_frames_used ∧
        s1.page_table.data (page_of a) = s.ram.num_frames_used ∧
        ∀ p, p ≠ page_of a → s1.page_table.data p = s.page_table.data p) ∧
      (is_page_fault s a = true → s.page_table.faults < NUM_FRAMES →
        r.frame = s.page_table.faults)) ∧
    (∃ s1 r, MMU_get_byte (MMU_init g file) 1 = some (s1, r) ∧
      r.page = 0 ∧ r.offset = 1 ∧ r.frame = 0 ∧ s1.page_table.faults = 1 ∧
      s1.tlb.hits = 0 ∧ s1.translation_count = 1) := by
  refine ⟨rfl, ?_, ⟨_, _, rfl, rfl, rfl, rfl, rfl, rfl, rfl⟩⟩
  obtain ⟨s, hrun, hI, hP1, hP2⟩ := faults_while_filling g file pre
  obtain ⟨s1, r, heq, hc, hcase⟩ := step_cases s a hI
  have hI1 := Inv_step hI heq
  have hn := hI.nfu_hi
  have hfill : is_page_fault s a = true → s.ram.num_frames_used < NUM_FRAMES →
      StepFaultFill s a s1 r := by
    intro hpf hlt
    rcases hcase with h1 | h2 | h3 | h4
    · rw [(class_of_tlb_hit h1).2.2.1] at hpf; cases hpf
    · rw [(class_of_page_table_hit h2).2.2.1] at hpf; cases hpf
    · exact h3
    · have := h4.2.2.1; omega
  refine ⟨s, s1, r, hrun, heq, nfu_mono hI heq, hI1.nfu_hi, ?_, ?_, ?_⟩
  · rcases hcase with h1 | h2 | h3 | h4
    · rw [h1.2.2.2.1, (class_of_tlb_hit h1).2.2.1]; simp
    · rw [h2.2.2.2.2.1, (class_of_page_table_hit h2).2.2.1]; simp
    · rw [h3.2.2.2.2.2.1, (class_of_fault_fill h3).2.2.1]
      have := h3.2.2.1
      simp only [ne_eq, true_and]
      constructor
      · intro _; omega
      · intro _; show ¬ s.ram.num_frames_used + 1 = s.ram.num_frames_used; omega
    · rw [h4.2.2.2.2.2.1, (class_of_fault_evict h4).2.2.1]
      have := h4.2.2.1
      simp only [ne_eq, not_true_eq_false, true_and, false_iff, not_lt]
      omega
  · intro hpf hlt
    obtain ⟨_, _, _, hfr, hpt, hram, _⟩ := hfill hpf hlt
    refine ⟨by rw [hram], hfr, by rw [hpt, hfr]; simp [array_set], ?_⟩
    intro p hp
    rw [hpt]
    simp [array_set, hp]
  · intro hpf hlt
    have hlt2 : s.ram.num_frames_used < NUM_FRAMES := by
      by_contra hc2
      have hfull : s.ram.num_frames_used = NUM_FRAMES := by omega
      have := hP2 hfull
      omega
    rw [(hfill hpf hlt2).2.2.2.1, hP1 hlt2]

/-! ## The TLB as a FIFO -/

theorem TLB_has_page_false {t : TLB} {p : Int} (h : TLB_has_page t p = false) :
    ∀ i, 0 ≤ i → i < t.num_entries → (t.data i).page ≠ p := by
  intro i hi0 hi1 hp
  have hmem : i.toNat ∈ List.range t.num_entries.toNat := List.mem_range.mpr (by omega)
  have hany : TLB_has_page t p = true := by
    simp only [TLB_has_page, List.any_eq_true, decide_eq_true_eq]
    exact ⟨i.toNat, hmem, by rw [Int.toNat_of_nonneg hi0]; exact hp⟩
  rw [h] at hany
  cases hany

theorem getElem?_snoc_pair {l : List (Int × Int)} {a : Int × Int} {j : Nat} {x : Int × Int}
    (h : (l ++ [a])[j]? = some x) :
    (j < l.length ∧ l[j]? = some x) ∨ (j = l.length ∧ x = a) := by
  by_cases hj : j < l.length
  · left
    rw [List.getElem?_append_left hj] at h
    exact ⟨hj, h⟩
  · right
    have hj : l.length ≤ j := Nat.le_of_not_lt hj
    rw [List.getElem?_append_right hj] at h
    by_cases hz : j - l.length = 0
    · rw [hz] at h
      simp at h
      exact ⟨by omega, h.symm⟩
    · obtain ⟨m, hm⟩ := Nat.exists_eq_succ_of_ne_zero hz
      rw [hm] at h
      simp at h

/-- Every live slot of a FIFO TLB holds one of the last 16 pairs. -/
theorem fifo_live_slot {t : TLB} {l : List (Int × Int)} (hF : FifoTLB t l) {k : Int}
    (hk0 : 0 ≤ k) (hk1 : k < t.num_entries) :
    ∃ (j : Nat) (x : Int × Int), l[j]? = some x ∧ l.length ≤ j + 16 ∧
      t.data k = { page := x.1, frame := x.2 } := by
  rw [hF.n] at hk1
  obtain ⟨j, hj1, hj2, hj3⟩ := window_slot l.length k hk0 hk1
  have hx : l[j]? = some l[j] := List.getElem?_eq_getElem hj1
  refine ⟨j, l[j], hx, hj2, ?_⟩
  rw [← hj3]
  exact hF.slot j _ hx hj2

/-- Each of the last 16 pairs sits in a live slot. -/
theorem fifo_window_live {t : TLB} {l : List (Int × Int)} (hF : FifoTLB t l) {j : Nat}
    {x : Int × Int} (hx : l[j]? = some x) (hw : l.length ≤ j + 16) :
    0 ≤ (j : Int) % 16 ∧ (j : Int) % 16 < t.num_entries ∧
      t.data ((j : Int) % 16) = { page := x.1, frame := x.2 } := by
  have hj : j < l.length := by
    obtain ⟨h, _⟩ := List.getElem?_eq_some.mp hx
    exact h
  refine ⟨by omega, ?_, hF.slot j x hx hw⟩
  rw [hF.n]
  omega

theorem fifo_step {t : TLB} {l : List (Int × Int)} (hF : FifoTLB t l) (p f : Int)
    (habs : TLB_has_page t p = false) :
    ∃ t1, TLB_insert t p f = some t1 ∧ FifoTLB t1 (l ++ [(p, f)]) := by
  have hmiss := TLB_has_page_false habs
  have hlen : (l ++ [(p, f)]).length = l.length + 1 := by simp
  have hn := hF.n
  have hfront := hF.front
  have key : ∃ t1, TLB_insert t p f = some t1 ∧
      t1.num_entries = min (((l ++ [(p, f)]).length : Nat) : Int) 16 ∧
      t1.front = (if (((l ++ [(p, f)]).length : Nat) : Int) < 16 then 0
        else (((l ++ [(p, f)]).length : Nat) : Int) % 16) ∧
      t1.data = array_set t.data ((l.length : Int) % 16) { page := p, frame := f } := by
    rw [hlen]
    by_cases h16 : (l.length : Int) < 16
    · have hne : t.num_entries = l.length := by rw [hn]; omega
      have hlt : t.num_entries < 16 := by omega
      have hge : 0 ≤ t.num_entries := by omega
      refine ⟨{ t with
          data := array_set t.data t.num_entries { page := p, frame := f }
          num_entries := t.num_entries + 1 },
        by simp [TLB_insert, TLB_ENTRIES, hlt, hge], ?_, ?_, ?_⟩
      · show t.num_entries + 1 = _
        push_cast; omega
      · show t.front = _
        rw [hfront]; push_cast
        split <;> split <;> omega
      · show array_set t.data t.num_entries _ = _
        have e : (l.length : Int) % 16 = l.length := by omega
        rw [hne, e]
    · have hne : t.num_entries = 16 := by rw [hn]; omega
      have hfr16 : t.front = (l.length : Int) % 16 := by rw [hfront]; simp [h16]
      have hlt : ¬ t.num_entries < 16 := by omega
      have hf0 : 0 ≤ t.front := by omega
      have hf1 : t.front < 16 := by omega
      refine ⟨{ t with
          data := array_set t.data t.front { page := p, frame := f }
          front := Int.tmod (t.front + 1) TLB_ENTRIES },
        by simp [TLB_insert, TLB_ENTRIES, hlt, hf0, hf1], ?_, ?_, ?_⟩
      · show t.num_entries = _
        push_cast; omega
      · show Int.tmod (t.front + 1) 16 = _
        rw [tmod_succ_eq _ _ hf0 (by decide), hfr16]; push_cast
        split <;> omega
      · show array_set t.data t.front _ = _
        rw [hfr16]
  obtain ⟨t1, hins, ht1, ht2, ht3⟩ := key
  refine ⟨t1, hins, { n := ht1, front := ht2, slot := ?_, distinct := ?_ }⟩
  · intro j x hx hwin
    rw [ht3]
    rcases getElem?_snoc_pair hx with ⟨hjl, hj⟩ | ⟨hj, hxa⟩
    · have hne : (j : Int) % 16 ≠ (l.length : Int) % 16 := by
        rw [hlen] at hwin; omega
      simp only [array_set, hne, if_false]
      exact hF.slot j x hj (by rw [hlen] at hwin; omega)
    · simp [array_set, hxa, hj]
  · intro i j x y hx hy hwi hwj hxy
    rw [hlen] at hwi hwj
    rcases getElem?_snoc_pair hx with ⟨hil, hi⟩ | ⟨hi, hxa⟩
    · rcases getElem?_snoc_pair hy with ⟨hjl, hj⟩ | ⟨hj, hya⟩
      · exact hF.distinct i j x y hi hj (by omega) (by omega) hxy
      · exfalso
        obtain ⟨k0, k1, k2⟩ := fifo_window_live hF hi (by omega)
        have := hmiss _ k0 k1
        rw [k2, hxy, hya] at this
        exact this rfl
    · rcases getElem?_snoc_pair hy with ⟨hjl, hj⟩ | ⟨hj, hya⟩
      · exfalso
        obtain ⟨k0, k1, k2⟩ := fifo_window_live hF hj (by omega)
        have := hmiss _ k0 k1
        rw [k2, ← hxy, hxa] at this
        exact this rfl
      · omega

theorem fifo_run {t : TLB} {l : List (Int × Int)} (hF : FifoTLB t l) (m : List (Int × Int))
    (ha : absent_on_insert t m = true) :
    ∃ t1, TLB_insert_all t m = some t1 ∧ FifoTLB t1 (l ++ m) := by
  induction m generalizing t l with
  | nil => exact ⟨t, rfl, by simpa using hF⟩
  | cons x rest ih =>
    simp only [absent_on_insert, Bool.and_eq_true, Bool.not_eq_true'] at ha
    obtain ⟨ha1, ha2⟩ := ha
    obtain ⟨t1, hins, hF1⟩ := fifo_step hF x.1 x.2 ha1
    rw [hins] at ha2
    obtain ⟨t2, h2, hF2⟩ := ih hF1 ha2
    refine ⟨t2, by simp [TLB_insert_all, hins, h2], ?_⟩
    have hsplit : l ++ x :: rest = (l ++ [(x.1, x.2)]) ++ rest := by simp
    rw [hsplit]
    exact hF2

theorem fifo_empty {t : TLB} (h0 : t.num_entries = 0) (hf : t.front = 0) : FifoTLB t [] := by
  refine { n := by simp [h0], front := by simp [hf], slot := ?_, distinct := ?_ }
  · intro j x h; simp at h
  · intro i j x y h; simp at h

theorem fifo_lookup_found {t : TLB} {l : List (Int × Int)} (hF : FifoTLB t l) {j : Nat}
    {x : Int × Int} (hx : l[j]? = some x) (hw : l.length ≤ j + 16) :
    TLB_lookup t x.1 = some x.2 := by
  have hn0 : 0 ≤ t.num_entries := by rw [hF.n]; omega
  have hn1 : t.num_entries ≤ TLB_ENTRIES := by rw [hF.n]; simp only [TLB_ENTRIES]; omega
  obtain ⟨k0, k1, k2⟩ := fifo_window_live hF hx hw
  obtain ⟨r, hr, hcs⟩ := TLB_lookup_spec t x.1 hn0 hn1
  rcases hcs with ⟨_, hmiss⟩ | ⟨k, hk0, hk1, hkp, hkf, _⟩
  · exfalso
    have := hmiss _ k0 k1
    rw [k2] at this
    exact this rfl
  · obtain ⟨j2, y, hy, hw2, hd⟩ := fifo_live_slot hF hk0 hk1
    rw [hd] at hkp hkf
    have hjj := hF.distinct j2 j y x hy hx hw2 hw hkp
    subst hjj
    rw [hx] at hy
    cases hy
    rw [hr, ← hkf]

theorem fifo_lookup_absent {t : TLB} {l : List (Int × Int)} (hF : FifoTLB t l) {p : Int}
    (hp : ∀ (j : Nat) (x : Int × Int), l[j]? = some x → l.length ≤ j + 16 → x.1 ≠ p) :
    TLB_lookup t p = some (-1) := by
  have hn0 : 0 ≤ t.num_entries := by rw [hF.n]; omega
  have hn1 : t.num_entries ≤ TLB_ENTRIES := by rw [hF.n]; simp only [TLB_ENTRIES]; omega
  obtain ⟨r, hr, hcs⟩ := TLB_lookup_spec t p hn0 hn1
  rcases hcs with ⟨hm, _⟩ | ⟨k, hk0, hk1, hkp, _, _⟩
  · rw [hr, hm]
  · exfalso
    obtain ⟨j2, y, hy, hw2, hd⟩ := fifo_live_slot hF hk0 hk1
    rw [hd] at hkp
    exact hp j2 y hy hw2 hkp

/-- C14: `k` calls of `TLB_insert` on an empty TLB (`num_entries = 0`,
`front = 0`), each for a page absent from the TLB at that time, all succeed. The
`j`-th pair (counted from 0) is then in slot `j % 16` as long as it is among the
last `min(k, 16)` pairs: insertions append while the TLB fills and overwrite
the oldest-inserted entry once it is full. The pages of the last `min(k, 16)`
pairs are pairwise distinct, `TLB_lookup` returns for each of them the frame
inserted with it, and returns `-1` for every other page. -/
theorem C14_tlb_fifo (t0 : TLB) (l : List (Int × Int)) (h0 : t0.num_entries = 0)
    (hf : t0.front = 0) (ha : absent_on_insert t0 l = true) :
    ∃ t, TLB_insert_all t0 l = some t ∧
      t.num_entries = min (l.length : Int) TLB_ENTRIES ∧
      (∀ (j : Nat) (x : Int × Int), l[j]? = some x → l.length ≤ j + 16 →
        t.data ((j : Int) % TLB_ENTRIES) = { page := x.1, frame := x.2 } ∧
        TLB_lookup t x.1 = some x.2) ∧
      (∀ (i j : Nat) (x y : Int × Int), l[i]? = some x → l[j]? = some y →
        l.length ≤ i + 16 → l.length ≤ j + 16 → x.1 = y.1 → i = j) ∧
      (∀ p, (∀ (j : Nat) (x : Int × Int), l[j]? = some x → l.length ≤ j + 16 → x.1 ≠ p) →
        TLB_lookup t p = some (-1)) := by
  obtain ⟨t, hrun, hF⟩ := fifo_run (fifo_empty h0 hf) l ha
  simp only [List.nil_append] at hF
  refine ⟨t, hrun, hF.n, ?_, hF.distinct, fun p hp => fifo_lookup_absent hF hp⟩
  intro j x hx hw
  exact ⟨hF.slot j x hx hw, fifo_lookup_found hF hx hw⟩

/-- C14 at a concrete input: after inserting pages 0..16 into the empty TLB,
page 0 is no longer found and pages 1..16 are. -/
theorem C14_tlb_fifo_witness :
    ∃ t, TLB_insert_all (MMU_init sample_mmu sample_file).tlb (pairs_upto 17) = some t ∧
      t.num_entries = 16 ∧ TLB_lookup t 0 = some (-1) ∧
      ∀ (j : Nat) (x : Int × Int), (pairs_upto 17)[j]? = some x → 1 ≤ j →
        TLB_lookup t x.1 = some x.2 := by
  obtain ⟨t, h1, h2, h3, _, _⟩ := C14_tlb_fifo (MMU_init sample_mmu sample_file).tlb
    (pairs_upto 17) rfl rfl (by decide)
  have ht : t = (TLB_insert_all (MMU_init sample_mmu sample_file).tlb (pairs_upto 17)).getD
      sample_mmu.tlb := by rw [h1]; rfl
  refine ⟨t, h1, ?_, ?_, ?_⟩
  · rw [h2]; decide
  · rw [ht]; decide
  · intro j x hx hj
    exact (h3 j x hx (by
      have : (pairs_upto 17).length = 17 := by decide
      omega)).2

/-! ## Eviction order -/

theorem install_order_step {s s1 : MMU} {a : Int} {r : Translation} {h : List Int}
    {T : Int → Nat} (hI : Inv s) (hO : InstallOrder s h T)
    (heq : MMU_get_byte s a = some (s1, r)) :
    InstallOrder s1 (h ++ [a])
      (if is_page_fault s a then array_set T (page_of a) h.length else T) := by
  obtain ⟨s2, r2, heq2, hc, hcase⟩ := step_cases s a hI
  rw [heq] at heq2
  cases heq2
  have hlen : (h ++ [a]).length = h.length + 1 := by simp
  have hold : ∀ i, 0 ≤ i → i < s.ram.num_frames_used →
      T (s.page_table.replace_queue i) < (h ++ [a]).length ∧
      ∃ x, (h ++ [a])[T (s.page_table.replace_queue i)]? = some x ∧
        page_of x = s.page_table.replace_queue i := by
    intro i hi0 hi1
    obtain ⟨k1, x, k2, k3⟩ := hO.recent i hi0 hi1
    refine ⟨by rw [hlen]; omega, x, ?_, k3⟩
    rw [List.getElem?_append_left k1]
    exact k2
  have hnew : (h ++ [a])[h.length]? = some a := by
    rw [List.getElem?_append_right (le_refl _)]
    simp
  have hn1 := hI.nfu_hi
  have hol := hI.oldest_lo
  have hoh := hI.oldest_hi
  simp only [NUM_FRAMES] at hn1 hoh
  rcases hcase with h1 | h2 | h3 | h4
  · obtain ⟨_, _, c3, _⟩ := class_of_tlb_hit h1
    obtain ⟨_, _, hpt, hram, _⟩ := h1
    rw [c3]
    simp only [Bool.false_eq_true, if_false]
    exact { recent := by rw [hpt, hram]; exact hold,
            ordered := by rw [hpt, hram]; exact hO.ordered }
  · obtain ⟨_, _, c3, _⟩ := class_of_page_table_hit h2
    obtain ⟨_, _, _, hpt, hram, _⟩ := h2
    rw [c3]
    simp only [Bool.false_eq_true, if_false]
    exact { recent := by rw [hpt, hram]; exact hold,
            ordered := by rw [hpt, hram]; exact hO.ordered }
  · obtain ⟨_, _, c3, _⟩ := class_of_fault_fill h3
    obtain ⟨_, hdp, hnf, hfr, hpt, hram, _⟩ := h3
    simp only [NUM_FRAMES] at hnf
    have hlt : s.ram.num_frames_used < NUM_FRAMES := by simp only [NUM_FRAMES]; omega
    obtain ⟨ho0, hne⟩ := hI.filling hlt
    rw [c3]
    simp only [if_true]
    have hq : ∀ i, 0 ≤ i → i < s.ram.num_frames_used →
        s.page_table.replace_queue i ≠ page_of a := by
      intro i hi0 hi1 he
      have := (hI.queue_ok i hi0 hi1).2.2
      rw [he, hdp] at this
      omega
    refine { recent := ?_, ordered := ?_ }
    · rw [hpt, hram, hne]
      intro i hi0 hi1
      have hi1 : i < s.ram.num_frames_used + 1 := hi1
      show array_set T (page_of a) h.length
            (array_set s.page_table.replace_queue s.ram.num_frames_used (page_of a) i) <
            (h ++ [a]).length ∧
          ∃ x, (h ++ [a])[array_set T (page_of a) h.length
            (array_set s.page_table.replace_queue s.ram.num_frames_used (page_of a) i)]? =
              some x ∧
            page_of x =
              array_set s.page_table.replace_queue s.ram.num_frames_used (page_of a) i
      by_cases hi : i = s.ram.num_frames_used
      · simp only [array_set, hi, if_true]
        exact ⟨by rw [hlen]; omega, a, hnew, rfl⟩
      · simp only [array_set, hi, if_false, hq i hi0 (by omega)]
        exact hold i hi0 (by omega)
    · rw [hpt, hram, hne]
      intro i j hi0 hi1 hj0 hj1 hr
      have hi1 : i < s.ram.num_frames_used + 1 := hi1
      have hj1 : j < s.ram.num_frames_used + 1 := hj1
      have hr : (i - s.page_table.oldest) % 128 < (j - s.page_table.oldest) % 128 := hr
      rw [ho0] at hr
      show array_set T (page_of a) h.length
            (array_set s.page_table.replace_queue s.ram.num_frames_used (page_of a) i) <
          array_set T (page_of a) h.length
            (array_set s.page_table.replace_queue s.ram.num_frames_used (page_of a) j)
      have hi : i ≠ s.ram.num_frames_used := by omega
      simp only [array_set, hi, if_false, hq i hi0 (by omega)]
      by_cases hj : j = s.ram.num_frames_used
      · simp only [hj, if_true]
        exact (hO.recent i hi0 (by omega)).1
      · simp only [hj, if_false, hq j hj0 (by omega)]
        exact hO.ordered i j hi0 (by omega) hj0 (by omega) (by rw [ho0]; exact hr)
  · obtain ⟨_, _, c3, _⟩ := class_of_fault_evict h4
    obtain ⟨_, hdp, hnf, hfr, hpt, hram, _⟩ := h4
    have hne := hI.full hnf
    have htm := tmod_succ_eq s.page_table.oldest NUM_FRAMES hol (by decide)
    simp only [NUM_FRAMES] at hnf htm
    rw [c3]
    simp only [if_true]
    have hq : ∀ i, 0 ≤ i → i < s.ram.num_frames_used →
        s.page_table.replace_queue i ≠ page_of a := by
      intro i hi0 hi1 he
      have := (hI.queue_ok i hi0 hi1).2.2
      rw [he, hdp] at this
      omega
    refine { recent := ?_, ordered := ?_ }
    · rw [hpt, hram, hne]
      intro i hi0 hi1
      have hi1 : i < s.ram.num_frames_used := hi1
      show array_set T (page_of a) h.length
            (array_set s.page_table.replace_queue s.page_table.oldest (page_of a) i) <
            (h ++ [a]).length ∧
          ∃ x, (h ++ [a])[array_set T (page_of a) h.length
            (array_set s.page_table.replace_queue s.page_table.oldest (page_of a) i)]? =
              some x ∧
            page_of x =
              array_set s.page_table.replace_queue s.page_table.oldest (page_of a) i
      by_cases hi : i = s.page_table.oldest
      · simp only [array_set, hi, if_true]
        exact ⟨by rw [hlen]; omega, a, hnew, rfl⟩
      · simp only [array_set, hi, if_false, hq i hi0 hi1]
        exact hold i hi0 hi1
    · rw [hpt, hram, hne]
      intro i j hi0 hi1 hj0 hj1 hr
      have hi1 : i < s.ram.num_frames_used := hi1
      have hj1 : j < s.ram.num_frames_used := hj1
      have hr : (i - Int.tmod (s.page_table.oldest + 1) NUM_FRAMES) % 128 <
          (j - Int.tmod (s.page_table.oldest + 1) NUM_FRAMES) % 128 := hr
      simp only [NUM_FRAMES] at hr
      rw [htm] at hr
      show array_set T (page_of a) h.length
            (array_set s.page_table.replace_queue s.page_table.oldest (page_of a) i) <
          array_set T (page_of a) h.length
            (array_set s.page_table.replace_queue s.page_table.oldest (page_of a) j)
      have hi : i ≠ s.page_table.oldest := by omega
      simp only [array_set, hi, if_false, hq i hi0 hi1]
      by_cases hj : j = s.page_table.oldest
      · simp only [hj, if_true]
        exact (hO.recent i hi0 hi1).1
      · simp only [hj, if_false, hq j hj0 hj1]
        exact hO.ordered i j hi0 hi1 hj0 hj1 (by omega)

theorem install_order_run {s : MMU} {h : List Int} {T : Int → Nat} (hI : Inv s)
    (hO : InstallOrder s h T) (l : List Int) :
    ∃ s1, MMU_run s l = some s1 ∧ Inv s1 ∧
      InstallOrder s1 (h ++ l) (last_install s l h.length T) := by
  induction l generalizing s h T with
  | nil => exact ⟨s, rfl, hI, by simpa [last_install] using hO⟩
  | cons a rest ih =>
    obtain ⟨s1, r, heq, hI1⟩ := step_total a hI
    have hO1 := install_order_step hI hO heq
    obtain ⟨s2, h2, hI2, hO2⟩ := ih hI1 hO1
    refine ⟨s2, by simp [MMU_run, heq, h2], hI2, ?_⟩
    have hsplit : h ++ a :: rest = (h ++ [a]) ++ rest := by simp
    have hlen : (h ++ [a]).length = h.length + 1 := by simp
    rw [hsplit]
    simp only [last_install, heq]
    rw [hlen] at hO2
    exact hO2

theorem install_order_init (g : MMU) (file : Int → Int) (T : Int → Nat) :
    InstallOrder (MMU_init g file) [] T := by
  refine { recent := ?_, ordered := ?_ }
  · intro i h0 h1
    have h1 : i < 0 := h1
    omega
  · intro i j h0 h1
    have h1 : i < 0 := h1
    omega

/-- C13: in every state reached from the initial one with
`num_frames_used = NUM_FRAMES`, a page fault for page `q` hands to
`MMU_replace_page` the page `v = replace_queue[oldest]`; `v` is resident, it was
installed by the input at the recorded position, and its most recent
installation is earlier than the most recent installation of every other
resident page. The call sets `PageTable[v]` to `-1`, maps `q` to the frame `v`
held, advances `oldest` by one modulo `NUM_FRAMES` and leaves every other
page-table entry unchanged. -/
theorem C13_eviction_order (g : MMU) (file : Int → Int) (pre : List Int) (a : Int) :
    ∃ s s1 r, MMU_run (MMU_init g file) pre = some s ∧ MMU_get_byte s a = some (s1, r) ∧
      (s.ram.num_frames_used = NUM_FRAMES → is_page_fault s a = true →
        ∃ v, v = s.page_table.replace_queue s.page_table.oldest ∧
          evicted_page s a = some v ∧
          (0 ≤ v ∧ v < PAGE_TABLE_ENTRIES) ∧ s.page_table.data v ≠ -1 ∧
          (∃ x, pre[last_install (MMU_init g file) pre 0 (fun _ => 0) v]? = some x ∧
            page_of x = v) ∧
          (∀ p, 0 ≤ p → p < PAGE_TABLE_ENTRIES → s.page_table.data p ≠ -1 → p ≠ v →
            last_install (MMU_init g file) pre 0 (fun _ => 0) v <
              last_install (MMU_init g file) pre 0 (fun _ => 0) p) ∧
          s1.page_table.data v = -1 ∧
          s1.page_table.data (page_of a) = s.page_table.data v ∧
          r.frame = s.page_table.data v ∧
          s1.page_table.oldest = (s.page_table.oldest + 1) % NUM_FRAMES ∧
          ∀ p, p ≠ v → p ≠ page_of a → s1.page_table.data p = s.page_table.data p) := by
  obtain ⟨s, hrun, hI, hO⟩ := install_order_run (Inv_init g file)
    (install_order_init g file (fun _ => 0)) pre
  simp only [List.nil_append, List.length_nil] at hO
  obtain ⟨s1, r, heq, hc, hcase⟩ := step_cases s a hI
  refine ⟨s, s1, r, hrun, heq, ?_⟩
  intro hfull hpf
  have h4 : StepFaultEvict s a s1 r := by
    rcases hcase with h1 | h2 | h3 | h4
    · rw [(class_of_tlb_hit h1).2.2.1] at hpf; cases hpf
    · rw [(class_of_page_table_hit h2).2.2.1] at hpf; cases hpf
    · exact absurd hfull h3.2.2.1
    · exact h4
  obtain ⟨_, _, _, c4⟩ := class_of_fault_evict h4
  obtain ⟨_, hdp, _, hfr, hpt, _, _⟩ := h4
  have hol := hI.oldest_lo
  have hoh := hI.oldest_hi
  obtain ⟨hq0, hq1, hqd⟩ := hI.queue_ok s.page_table.oldest hol (by rw [hfull]; exact hoh)
  have hvp : s.page_table.replace_queue s.page_table.oldest ≠ page_of a := by
    intro he; rw [he, hdp] at hqd; omega
  obtain ⟨_, x, hx1, hx2⟩ := hO.recent s.page_table.oldest hol (by rw [hfull]; exact hoh)
  refine ⟨_, rfl, by simp [evicted_page, c4], ⟨hq0, hq1⟩, by rw [hqd]; omega, ⟨x, hx1, hx2⟩,
    ?_, ?_, ?_, hfr, ?_, ?_⟩
  · intro p hp0 hp1 hd hpv
    obtain ⟨k1, k2, k3⟩ := hI.data_ok p hp0 hp1 hd
    have hne : s.page_table.data p ≠ s.page_table.oldest := by
      intro he; rw [he] at k3; exact hpv k3.symm
    have h := hO.ordered s.page_table.oldest (s.page_table.data p) hol
      (by rw [hfull]; exact hoh) k1 k2 (by
        simp only [NUM_FRAMES] at hoh hfull
        omega)
    rw [k3] at h
    exact h
  · rw [hpt]; simp [array_set, hvp]
  · rw [hpt, hfr]; simp [array_set]
  · rw [hpt]
    exact tmod_succ_eq _ _ hol (by decide)
  · intro p hpv hpa
    rw [hpt]
    simp [array_set, hpv, hpa]

/-- C13 at a concrete input: after pages 0..127 and page 128 (which evicted page
0), a page fault for page 0 evicts page 1, the earliest installed resident
page, and page 0 takes its frame 1. -/
theorem C13_eviction_order_witness :
    ∃ s s1 r, MMU_run (MMU_init sample_mmu sample_file) (pages_from 0 129) = some s ∧
      MMU_get_byte s 0 = some (s1, r) ∧ evicted_page s 0 = some 1 ∧
      s1.page_table.data 1 = -1 ∧ r.frame = 1 ∧ s1.page_table.oldest = 2 := by
  obtain ⟨s, s1, r, h1, h2, h3⟩ :=
    C13_eviction_order sample_mmu sample_file (pages_from 0 129) 0
  have hs : s = (MMU_run (MMU_init sample_mmu sample_file) (pages_from 0 129)).getD
      sample_mmu := by rw [h1]; rfl
  have hfacts : s.ram.num_frames_used = NUM_FRAMES ∧ is_page_fault s 0 = true ∧
      s.page_table.replace_queue s.page_table.oldest = 1 ∧ s.page_table.oldest = 1 ∧
      s.page_table.data 1 = 1 := by
    rw [hs]
    set_option maxRecDepth 1000000 in decide
  obtain ⟨e1, e2, e3, e4, e5⟩ := hfacts
  obtain ⟨v, hv, k1, _, _, _, _, k6, _, k8, k9, _⟩ := h3 e1 e2
  rw [e3] at hv
  subst hv
  refine ⟨s, s1, r, h1, h2, k1, k6, by rw [k8, e5], ?_⟩
  rw [k9, e4]
  decide

/-! ## Runs that fit into the frames -/

theorem all_resident_init (g : MMU) (file : Int → Int) :
    AllResident (MMU_init g file) ∅ := by
  refine { inv := Inv_init g file, mapped := ?_, range := ?_, card := rfl, tlb_agree := ?_ }
  · intro p h0 h1
    simp [MMU_init, h0, h1]
  · intro p hp; simp at hp
  · intro i h0 h1
    have h1 : i < 0 := h1
    omega

theorem all_resident_step {s s1 : MMU} {a : Int} {r : Translation} {T : Finset Int}
    (hA : AllResident s T) (heq : MMU_get_byte s a = some (s1, r))
    (hcard : (insert (page_of a) T).card ≤ 128) :
    AllResident s1 (insert (page_of a) T) ∧ is_eviction s a = false ∧
      r.val = s.backing_store (page_of a * PAGE_SIZE + offset_of a) := by
  have hI := hA.inv
  have hI1 := Inv_step hI heq
  obtain ⟨hp0, hp1⟩ := page_of_bounds a
  obtain ⟨s2, r2, heq2, hc, hcase⟩ := step_cases s a hI
  rw [heq] at heq2
  cases heq2
  have hrange : ∀ p, p ∈ insert (page_of a) T → 0 ≤ p ∧ p < PAGE_TABLE_ENTRIES := by
    intro p hp
    rcases Finset.mem_insert.mp hp with h | h
    · rw [h]; exact ⟨hp0, hp1⟩
    · exact hA.range p h
  have hins : ∀ {f : Int}, TLB_insert s.tlb (page_of a) f = some s1.tlb →
      s1.page_table.data (page_of a) = f →
      (∀ i, 0 ≤ i → i < s.tlb.num_entries →
        s1.page_table.data (s.tlb.data i).page = (s.tlb.data i).frame) →
      ∀ i, 0 ≤ i → i < s1.tlb.num_entries →
        s1.page_table.data (s1.tlb.data i).page = (s1.tlb.data i).frame := by
    intro f hf hnew hold
    exact TLB_inserted_live
      (TLB_inserted_of_eq hI.tlb_n_lo hI.tlb_n_hi hI.tlb_front_lo hI.tlb_front_hi hf)
      (fun e => s1.page_table.data e.page = e.frame) hold hnew
  rcases hcase with h1 | h2 | h3 | h4
  · obtain ⟨c1, _, _, c4⟩ := class_of_tlb_hit h1
    obtain ⟨hlook, hne, hpt, hram, htlb⟩ := h1
    have hmap : s.page_table.data (page_of a) ≠ -1 := by
      obtain ⟨f, hf, hcs⟩ := TLB_lookup_spec s.tlb (page_of a) hI.tlb_n_lo hI.tlb_n_hi
      rw [hlook] at hf
      have hf := Option.some.inj hf
      rcases hcs with ⟨hm, _⟩ | ⟨k, hk0, hk1, hkp, hkf, _⟩
      · rw [← hf] at hm; exact absurd hm hne
      · have := hA.tlb_agree k hk0 hk1
        rw [hkp, hkf] at this
        rw [this, ← hf]; exact hne
    have hmem : page_of a ∈ T := (hA.mapped _ hp0 hp1).mp hmap
    rw [Finset.insert_eq_of_mem hmem]
    refine ⟨{ inv := hI1, mapped := by rw [hpt]; exact hA.mapped, range := hA.range,
              card := by rw [hram]; exact hA.card,
              tlb_agree := by rw [hpt, htlb]; exact hA.tlb_agree }, c4,
      (step_value hI heq (Or.inr hmap)).2⟩
  · obtain ⟨c1, _, _, c4⟩ := class_of_page_table_hit h2
    obtain ⟨hlook, hd, hne, hpt, hram, htlb⟩ := h2
    have hmap : s.page_table.data (page_of a) ≠ -1 := by rw [hd]; exact hne
    have hmem : page_of a ∈ T := (hA.mapped _ hp0 hp1).mp hmap
    rw [Finset.insert_eq_of_mem hmem]
    refine ⟨{ inv := hI1, mapped := by rw [hpt]; exact hA.mapped, range := hA.range,
              card := by rw [hram]; exact hA.card,
              tlb_agree := hins htlb (by rw [hpt]; exact hd)
                (by rw [hpt]; exact hA.tlb_agree) }, c4,
      (step_value hI heq (Or.inl c1)).2⟩
  · obtain ⟨c1, _, _, c4⟩ := class_of_fault_fill h3
    obtain ⟨hlook, hdp, hnf, hfr, hpt, hram, htlb⟩ := h3
    have hnmem : page_of a ∉ T := by
      intro hm
      exact (hA.mapped _ hp0 hp1).mpr hm hdp
    have hmiss := TLB_miss_of_lookup hI hlook
    refine ⟨{ inv := hI1, mapped := ?_, range := hrange, card := ?_, tlb_agree := ?_ }, c4,
      (step_value hI heq (Or.inl c1)).2⟩
    · intro p h0 h1
      rw [hpt]
      show array_set s.page_table.data (page_of a) r.frame p ≠ -1 ↔ _
      by_cases hpp : p = page_of a
      · simp only [array_set, hpp, if_true, Finset.mem_insert, true_or, iff_true]
        have := hc.2.2.2.2.2.1
        omega
      · simp only [array_set, hpp, if_false, Finset.mem_insert, false_or]
        exact hA.mapped p h0 h1
    · rw [Finset.card_insert_of_not_mem hnmem, hram]
      show ((T.card + 1 : Nat) : Int) = s.ram.num_frames_used + 1
      have := hA.card
      push_cast
      omega
    · refine hins htlb (by rw [hpt]; simp [array_set]) ?_
      intro i hi0 hi1
      rw [hpt]
      show array_set s.page_table.data (page_of a) r.frame (s.tlb.data i).page = _
      simp only [array_set, hmiss i hi0 hi1, if_false]
      exact hA.tlb_agree i hi0 hi1
  · exfalso
    obtain ⟨_, hdp, hnf, _⟩ := h4
    have hnmem : page_of a ∉ T := by
      intro hm
      exact (hA.mapped _ hp0 hp1).mpr hm hdp
    rw [Finset.card_insert_of_not_mem hnmem] at hcard
    have := hA.card
    simp only [NUM_FRAMES] at hnf
    omega

theorem all_resident_run {s : MMU} {T : Finset Int} (hA : AllResident s T) (l : List Int)
    (hcard : (T ∪ (l.map page_of).toFinset).card ≤ 128) :
    ∃ s1, MMU_run s l = some s1 ∧ AllResident s1 (T ∪ (l.map page_of).toFinset) ∧
      count_calls is_eviction s l = 0 := by
  induction l generalizing s T with
  | nil => exact ⟨s, rfl, by simpa using hA, rfl⟩
  | cons a rest ih =>
    have hset : T ∪ ((a :: rest).map page_of).toFinset =
        insert (page_of a) T ∪ (rest.map page_of).toFinset := by
      simp [Finset.insert_union, Finset.union_insert]
    rw [hset] at hcard ⊢
    obtain ⟨s1, r, heq, _⟩ := step_total a hA.inv
    have hsub : (insert (page_of a) T).card ≤ 128 :=
      le_trans (Finset.card_le_card Finset.subset_union_left) hcard
    obtain ⟨hA1, hev, _⟩ := all_resident_step hA heq hsub
    obtain ⟨s2, h2, hA2, hc2⟩ := ih hA1 hcard
    exact ⟨s2, by simp [MMU_run, heq, h2], hA2, by simp [count_calls, heq, hev, hc2]⟩

/-- C20: if the addresses processed from the initial state touch at most
`NUM_FRAMES = 128` distinct pages, then no call of the run goes through
`MMU_replace_page`, every live TLB entry agrees with the page table before and
after each call, and the value reported for each address `a` is the
backing-store byte at offset `a & 0xFF` of page `(a & 0xFFFF) >> 8`. -/
theorem C20_no_eviction_round_trip (g : MMU) (file : Int → Int) (addrs : List Int)
    (hD : (addrs.map page_of).dedup.length ≤ 128) :
    count_calls is_eviction (MMU_init g file) addrs = 0 ∧
    ∀ pre a post, addrs = pre ++ a :: post →
      ∃ s s1 r, MMU_run (MMU_init g file) pre = some s ∧ MMU_get_byte s a = some (s1, r) ∧
        is_eviction s a = false ∧
        (∀ i, 0 ≤ i → i < s.tlb.num_entries →
          s.page_table.data (s.tlb.data i).page = (s.tlb.data i).frame) ∧
        (∀ i, 0 ≤ i → i < s1.tlb.num_entries →
          s1.page_table.data (s1.tlb.data i).page = (s1.tlb.data i).frame) ∧
        r.val = file ((Int.land a 0xFFFF) >>> (8 : Nat) * PAGE_SIZE + Int.land a 0xFF) := by
  rw [← List.card_toFinset] at hD
  constructor
  · obtain ⟨s, _, _, hc⟩ := all_resident_run (all_resident_init g file) addrs
      (by rw [Finset.empty_union]; exact hD)
    exact hc
  · intro pre a post hsplit
    have hsub1 : (pre.map page_of).toFinset ⊆ (addrs.map page_of).toFinset := by
      intro p hp
      rw [hsplit]
      simp only [List.map_append, List.toFinset_append, Finset.mem_union]
      exact Or.inl hp
    have hsub2 : insert (page_of a) (pre.map page_of).toFinset ⊆
        (addrs.map page_of).toFinset := by
      intro p hp
      rw [hsplit]
      simp only [List.map_append, List.map_cons, List.toFinset_append, List.toFinset_cons,
        Finset.mem_union, Finset.mem_insert]
      rcases Finset.mem_insert.mp hp with h | h
      · exact Or.inr (Or.inl h)
      · exact Or.inl h
    obtain ⟨s, hrun, hA, _⟩ := all_resident_run (all_resident_init g file) pre
      (by rw [Finset.empty_union]; exact le_trans (Finset.card_le_card hsub1) hD)
    rw [Finset.empty_union] at hA
    obtain ⟨s1, r, heq, _⟩ := step_total a hA.inv
    obtain ⟨hA1, hev, hval⟩ := all_resident_step hA heq
      (le_trans (Finset.card_le_card hsub2) hD)
    have hbs2 : s.backing_store = file := by
      obtain ⟨s', hrun', _, hb'⟩ := run_from_init g file pre
      rw [hrun] at hrun'
      cases hrun'
      exact hb'
    refine ⟨s, s1, r, hrun, heq, hev, hA.tlb_agree, hA1.tlb_agree, ?_⟩
    rw [hval, hbs2]
    rfl

/-- C20 at a concrete input: the addresses 1, 258, 2 touch two pages; no call
evicts and the last call reports byte 2 of page 0. -/
theorem C20_no_eviction_round_trip_witness :
    count_calls is_eviction (MMU_init sample_mmu sample_file) [1, 258, 2] = 0 ∧
    ∃ s s1 r, MMU_run (MMU_init sample_mmu sample_file) [1, 258] = some s ∧
      MMU_get_byte s 2 = some (s1, r) ∧ r.val = sample_file (0 * 256 + 2) := by
  obtain ⟨h1, h2⟩ := C20_no_eviction_round_trip sample_mmu sample_file [1, 258, 2]
    (by decide)
  obtain ⟨s, s1, r, k1, k2, _, _, _, k6⟩ := h2 [1, 258] 2 [] rfl
  exact ⟨h1, s, s1, r, k1, k2, k6⟩

/-! ## A stale TLB entry -/

theorem TLB_insert_full (t : TLB) (p f : Int) (hn : t.num_entries = 16)
    (hf0 : 0 ≤ t.front) (hf1 : t.front < 16) :
    TLB_insert t p f = some { t with
      data := array_set t.data t.front { page := p, frame := f }
      front := (t.front + 1) % 16 } := by
  have hlt : ¬ t.num_entries < 16 := by omega
  have htm := tmod_succ_eq t.front 16 hf0 (by decide)
  simp [TLB_insert, TLB_ENTRIES, hlt, hf0, hf1, htm]

/-- The state after pages 0..127, read once each, then page 0, then page 128:
TLB slot 0 holds `(0, 0)`, slot 1 holds `(128, 0)`, page 0 is unmapped and page
128 is mapped to frame 0. -/
theorem stale_state (g : MMU) (file : Int → Int) :
    ∃ s, MMU_run (MMU_init g file) (pages_from 0 128 ++ [0, 32768]) = some s ∧ Inv s ∧
      s.backing_store = file ∧ s.tlb.num_entries = 16 ∧
      s.tlb.data 0 = { page := 0, frame := 0 } ∧
      s.tlb.data 1 = { page := 128, frame := 0 } ∧
      s.page_table.data 0 = -1 ∧ s.page_table.data 128 = 0 ∧ s.page_table.faults = 129 := by
  have hl : pages_from 0 128 = 0 :: pages_from 1 127 := by decide
  have hp0 : page_of 0 = 0 := by decide
  have hp128 : page_of 32768 = 128 := by decide
  have hnd : (([] ++ pages_from 0 128).map page_of).Nodup := by
    set_option maxRecDepth 100000 in decide
  have hlen : (pages_from 0 128).length = 128 := by simp [pages_from]
  have hnot0 : (0 : Int) ∉ (pages_from 1 127).map page_of := by
    set_option maxRecDepth 100000 in decide
  have hnot128 : page_of 32768 ∉ (pages_from 0 128).map page_of := by
    set_option maxRecDepth 100000 in decide
  have hbs : (MMU_init g file).backing_store = file := rfl
  obtain ⟨s128, hrun, hF⟩ := fresh_run (fresh_init g file) (pages_from 0 128)
    (by simp [hlen]) hnd
  simp only [List.nil_append] at hF
  have hI := hF.inv
  have hnfu : s128.ram.num_frames_used = 128 := by rw [hF.nfu, hlen]; rfl
  have hfl : s128.page_table.faults = 128 := by rw [hF.faults, hlen]; rfl
  have htn : s128.tlb.num_entries = 16 := by rw [hF.tlb_n, hlen]; decide
  have htf : s128.tlb.front = 0 := by rw [hF.tlb_front, hlen]; decide
  have hd0 : s128.page_table.data 0 = 0 := by
    have h := hF.mapped 0 0 (by rw [hl, List.getElem?_cons_zero])
    rw [hp0] at h
    simpa using h
  have hq0 : s128.page_table.replace_queue 0 = 0 := by
    have h := (hI.data_ok 0 (by decide) (by decide) (by rw [hd0]; decide)).2.2
    rw [hd0] at h
    exact h
  have hd128 : s128.page_table.data 128 = -1 := by
    have h := hF.unmapped 128 (by decide) (by decide) (by rw [← hp128]; exact hnot128)
    exact h
  -- no live TLB slot of `s128` holds page 0 or page 128
  have htlb128 : ∀ k, 0 ≤ k → k < s128.tlb.num_entries →
      (s128.tlb.data k).page ≠ 0 ∧ (s128.tlb.data k).page ≠ 128 := by
    intro k hk0 hk1
    obtain ⟨j, x, hx, hwin, hd⟩ := fresh_tlb_pages hF hk0 hk1
    rw [hd]
    have hmem := mem_pages_of_getElem? hx
    refine ⟨?_, ?_⟩
    · show page_of x ≠ 0
      have hj : j ≠ 0 := by rw [hlen] at hwin; omega
      obtain ⟨j1, rfl⟩ := Nat.exists_eq_succ_of_ne_zero hj
      rw [hl, List.getElem?_cons_succ] at hx
      intro he
      exact hnot0 (he ▸ mem_pages_of_getElem? hx)
    · show page_of x ≠ 128
      intro he
      rw [← hp128] at he
      exact hnot128 (he ▸ hmem)
  -- the read of page 0: a page-table hit
  have hlook1 : TLB_lookup s128.tlb (page_of 0) = some (-1) := by
    rw [hp0]
    obtain ⟨f, hf, hcs⟩ := TLB_lookup_spec s128.tlb 0 hI.tlb_n_lo hI.tlb_n_hi
    rcases hcs with ⟨hm, _⟩ | ⟨k, hk0, hk1, hkp, _, _⟩
    · rw [hf, hm]
    · exact absurd hkp (htlb128 k hk0 hk1).1
  obtain ⟨s129, r129, heq1, hc1, hcase1⟩ := step_cases s128 0 hI
  have hI1 := Inv_step hI heq1
  have h2 : StepPageTableHit s128 0 s129 r129 := by
    rcases hcase1 with h1 | h2 | h3 | h4
    · have h := h1.1; rw [hlook1] at h
      exact absurd (Option.some.inj h).symm h1.2.1
    · exact h2
    · have h := h3.2.1; rw [hp0, hd0] at h; cases h
    · have h := h4.2.1; rw [hp0, hd0] at h; cases h
  obtain ⟨_, hfr1, _, hpt1, hram1, htlb1⟩ := h2
  rw [hp0, hd0] at hfr1
  rw [hp0, ← hfr1, TLB_insert_full _ _ _ htn (by rw [htf]) (by rw [htf]; decide), htf] at htlb1
  have htlb1 := (Option.some.inj htlb1).symm
  have ht1n : s129.tlb.num_entries = 16 := by rw [htlb1]; exact htn
  have ht1f : s129.tlb.front = 1 := by rw [htlb1]; rfl
  have ht1d : s129.tlb.data = array_set s128.tlb.data 0 { page := 0, frame := 0 } := by
    rw [htlb1]
  -- the read of page 128: a page fault that evicts page 0
  have hlook2 : TLB_lookup s129.tlb (page_of 32768) = some (-1) := by
    rw [hp128]
    obtain ⟨f, hf, hcs⟩ := TLB_lookup_spec s129.tlb 128 hI1.tlb_n_lo hI1.tlb_n_hi
    rcases hcs with ⟨hm, _⟩ | ⟨k, hk0, hk1, hkp, _, _⟩
    · rw [hf, hm]
    · exfalso
      rw [ht1d] at hkp
      by_cases hk : k = 0
      · simp [array_set, hk] at hkp
      · simp only [array_set, hk, if_false] at hkp
        exact (htlb128 k hk0 (by rw [htn]; rw [ht1n] at hk1; exact hk1)).2 hkp
  have hd128' : s129.page_table.data (page_of 32768) = -1 := by
    rw [hpt1, hp128]; exact hd128
  obtain ⟨s130, r130, heq2, hc2, hcase2⟩ := step_cases s129 32768 hI1
  have hI2 := Inv_step hI1 heq2
  have h4 : StepFaultEvict s129 32768 s130 r130 := by
    rcases hcase2 with h1 | h2 | h3 | h4
    · have h := h1.1; rw [hlook2] at h
      exact absurd (Option.some.inj h).symm h1.2.1
    · have h := h2.2.1; rw [hd128'] at h
      exact absurd h.symm h2.2.2.1
    · exact absurd (by rw [hram1]; exact hnfu) h3.2.2.1
    · exact h4
  obtain ⟨_, _, _, hfr2, hpt2, _, htlb2⟩ := h4
  rw [hpt1, hF.oldest, hq0, hd0] at hfr2
  rw [hpt1, hF.oldest, hq0, hfr2, hp128] at hpt2
  rw [hp128, hfr2, TLB_insert_full _ _ _ ht1n (by rw [ht1f]; decide) (by rw [ht1f]; decide),
    ht1f, ht1d] at htlb2
  have htlb2 := (Option.some.inj htlb2).symm
  refine ⟨s130, ?_, hI2, ?_, ?_, ?_, ?_, ?_, ?_, ?_⟩
  · rw [MMU_run_append, hrun]
    simp [MMU_run, heq1, heq2]
  · rw [hc2.2.2.2.2.2.2.2.1, hc1.2.2.2.2.2.2.2.1]
    obtain ⟨s', hs', _, hb'⟩ := run_backing_store (Inv_init g file) (pages_from 0 128)
    rw [hrun] at hs'
    cases hs'
    rw [hb', hbs]
  · rw [htlb2]; exact ht1n
  · rw [htlb2]; simp [array_set]
  · rw [htlb2]; simp [array_set]
  · rw [hpt2]; simp [array_set]
  · rw [hpt2]; simp [array_set]
  · rw [hpt2]
    show s128.page_table.faults + 1 = 129
    rw [hfl]; rfl

/-- C17: stale TLB entries exist. After pages 0..127, read once each, then page
0, then page 128, the TLB holds the entry `(0 -> 0)` while `PageTable[0] = -1`
and `PageTable[128] = 0`. Every following read of an address of page 0 is then a
TLB hit: it is not a page fault, the fault counter, the page table and the TLB
slots are unchanged, it uses frame 0 and reports the byte of page 128 at the
offset of the address. -/
theorem C17_stale_tlb_entry (g : MMU) (file : Int → Int) :
    ∃ s, MMU_run (MMU_init g file) (pages_from 0 128 ++ [0, 32768]) = some s ∧
      (∃ i, 0 ≤ i ∧ i < s.tlb.num_entries ∧ s.tlb.data i = { page := 0, frame := 0 }) ∧
      s.page_table.data 0 = -1 ∧ s.page_table.data 128 = 0 ∧
      ∀ a, page_of a = 0 →
        ∃ s1 r, MMU_get_byte s a = some (s1, r) ∧
          is_tlb_hit s a = true ∧ is_page_fault s a = false ∧
          s1.page_table = s.page_table ∧ s1.ram = s.ram ∧
          s1.tlb.hits = s.tlb.hits + 1 ∧ s1.tlb.data = s.tlb.data ∧
          s1.tlb.num_entries = s.tlb.num_entries ∧ s1.tlb.front = s.tlb.front ∧
          r.frame = 0 ∧ r.val = file (128 * PAGE_SIZE + offset_of a) := by
  obtain ⟨s, hrun, hI, hbs, hn, ht0, _, hd0, hd128, _⟩ := stale_state g file
  refine ⟨s, hrun, ⟨0, le_refl _, by rw [hn]; decide, ht0⟩, hd0, hd128, ?_⟩
  intro a hpa
  have hl := lookup_of_entry hI (le_refl 0) (by rw [hn]; decide : (0 : Int) < s.tlb.num_entries)
  rw [ht0] at hl
  have hl : TLB_lookup s.tlb (page_of a) = some 0 := by rw [hpa]; exact hl
  obtain ⟨s1, r, heq, hc, hcase⟩ := step_cases s a hI
  obtain ⟨ho0, ho1⟩ := offset_of_bounds a
  have h1 : StepTlbHit s a s1 r := by
    rcases hcase with h1 | h2 | h3 | h4
    · exact h1
    · have h := h2.1; rw [hl] at h; cases h
    · have h := h3.1; rw [hl] at h; cases h
    · have h := h4.1; rw [hl] at h; cases h
  obtain ⟨c1, _, c3, _⟩ := class_of_tlb_hit h1
  obtain ⟨hlook, _, hpt, hram, htlb⟩ := h1
  rw [hl] at hlook
  have hfr : r.frame = 0 := (Option.some.inj hlook).symm
  refine ⟨s1, r, heq, c1, c3, hpt, hram, by rw [htlb], by rw [htlb], by rw [htlb],
    by rw [htlb], hfr, ?_⟩
  have hm := hI.mem_ok 128 (by decide) (by decide) (by rw [hd128]; decide) (offset_of a) ho0
    (by simp only [PAGE_SIZE]; exact ho1)
  rw [hd128, hbs] at hm
  rw [hc.2.2.2.2.1, hram, hfr, hm]

/-- C19: in every state reached from the initial one the live TLB entries have
pairwise distinct page numbers, so the scan of `TLB_lookup` has at most one
candidate and returns its frame; a call inserts into the TLB only after
`TLB_lookup` returned `-1` for the page, which is then in no live slot. Frame
numbers may repeat: after pages 0..127, page 0 and page 128, slots 0 and 1 hold
pages 0 and 128 with the same frame 0. -/
theorem C19_tlb_pages_distinct (g : MMU) (file : Int → Int) (pre : List Int) (a : Int) :
    (∃ s s1 r, MMU_run (MMU_init g file) pre = some s ∧ MMU_get_byte s a = some (s1, r) ∧
      (∀ i j, 0 ≤ i → i < s.tlb.num_entries → 0 ≤ j → j < s.tlb.num_entries →
        (s.tlb.data i).page = (s.tlb.data j).page → i = j) ∧
      (∀ i, 0 ≤ i → i < s.tlb.num_entries →
        TLB_lookup s.tlb (s.tlb.data i).page = some (s.tlb.data i).frame) ∧
      (is_tlb_hit s a = false →
        TLB_lookup s.tlb (page_of a) = some (-1) ∧
        (∀ i, 0 ≤ i → i < s.tlb.num_entries → (s.tlb.data i).page ≠ page_of a) ∧
        TLB_insert s.tlb (page_of a) r.frame = some s1.tlb)) ∧
    (∃ s, MMU_run (MMU_init g file) (pages_from 0 128 ++ [0, 32768]) = some s ∧
      1 < s.tlb.num_entries ∧ (s.tlb.data 0).page ≠ (s.tlb.data 1).page ∧
      (s.tlb.data 0).frame = (s.tlb.data 1).frame) := by
  constructor
  · obtain ⟨s, hrun, hI, _⟩ := run_from_init g file pre
    obtain ⟨s1, r, heq, _⟩ := step_total a hI
    refine ⟨s, s1, r, hrun, heq, hI.tlb_distinct, fun i h0 h1 => lookup_of_entry hI h0 h1, ?_⟩
    intro hm
    obtain ⟨k1, k2, _⟩ := insert_on_miss hI heq hm
    exact ⟨k1, TLB_miss_of_lookup hI k1, k2⟩
  · obtain ⟨s, hrun, _, _, hn, ht0, ht1, _⟩ := stale_state g file
    refine ⟨s, hrun, by rw [hn]; decide, ?_, ?_⟩
    · rw [ht0, ht1]; decide
    · rw [ht0, ht1]

end VMM
